import Mathlib

/-!
# Build helpers of `do/util.go`

A shallow embedding of the helper functions of `do/util.go`: the logging and
abort helpers, the file-system helpers, the process runner with its git
wrappers, and the zip helpers.

Conventions of the embedding.

* A Go `string` and a `[]byte` are both finite sequences of bytes. A byte is
  written as a `Char`, so that the ASCII literals of the source can be written
  as they are; nothing depends on a `Char` being more than a letter of an
  alphabet with decidable equality.
* Every function takes the `World` it runs in and returns the `World` it leaves
  together with an `Outcome`: a normal return, a panic, or `os.Exit`.
* What the operating system answers is part of the `World`: the file system,
  the answers of subprocesses, and a table of faults that tells which calls
  the environment refuses (permissions, a full disk, ...).
* The file system is one tree below the root. A path names the place that its
  elements lead to, from the root when it starts with a slash and from the
  working directory otherwise: `.` stays, `..` goes one directory up, a name
  goes down, and every element is taken from a directory that is there. No
  link is followed.
* The embedding follows the Unix build: `filepath.Separator` is the slash.
-/

namespace DoUtil

/-- A Go `string` or `[]byte`: a finite sequence of bytes. -/
abbrev Str := List Char

/-- A Go `error` value: the text of `Error()` and the answer of `os.IsNotExist`. -/
structure GoError where
  text : Str
  notExist : Bool
deriving DecidableEq

/-- The value a panic carries. -/
inductive PanicValue where
  /-- The call `panic(err)` of `must`. -/
  | error (e : GoError)
  /-- A call `panic(s)` with a string. -/
  | text (s : Str)
  /-- The run-time panic of a method call through a nil interface value. -/
  | nilDereference
deriving DecidableEq

/-- How a call ends. -/
inductive Outcome (α : Type) where
  /-- The function returns to its caller. -/
  | returned (a : α)
  /-- The function panics; nothing in this file recovers. -/
  | panicked (v : PanicValue)
  /-- The function calls `os.Exit`. -/
  | exited (code : Nat)
deriving DecidableEq

/-- What `os.Stat` / `ioutil.ReadDir` find at a place: a regular file with its
bytes, a directory with its entries in the order `ioutil.ReadDir` lists them,
or something that is neither (a symlink, a device, a pipe). -/
inductive Node where
  | file (data : Str)
  | dir (entries : List (Str × Node))
  | other

/-- An operand of a formatting call (`interface{}`), as far as this file uses
them: strings (also the text of an error or of a command) and integers. -/
inductive Arg where
  | str (s : Str)
  | int (n : Int)
deriving DecidableEq

/-- The answer of the environment to running a subprocess: the combined
output it produced and the error of `Run` / `CombinedOutput` (`none` when the
process started and finished with exit status zero). -/
structure ProcResult where
  out : Str
  err : Option GoError
deriving DecidableEq

/-- The fields of `exec.Cmd` the helpers look at. `Stdout` and `Stderr` are
`none` for a nil writer and name the writer the caller set otherwise. -/
structure Cmd where
  Path : Str
  Args : List Str
  Dir : Str
  Stdout : Option Nat
  Stderr : Option Nat
  lookPathErr : Option GoError
deriving DecidableEq

/-- The calls the environment refuses. Each field gives the error of the call
on the named path (or archive entry), `none` when the environment lets the
call through. -/
structure Faults where
  remove : Str → Option GoError
  removeAll : Str → Option GoError
  mkdirAll : Str → Option GoError
  create : Str → Option GoError
  stat : Str → Option GoError
  readFile : Str → Option GoError
  readDir : Str → Option GoError
  zipCreate : Str → Option GoError
  zipWrite : Str → Option GoError
  zipClose : Option GoError
  openReader : Str → Option GoError
  entryOpen : Str → Option GoError
  entryRead : Str → Option GoError

/-- The environment in which nothing is refused. -/
def Faults.none : Faults where
  remove := fun _ => Option.none
  removeAll := fun _ => Option.none
  mkdirAll := fun _ => Option.none
  create := fun _ => Option.none
  stat := fun _ => Option.none
  readFile := fun _ => Option.none
  readDir := fun _ => Option.none
  zipCreate := fun _ => Option.none
  zipWrite := fun _ => Option.none
  zipClose := Option.none
  openReader := fun _ => Option.none
  entryOpen := fun _ => Option.none
  entryRead := fun _ => Option.none

/-- The state the helpers run in.

* `stdout`: the texts written to standard output, oldest first.
* `logFile`: the package variable `logFile`; `none` is the nil writer, and
  `some ws` a writer that was handed the texts `ws`, oldest first.
* `root`: the file system, the tree below the root directory.
* `cwd`: the working directory, as the names that lead to it from the root.
* `faults`: the calls the environment refuses.
* `lookPath`: the answer of `exec.LookPath`.
* `exec`: the answer of the environment to running a command. -/
structure World where
  stdout : List Str
  logFile : Option (List Str)
  root : Node
  cwd : List Str
  faults : Faults
  lookPath : Str → Except GoError Str
  exec : Cmd → ProcResult

/-- One write to standard output (`fmt.Print`, `fmt.Printf`). -/
def World.print (w : World) (s : Str) : World :=
  { w with stdout := w.stdout ++ [s] }

/-- One write to the writer `logFile`, when it is not nil (`fmt.Fprint`,
`fmt.Fprintf`); the error of the write is dropped, as in the source. -/
def World.printLog (w : World) (s : Str) : World :=
  match w.logFile with
  | some ws => { w with logFile := some (ws ++ [s]) }
  | Option.none => w

/-! ## `must` and `logf` -/

/-- The function `must`: on a non-nil error print it and panic with it. -/
def must (w : World) (err : Option GoError) : World × Outcome Unit :=
  match err with
  | Option.none => (w, Outcome.returned ())
  | some e => (w.print ("err: ".toList ++ e.text ++ "\n".toList), Outcome.panicked (PanicValue.error e))

/-- The function `logf`. The formatter `sprintf` stands for `fmt.Sprintf`:
`fmt.Printf(format, args...)` writes `sprintf format args`. The source tests
`len(args) == 0` first and then prints `format` itself with `fmt.Print`. -/
def logf (sprintf : Str → List Arg → Str) (w : World) (format : Str) (args : List Arg) : World :=
  if args.length = 0 then
    (w.print format).printLog format
  else
    (w.print (sprintf format args)).printLog (sprintf format args)

/-! ## A fragment of `fmt.Sprintf` -/

/-- The decimal digits of a natural number. -/
def natDigits (n : Nat) : Str := (Nat.repr n).toList

/-- The text `fmt` prints for an operand under the verbs `%v`, `%s`, `%d`; a
verb that does not fit the operand gives the bad-verb form
`%!verb(type=value)`. -/
def formatArg (verb : Char) (a : Arg) : Str :=
  match a with
  | Arg.str s =>
    if verb = 's' ∨ verb = 'v' then s
    else "%!".toList ++ [verb] ++ "(string=".toList ++ s ++ ")".toList
  | Arg.int n =>
    let digits := (if n < 0 then "-".toList else []) ++ natDigits n.natAbs
    if verb = 'd' ∨ verb = 'v' then digits
    else "%!".toList ++ [verb] ++ "(int=".toList ++ digits ++ ")".toList

/-- The operand list of the `%!(EXTRA ...)` suffix. -/
def extraArgs : List Arg → Str
  | [] => []
  | [Arg.str s] => "string=".toList ++ s
  | [Arg.int n] => "int=".toList ++ formatArg 'd' (Arg.int n)
  | Arg.str s :: rest => "string=".toList ++ s ++ ", ".toList ++ extraArgs rest
  | Arg.int n :: rest => "int=".toList ++ formatArg 'd' (Arg.int n) ++ ", ".toList ++ extraArgs rest

/-- The function `fmt.Sprintf` on the formats made of plain text and the
directives `%%`, `%s`, `%v`, `%d` (no flags, width or precision): `%%` writes
a percent sign and takes no operand, a verb takes the next operand, a verb
without operand writes `%!verb(MISSING)`, a percent sign at the end writes
`%!(NOVERB)`, and operands left over are listed as `%!(EXTRA ...)`. -/
def Sprintf : Str → List Arg → Str
  | [], [] => []
  | [], a :: rest => "%!(EXTRA ".toList ++ extraArgs (a :: rest) ++ ")".toList
  | ['%'], [] => "%!(NOVERB)".toList
  | ['%'], a :: rest =>
    "%!(NOVERB)".toList ++ "%!(EXTRA ".toList ++ extraArgs (a :: rest) ++ ")".toList
  | '%' :: '%' :: fmt, args => '%' :: Sprintf fmt args
  | '%' :: verb :: fmt, [] => "%!".toList ++ [verb] ++ "(MISSING)".toList ++ Sprintf fmt []
  | '%' :: verb :: fmt, a :: rest => formatArg verb a ++ Sprintf fmt rest
  | c :: fmt, args => c :: Sprintf fmt args

/-! ## Paths (`path/filepath`, Unix build) -/

/-- The function `strings.Join` with the separator `sep`. -/
def strings.Join (elems : List Str) (sep : Str) : Str :=
  match elems with
  | [] => []
  | [e] => e
  | e :: rest => e ++ sep ++ strings.Join rest sep

/-- The constant `filepath.Separator`. -/
def Separator : Char := '/'

/-- The elements of a path: the pieces between separators, empty pieces
included. -/
def splitSep (sep : Char) : Str → List Str
  | [] => [[]]
  | c :: cs =>
    if c = sep then [] :: splitSep sep cs
    else
      match splitSep sep cs with
      | [] => [[c]]
      | x :: xs => (c :: x) :: xs

/-- One element of a path under the rules of `filepath.Clean`; `stack` holds
the elements kept so far, the latest first. An empty element and `.` are
dropped; `..` takes away the element before it, is dropped at the root, and is
kept where there is nothing to take away; any other element is kept. -/
def cleanStep (rooted : Bool) (stack : List Str) (elem : Str) : List Str :=
  if elem = [] ∨ elem = ['.'] then stack
  else if elem = ['.', '.'] then
    match stack with
    | [] => if rooted then [] else [elem]
    | top :: below => if top = ['.', '.'] then elem :: stack else below
  else elem :: stack

/-- A path is rooted when it starts with the separator. -/
def rooted (path : Str) : Bool := decide (path.head? = some Separator)

/-- The elements `filepath.Clean` keeps, the latest first. -/
def cleanStack (path : Str) : List Str :=
  (splitSep Separator path).foldl (cleanStep (rooted path)) []

/-- The path written from its elements (latest first): a rooted path starts
with the separator, and a path without elements that is not rooted is `.`. -/
def renderPath (rooted : Bool) (stack : List Str) : Str :=
  if rooted then Separator :: strings.Join stack.reverse [Separator]
  else if stack = [] then ['.']
  else strings.Join stack.reverse [Separator]

/-- The function `filepath.Clean`. -/
def filepath.Clean (path : Str) : Str :=
  if path = [] then ['.']
  else renderPath (rooted path) (cleanStack path)

/-- The function `filepath.Join`: leading empty elements are skipped, the
rest is joined with the separator and cleaned; no element at all gives the
empty string. -/
def filepath.Join (elem : List Str) : Str :=
  match elem.dropWhile (fun e => decide (e = [])) with
  | [] => []
  | e :: rest => filepath.Clean (strings.Join (e :: rest) [Separator])

/-- The function `filepath.ToSlash`. -/
def filepath.ToSlash (path : Str) : Str :=
  if Separator = '/' then path
  else path.map (fun c => if c = Separator then '/' else c)

/-! ## The file system -/

/-- The error of a call on a path that does not exist (`ENOENT`). -/
def errNotExist (op path : Str) : GoError :=
  { text := op ++ " ".toList ++ path ++ ": no such file or directory".toList, notExist := true }

/-- An error of a call on a path, other than `ENOENT`. -/
def errPath (op path reason : Str) : GoError :=
  { text := op ++ " ".toList ++ path ++ ": ".toList ++ reason, notExist := false }

/-- The function `os.IsNotExist`. -/
def os.IsNotExist (e : GoError) : Bool := e.notExist

/-- What a directory holds under a name: the first entry with that name. -/
def lookupEntry (name : Str) : List (Str × Node) → Option Node
  | [] => Option.none
  | (k, n) :: rest => if k = name then some n else lookupEntry name rest

/-- What a walk along names finds: a node, nothing (`ENOENT`), or a name that
is to be looked up in something that is not a directory (`ENOTDIR`). -/
inductive Found where
  | node (n : Node)
  | missing
  | notDir

/-- The walk from a node along names. -/
def Node.get : List Str → Node → Found
  | [], n => Found.node n
  | c :: rest, Node.dir files =>
    match lookupEntry c files with
    | some child => Node.get rest child
    | Option.none => Found.missing
  | _ :: _, _ => Found.notDir

/-- The order of file names in a listing: byte by byte. -/
def strLt : Str → Str → Bool
  | [], [] => false
  | [], _ :: _ => true
  | _ :: _, [] => false
  | a :: as, b :: bs => if a < b then true else if b < a then false else strLt as bs

/-- A listing with `name` holding `n`: in place of the entry of that name, or
as a new entry before the first greater name. -/
def insertEntry (name : Str) (n : Node) : List (Str × Node) → List (Str × Node)
  | [] => [(name, n)]
  | (k, m) :: rest =>
    if k = name then (name, n) :: rest
    else if strLt name k then (name, n) :: (k, m) :: rest
    else (k, m) :: insertEntry name n rest

/-- The tree with the place reached along the names holding `x` (`none`: holding
nothing). The root itself is never replaced, and nothing changes when the
names lead through something that is not a directory. -/
def Node.put : List Str → Option Node → Node → Node
  | [], _, n => n
  | c :: rest, x, Node.dir files =>
    match rest with
    | [] =>
      match x with
      | some m => Node.dir (insertEntry c m files)
      | Option.none => Node.dir (files.filter (fun e => decide (e.1 ≠ c)))
    | _ :: _ =>
      Node.dir (files.map (fun e => if e.1 = c then (e.1, Node.put rest x e.2) else e))
  | _ :: _, _, n => n

/-- The tree with a directory at the place reached along the names, and with
every directory on the way that was missing; `none` when the way leads
through something that is not a directory. -/
def mkdirs : List Str → Node → Option Node
  | [], Node.dir files => some (Node.dir files)
  | [], _ => Option.none
  | c :: rest, Node.dir files =>
    match lookupEntry c files with
    | some child => (mkdirs rest child).map (fun ch => Node.dir (insertEntry c ch files))
    | Option.none =>
      (mkdirs rest (Node.dir [])).map (fun ch => Node.dir (insertEntry c ch files))
  | _ :: _, _ => Option.none

/-- Where the walk along the elements of a path ends: at a place, given as the
names that lead to it from the root, or with an element that is to be taken
from a directory that is not there (`ENOENT`) or from something that is not a
directory (`ENOTDIR`). What the place itself holds is another matter. -/
inductive Located where
  | place (l : List Str)
  | missing
  | notDir
deriving DecidableEq

/-- One element of a path, taken from a place: an empty element and `.` stay,
`..` leads one directory up (and stays at the root), a name leads down. -/
def stepPlace (place : List Str) (elem : Str) : List Str :=
  if elem = [] ∨ elem = ['.'] then place
  else if elem = ['.', '.'] then place.dropLast
  else place ++ [elem]

/-- The walk along the elements of a path: every element, also `.`, `..` and
the empty element a trailing slash leaves, is taken from a directory that is
there. -/
def walkPlace (root : Node) : List Str → List Str → Located
  | place, [] => Located.place place
  | place, e :: rest =>
    match Node.get place root with
    | Found.node (Node.dir _) => walkPlace root (stepPlace place e) rest
    | Found.node _ => Located.notDir
    | Found.missing => Located.missing
    | Found.notDir => Located.notDir

/-- The walk of `os.MkdirAll`: as `walkPlace`, but a name is also taken from a
directory that is not there, which the call is to make. An element `..` taken
from a directory that is not there is refused: the real call makes that
directory first and goes on from the directory above it, which is left out
here. -/
def walkNew (root : Node) : List Str → List Str → Located
  | place, [] => Located.place place
  | place, e :: rest =>
    match Node.get place root with
    | Found.node (Node.dir _) => walkNew root (stepPlace place e) rest
    | Found.node _ => Located.notDir
    | Found.missing =>
      if e = ['.', '.'] then Located.missing else walkNew root (stepPlace place e) rest
    | Found.notDir => Located.notDir

/-- The place a path names: the walk along its elements, from the root when
the path starts with a slash and from the working directory otherwise; the
empty path names nothing. -/
def World.locate (w : World) (path : Str) : Located :=
  if path = [] then Located.missing
  else walkPlace w.root (if rooted path then [] else w.cwd) (splitSep Separator path)

/-- What the file system holds at a path. -/
def World.find (w : World) (path : Str) : Found :=
  match w.locate path with
  | Located.place place => Node.get place w.root
  | Located.missing => Found.missing
  | Located.notDir => Found.notDir

/-- The node a walk found, if any. -/
def Found.toOption : Found → Option Node
  | Found.node n => some n
  | _ => Option.none

/-- The node the file system holds at a path, if any. -/
def World.fs (w : World) (path : Str) : Option Node := (w.find path).toOption

/-- The file system with the place of `path` holding `n` (`none` removes what is
there, with everything below it). -/
def World.setNode (w : World) (path : Str) (n : Option Node) : World :=
  match w.locate path with
  | Located.place place => { w with root := Node.put place n w.root }
  | _ => w

/-- The function `os.Remove`: removes the file or empty directory at `path`.
The environment may refuse the call; a path at which nothing is gives `ENOENT`,
or `ENOTDIR` when it leads through something that is not a directory; a
directory with entries, and the root, are not removed. Only a successful call
changes the file system. -/
def os.Remove (w : World) (path : Str) : World × Option GoError :=
  match w.faults.remove path with
  | some e => (w, some e)
  | Option.none =>
    match w.find path with
    | Found.node (Node.dir (_ :: _)) =>
      (w, some (errPath "remove".toList path "directory not empty".toList))
    | Found.node _ =>
      if w.locate path = Located.place [] then
        (w, some (errPath "remove".toList path "device or resource busy".toList))
      else (w.setNode path Option.none, Option.none)
    | Found.missing => (w, some (errNotExist "remove".toList path))
    | Found.notDir => (w, some (errPath "remove".toList path "not a directory".toList))

/-- The test `endsWithDot` of `os.RemoveAll`. -/
def endsWithDot (path : Str) : Bool :=
  decide (path = ['.']) || decide (path.reverse.take 2 = ['.', Separator])

/-- The function `os.RemoveAll`: removes `path` and everything below it, and
returns nil when the path is empty or nothing is there. A path that ends in
`.`, a path through something that is not a directory, and the root give an
error. When the environment refuses the call the error is returned and the
tree stays as it was (a directory without write permission); what a failing
call could remove first is not modelled. -/
def os.RemoveAll (w : World) (path : Str) : World × Option GoError :=
  if path = [] then (w, Option.none)
  else if endsWithDot path then
    (w, some (errPath "RemoveAll".toList path "invalid argument".toList))
  else
    match w.find path with
    | Found.missing => (w, Option.none)
    | Found.notDir => (w, some (errPath "unlinkat".toList path "not a directory".toList))
    | Found.node _ =>
      match w.faults.removeAll path with
      | some e => (w, some e)
      | Option.none =>
        if w.locate path = Located.place [] then
          (w, some (errPath "unlinkat".toList path "device or resource busy".toList))
        else (w.setNode path Option.none, Option.none)

/-- The function `os.MkdirAll`: does nothing and returns nil when `path` is a
directory already, fails when something else is there or on the way, and
creates the directory with every directory missing on the way otherwise,
unless the environment refuses. -/
def os.MkdirAll (w : World) (path : Str) : World × Option GoError :=
  if path = [] then (w, some (errNotExist "mkdir".toList path))
  else
    match walkNew w.root (if rooted path then [] else w.cwd) (splitSep Separator path) with
    | Located.missing => (w, some (errNotExist "mkdir".toList path))
    | Located.notDir => (w, some (errPath "mkdir".toList path "not a directory".toList))
    | Located.place place =>
      match Node.get place w.root with
      | Found.node (Node.dir _) => (w, Option.none)
      | Found.node _ => (w, some (errPath "mkdir".toList path "not a directory".toList))
      | Found.notDir => (w, some (errPath "mkdir".toList path "not a directory".toList))
      | Found.missing =>
        match w.faults.mkdirAll path with
        | some e => (w, some e)
        | Option.none =>
          match mkdirs place w.root with
          | some root1 => ({ w with root := root1 }, Option.none)
          | Option.none => (w, some (errPath "mkdir".toList path "not a directory".toList))

/-- The function `ioutil.ReadFile`: the bytes and a nil error for a regular
file the environment lets read, and no bytes with the error otherwise. -/
def ioutil.ReadFile (w : World) (path : Str) : Str × Option GoError :=
  match w.faults.readFile path with
  | some e => ([], some e)
  | Option.none =>
    match w.find path with
    | Found.node (Node.file d) => (d, Option.none)
    | Found.node (Node.dir _) => ([], some (errPath "read".toList path "is a directory".toList))
    | Found.node Node.other =>
      ([], some (errPath "read".toList path "not a regular file".toList))
    | Found.missing => ([], some (errNotExist "open".toList path))
    | Found.notDir => ([], some (errPath "open".toList path "not a directory".toList))

/-- The function `os.Create`: an empty regular file at `path`, in place of the
regular file that was there or as a new entry of the directory above; it
fails when the environment refuses, when the place holds a directory or
something that is not a regular file, and when the directory above is not
there. -/
def os.Create (w : World) (path : Str) : World × Option GoError :=
  match w.faults.create path with
  | some e => (w, some e)
  | Option.none =>
    match w.locate path with
    | Located.missing => (w, some (errNotExist "open".toList path))
    | Located.notDir => (w, some (errPath "open".toList path "not a directory".toList))
    | Located.place place =>
      match Node.get place w.root with
      | Found.node (Node.file _) => (w.setNode path (some (Node.file [])), Option.none)
      | Found.node (Node.dir _) =>
        (w, some (errPath "open".toList path "is a directory".toList))
      | Found.node Node.other =>
        (w, some (errPath "open".toList path "not a regular file".toList))
      | Found.notDir => (w, some (errPath "open".toList path "not a directory".toList))
      | Found.missing =>
        match Node.get place.dropLast w.root with
        | Found.node (Node.dir _) => (w.setNode path (some (Node.file [])), Option.none)
        | _ => (w, some (errNotExist "open".toList path))

/-- The function `os.Stat`. -/
def os.Stat (w : World) (path : Str) : Except GoError Node :=
  match w.faults.stat path with
  | some e => Except.error e
  | Option.none =>
    match w.find path with
    | Found.node n => Except.ok n
    | Found.missing => Except.error (errNotExist "stat".toList path)
    | Found.notDir => Except.error (errPath "stat".toList path "not a directory".toList)

/-! ## File-system helpers -/

/-- Modelled from the spec: `u.ReadFileMust` belongs to the library
`github.com/kjk/u`, which is not among the sources; `areFilesEqual` "aborts if
either read fails", so the helper reads the file and panics with the error of
a failed read. -/
def u.ReadFileMust (w : World) (path : Str) : World × Outcome Str :=
  match ioutil.ReadFile w path with
  | (d, Option.none) => (w, Outcome.returned d)
  | (_, some e) => (w, Outcome.panicked (PanicValue.error e))

/-- The function `bytes.Equal`. -/
def bytes.Equal (a b : Str) : Bool := decide (a = b)

/-- The function `recreateDir`: the error of `os.RemoveAll` is dropped, the
error of `os.MkdirAll` goes to `must`. -/
def recreateDir (w : World) (dir : Str) : World × Outcome Unit :=
  let r1 := os.RemoveAll w dir
  let r2 := os.MkdirAll r1.1 dir
  must r2.1 r2.2

/-- The function `removeFile`. -/
def removeFile (sprintf : Str → List Arg → Str) (w : World) (path : Str) : World × Outcome Unit :=
  match os.Remove w path with
  | (w1, Option.none) =>
    (logf sprintf w1 "removeFile('%s')".toList [Arg.str path], Outcome.returned ())
  | (w1, some err) =>
    if os.IsNotExist err then
      (w1, Outcome.returned ())
    else
      (w1.print ("os.Remove('".toList ++ path ++ "') failed with '".toList ++ err.text ++ "'\n".toList),
        Outcome.returned ())

/-- The function `areFilesEuqal`. -/
def areFilesEuqal (w : World) (path1 path2 : Str) : World × Outcome Bool :=
  match u.ReadFileMust w path1 with
  | (w1, Outcome.returned d1) =>
    match u.ReadFileMust w1 path2 with
    | (w2, Outcome.returned d2) => (w2, Outcome.returned (bytes.Equal d1 d2))
    | (w2, Outcome.panicked v) => (w2, Outcome.panicked v)
    | (w2, Outcome.exited c) => (w2, Outcome.exited c)
  | (w1, Outcome.panicked v) => (w1, Outcome.panicked v)
  | (w1, Outcome.exited c) => (w1, Outcome.exited c)

/-! ## Running commands -/

/-- The function `exec.Command`: `Path` is the answer of `exec.LookPath` for a
name without a directory, and the name itself when the lookup fails. -/
def exec.Command (w : World) (name : Str) (args : List Str) : Cmd :=
  match w.lookPath name with
  | Except.ok p =>
    { Path := p, Args := name :: args, Dir := [], Stdout := Option.none, Stderr := Option.none,
      lookPathErr := Option.none }
  | Except.error e =>
    { Path := name, Args := name :: args, Dir := [], Stdout := Option.none, Stderr := Option.none,
      lookPathErr := some e }

/-- The method `(*exec.Cmd).String`, which `%s` prints. -/
def Cmd.String (c : Cmd) : Str :=
  match c.lookPathErr with
  | some _ => strings.Join c.Args " ".toList
  | Option.none => strings.Join (c.Path :: c.Args.tail) " ".toList

/-- The function `runCmd`. Both `cmd.CombinedOutput()` and `cmd.Run()` are the
answer `w.exec cmd` of the environment; without capture the output of the
child goes to the writers the caller set and is not seen here. -/
def runCmd (w : World) (cmd : Cmd) : World × Outcome Str :=
  let w0 := w.print ("> ".toList ++ cmd.String ++ "\n".toList)
  let canCapture := cmd.Stdout.isNone && cmd.Stderr.isNone
  if canCapture then
    let out := (w0.exec cmd).out
    match (w0.exec cmd).err with
    | Option.none =>
      if out.length > 0 then
        (w0.print ("Output:\n".toList ++ out ++ "\n".toList), Outcome.returned out)
      else
        (w0, Outcome.returned out)
    | some err =>
      let w1 := w0.print ("cmd '".toList ++ cmd.String ++ "' failed with '".toList ++ err.text
        ++ "'. Output:\n".toList ++ out ++ "\n".toList)
      match must w1 (some err) with
      | (w2, Outcome.returned _) => (w2, Outcome.returned out)
      | (w2, Outcome.panicked v) => (w2, Outcome.panicked v)
      | (w2, Outcome.exited c) => (w2, Outcome.exited c)
  else
    match (w0.exec cmd).err with
    | Option.none => (w0, Outcome.returned [])
    | some err =>
      let w1 := w0.print ("cmd '".toList ++ cmd.String ++ "' failed with '".toList ++ err.text
        ++ "'\n".toList)
      match must w1 (some err) with
      | (w2, Outcome.returned _) => (w2, Outcome.returned [])
      | (w2, Outcome.panicked v) => (w2, Outcome.panicked v)
      | (w2, Outcome.exited c) => (w2, Outcome.exited c)

/-- The function `gitStatus`. -/
def gitStatus (w : World) (dir : Str) : World × Outcome Str :=
  let cmd := exec.Command w "git".toList ["status".toList]
  let cmd1 := if dir ≠ [] then { cmd with Dir := dir } else cmd
  runCmd w cmd1

/-- The function `strings.Contains`: `substr` occurs in `s` at some position. -/
def strings.Contains (s substr : Str) : Bool :=
  match s with
  | [] => substr.isEmpty
  | c :: cs => substr.isPrefixOf (c :: cs) || strings.Contains cs substr

/-- The literals `checkGitClean` looks for, in the order of the source. -/
def expected : List Str :=
  [ "On branch master".toList,
    "Your branch is up to date with 'origin/master'.".toList,
    "nothing to commit, working tree clean".toList ]

/-- The loop of `checkGitClean` over the literals still to check: the first
one missing from `s` prints the diagnostic and ends the process with status 1. -/
def checkGitCleanLoop (w : World) (dir s : Str) : List Str → World × Outcome Unit
  | [] => (w, Outcome.returned ())
  | exp :: rest =>
    if !strings.Contains s exp then
      (w.print ("Git repo in '".toList ++ dir ++ "' not clean.\nDidn't find '".toList ++ exp
        ++ "' in output of git status:\n".toList ++ s ++ "\n".toList), Outcome.exited 1)
    else
      checkGitCleanLoop w dir s rest

/-- The function `checkGitClean`. -/
def checkGitClean (w : World) (dir : Str) : World × Outcome Unit :=
  match gitStatus w dir with
  | (w1, Outcome.returned s) => checkGitCleanLoop w1 dir s expected
  | (w1, Outcome.panicked v) => (w1, Outcome.panicked v)
  | (w1, Outcome.exited c) => (w1, Outcome.exited c)
/-! ## Zip helpers -/

/-- The state of a `zip.Writer`: the entries written so far, oldest first,
each with its name and its bytes. -/
structure ZipWriter where
  entries : List (Str × Str)

/-- The function `zipAddFile`. The error of `zw.Create` is overwritten before
it is looked at: when `zw.Create` fails its writer is nil and `w.Write` panics
at run time. -/
def zipAddFile (w : World) (zw : ZipWriter) (zipName path : Str) : World × Outcome ZipWriter :=
  let zipName1 := filepath.ToSlash zipName
  let read := ioutil.ReadFile w path
  match must w read.2 with
  | (w1, Outcome.returned _) =>
    match w1.faults.zipCreate zipName1 with
    | some _ => (w1, Outcome.panicked PanicValue.nilDereference)
    | Option.none =>
      match must w1 (w1.faults.zipWrite zipName1) with
      | (w2, Outcome.returned _) =>
        (w2.print ("  added ".toList ++ zipName1 ++ " from ".toList ++ path ++ "\n".toList),
          Outcome.returned { entries := zw.entries ++ [(zipName1, read.1)] })
      | (w2, Outcome.panicked v) => (w2, Outcome.panicked v)
      | (w2, Outcome.exited c) => (w2, Outcome.exited c)
  | (w1, Outcome.panicked v) => (w1, Outcome.panicked v)
  | (w1, Outcome.exited c) => (w1, Outcome.exited c)

mutual
/-- The function `zipDirRecur`; the node is what the file system holds at
`filepath.Join(baseDir, dirToZip)`, and `ioutil.ReadDir` answers with its
entries unless the environment refuses or it is not a directory. The walk
follows the nodes of the entries; the bytes of a file are read from the file
system, at the path the source builds. -/
def zipDirRecur (w : World) (zw : ZipWriter) (baseDir dirToZip : Str) :
    Node → World × Outcome ZipWriter
  | Node.dir files =>
    match must w (w.faults.readDir (filepath.Join [baseDir, dirToZip])) with
    | (w1, Outcome.returned _) => zipDirFiles w1 zw baseDir dirToZip files
    | (w1, Outcome.panicked v) => (w1, Outcome.panicked v)
    | (w1, Outcome.exited c) => (w1, Outcome.exited c)
  | _ =>
    match must w (some (errPath "readdir".toList (filepath.Join [baseDir, dirToZip])
        "not a directory".toList)) with
    | (w1, Outcome.returned _) => (w1, Outcome.returned zw)
    | (w1, Outcome.panicked v) => (w1, Outcome.panicked v)
    | (w1, Outcome.exited c) => (w1, Outcome.exited c)
/-- The loop of `zipDirRecur` over the entries `ioutil.ReadDir` returned, each
with its name and with the node that `fi.IsDir()` and `fi.Mode()` describe;
the node of a directory answers the `ioutil.ReadDir` of the recursive call. -/
def zipDirFiles (w : World) (zw : ZipWriter) (baseDir dirToZip : Str) :
    List (Str × Node) → World × Outcome ZipWriter
  | [] => (w, Outcome.returned zw)
  | (name, fi) :: rest =>
    match fi with
    | Node.dir _ =>
      match zipDirRecur w zw baseDir (filepath.Join [dirToZip, name]) fi with
      | (w1, Outcome.returned zw1) => zipDirFiles w1 zw1 baseDir dirToZip rest
      | (w1, Outcome.panicked v) => (w1, Outcome.panicked v)
      | (w1, Outcome.exited c) => (w1, Outcome.exited c)
    | Node.file _ =>
      let zipName := filepath.Join [dirToZip, name]
      let path := filepath.Join [baseDir, zipName]
      match zipAddFile w zw zipName path with
      | (w1, Outcome.returned zw1) => zipDirFiles w1 zw1 baseDir dirToZip rest
      | (w1, Outcome.panicked v) => (w1, Outcome.panicked v)
      | (w1, Outcome.exited c) => (w1, Outcome.exited c)
    | Node.other =>
      let path := filepath.Join [baseDir, name]
      (w, Outcome.panicked (PanicValue.text (path ++ " is not a dir or regular file".toList)))
end

/-- The loop of `createZipFile` over the names to zip. -/
def createZipLoop (w : World) (zw : ZipWriter) (baseDir : Str) :
    List Str → World × Outcome ZipWriter
  | [] => (w, Outcome.returned zw)
  | name :: rest =>
    let path := filepath.Join [baseDir, name]
    match os.Stat w path with
    | Except.error e =>
      match must w (some e) with
      | (w1, Outcome.returned _) => (w1, Outcome.panicked PanicValue.nilDereference)
      | (w1, Outcome.panicked v) => (w1, Outcome.panicked v)
      | (w1, Outcome.exited c) => (w1, Outcome.exited c)
    | Except.ok fi =>
      match fi with
      | Node.dir _ =>
        match zipDirRecur w zw baseDir name fi with
        | (w1, Outcome.returned zw1) => createZipLoop w1 zw1 baseDir rest
        | (w1, Outcome.panicked v) => (w1, Outcome.panicked v)
        | (w1, Outcome.exited c) => (w1, Outcome.exited c)
      | Node.file _ =>
        match zipAddFile w zw name path with
        | (w1, Outcome.returned zw1) => createZipLoop w1 zw1 baseDir rest
        | (w1, Outcome.panicked v) => (w1, Outcome.panicked v)
        | (w1, Outcome.exited c) => (w1, Outcome.exited c)
      | Node.other =>
        (w, Outcome.panicked (PanicValue.text (path ++ " is not a dir or regular file".toList)))

/-- The function `createZipFile`. The parameter `zipBytes` stands for the zip
format: the bytes of the archive with the given entries, which the file at
`dst` holds once `zw.Close()` has succeeded. Until then the model keeps the
file as `os.Create` left it, empty (the real file holds what the writer has
flushed of the unfinished archive: nothing, as long as the archive is smaller
than the buffer of the writer). The file is part of the file system while the
names are walked: `os.Stat` and the reads of the walk see it. The call
`must(err)` after `zip.NewWriter(w)` sees the nil error of `os.Create` and
does nothing; the deferred `u.FileClose(w)` releases the handle and changes
nothing modelled here. -/
def createZipFile (sprintf : Str → List Arg → Str) (zipBytes : List (Str × Str) → Str)
    (w : World) (dst baseDir : Str) (toZip : List Str) : World × Outcome Unit :=
  match removeFile sprintf w dst with
  | (w1, Outcome.returned _) =>
    if toZip.length = 0 then
      (w1, Outcome.panicked (PanicValue.text "must provide toZip args".toList))
    else
      let w2 := w1.print ("Creating zip file ".toList ++ dst ++ "\n".toList)
      match os.Create w2 dst with
      | (w3, some e) => must w3 (some e)
      | (w3, Option.none) =>
        match createZipLoop w3 { entries := [] } baseDir toZip with
        | (w4, Outcome.returned zw) =>
          match must w4 w4.faults.zipClose with
          | (w5, Outcome.returned _) =>
            (w5.setNode dst (some (Node.file (zipBytes zw.entries))), Outcome.returned ())
          | (w5, Outcome.panicked v) => (w5, Outcome.panicked v)
          | (w5, Outcome.exited c) => (w5, Outcome.exited c)
        | (w4, Outcome.panicked v) => (w4, Outcome.panicked v)
        | (w4, Outcome.exited c) => (w4, Outcome.exited c)
  | (w1, Outcome.panicked v) => (w1, Outcome.panicked v)
  | (w1, Outcome.exited c) => (w1, Outcome.exited c)

/-- The function `zip.OpenReader`: the entries of the archive at `path`, in
the order of the archive. The parameter `unzip` stands for the zip format. -/
def zip.OpenReader (unzip : Str → Option (List (Str × Str))) (w : World) (path : Str) :
    Except GoError (List (Str × Str)) :=
  match w.faults.openReader path with
  | some e => Except.error e
  | Option.none =>
    match ioutil.ReadFile w path with
    | (_, some e) => Except.error e
    | (bytes, Option.none) =>
      match unzip bytes with
      | some files => Except.ok files
      | Option.none => Except.error (errPath "zip".toList path "not a valid zip file".toList)

/-- The loop of `readZipFile` over `r.File`; `res` is the map built so far. -/
def readZipLoop (w : World) (res : Str → Option Str) :
    List (Str × Str) → World × Outcome (Str → Option Str)
  | [] => (w, Outcome.returned res)
  | (name, d) :: rest =>
    match must w (w.faults.entryOpen name) with
    | (w1, Outcome.returned _) =>
      match must w1 (w1.faults.entryRead name) with
      | (w2, Outcome.returned _) =>
        readZipLoop w2 (fun k => if k = name then some d else res k) rest
      | (w2, Outcome.panicked v) => (w2, Outcome.panicked v)
      | (w2, Outcome.exited c) => (w2, Outcome.exited c)
    | (w1, Outcome.panicked v) => (w1, Outcome.panicked v)
    | (w1, Outcome.exited c) => (w1, Outcome.exited c)

/-- The function `readZipFile`; a Go map from names to bytes is a function
that answers `none` for a missing key. -/
def readZipFile (unzip : Str → Option (List (Str × Str))) (w : World) (path : Str) :
    World × Outcome (Str → Option Str) :=
  match zip.OpenReader unzip w path with
  | Except.error e =>
    match must w (some e) with
    | (w1, Outcome.returned _) => (w1, Outcome.panicked PanicValue.nilDereference)
    | (w1, Outcome.panicked v) => (w1, Outcome.panicked v)
    | (w1, Outcome.exited c) => (w1, Outcome.exited c)
  | Except.ok files => readZipLoop w (fun _ => Option.none) files

/-! ## Vocabulary of the statements -/

/-- A file name as a directory lists it: not empty, not `.` or `..`, and
without a separator. -/
def plainName (c : Str) : Bool :=
  decide (c ≠ []) && decide (c ≠ ['.']) && decide (c ≠ ['.', '.']) && decide (Separator ∉ c)

mutual
/-- Every entry below the node, at any depth, is a directory or a regular
file. -/
def Node.regularOnly : Node → Bool
  | Node.file _ => true
  | Node.dir files => regularOnlyFiles files
  | Node.other => false
/-- The entries of a directory are directories and regular files, at any
depth. -/
def regularOnlyFiles : List (Str × Node) → Bool
  | [] => true
  | (_, fi) :: rest => Node.regularOnly fi && regularOnlyFiles rest
end

mutual
/-- The names in every directory below the node are file names and no
directory lists a name twice. -/
def Node.wellFormed : Node → Bool
  | Node.dir files => decide (files.map Prod.fst).Nodup && wellFormedFiles files
  | _ => true
/-- The entries carry file names and are well formed themselves. -/
def wellFormedFiles : List (Str × Node) → Bool
  | [] => true
  | (name, fi) :: rest => plainName name && Node.wellFormed fi && wellFormedFiles rest
end

mutual
/-- The regular files below a node in the order of the walk, each with the
names that lead to it from the node and with its bytes. -/
def Node.regularFiles : Node → List (List Str × Str)
  | Node.file d => [([], d)]
  | Node.dir files => regularFilesIn files
  | Node.other => []
/-- The regular files below the entries of a directory. -/
def regularFilesIn : List (Str × Node) → List (List Str × Str)
  | [] => []
  | (name, fi) :: rest =>
    (Node.regularFiles fi).map (fun f => (name :: f.1, f.2)) ++ regularFilesIn rest
end

/-- The stacks of elements `filepath.Clean` leaves (latest first): file names,
below them at most a run of `..`, and no `..` at all in a rooted path. -/
def normalStack (rooted : Bool) : List Str → Bool
  | [] => true
  | top :: below =>
    if top = ['.', '.'] then !rooted && below.all (fun e => decide (e = ['.', '.']))
    else plainName top && normalStack rooted below

/-- The path of the file reached from the directory `dir` through the names
`names`: the elements of `dir` as `filepath.Clean` keeps them, followed by the
names. -/
def pathBelow (dir : Str) (names : List Str) : Str :=
  renderPath (rooted dir) (names.reverse ++ cleanStack dir)

/-- The place of `p` is the place of `dir` or lies below it. -/
def World.below (w : World) (dir p : Str) : Bool :=
  match w.locate dir, w.locate p with
  | Located.place a, Located.place b => a.isPrefixOf b
  | _, _ => false

/-- A file can be created at `path`: the directory above the place is
there, and the place holds nothing or a regular file. -/
def World.canCreate (w : World) (path : Str) : Bool :=
  match w.locate path with
  | Located.place place =>
    match Node.get place.dropLast w.root, Node.get place w.root with
    | Found.node (Node.dir _), Found.missing => true
    | Found.node (Node.dir _), Found.node (Node.file _) => true
    | _, _ => false
  | _ => false

/-! ## A toy archive format and sample worlds, to run the definitions on -/

/-- A string with its length in front, written with `1` marks and a `0`. -/
def encodeStr (s : Str) : Str := List.replicate s.length '1' ++ '0' :: s

/-- Reads back one string written by `encodeStr`, and the rest of the input;
`n` counts the marks read so far. -/
def decodeStr (n : Nat) : Str → Option (Str × Str)
  | [] => Option.none
  | c :: rest =>
    if c = '1' then decodeStr (n + 1) rest
    else if c = '0' then
      if n ≤ rest.length then some (rest.take n, rest.drop n) else Option.none
    else Option.none

/-- A toy archive: every entry as its name and its bytes, each written by
`encodeStr`. -/
def toyZipBytes : List (Str × Str) → Str
  | [] => []
  | (name, d) :: rest => encodeStr name ++ (encodeStr d ++ toyZipBytes rest)

/-- Reads back at most `fuel` entries of a toy archive. -/
def toyUnzipAux : Nat → Str → Option (List (Str × Str))
  | _, [] => some []
  | 0, _ :: _ => Option.none
  | fuel + 1, c :: cs =>
    match decodeStr 0 (c :: cs) with
    | Option.none => Option.none
    | some (name, r1) =>
      match decodeStr 0 r1 with
      | Option.none => Option.none
      | some (d, r2) =>
        match toyUnzipAux fuel r2 with
        | Option.none => Option.none
        | some files => some ((name, d) :: files)

/-- Reads back a toy archive. -/
def toyUnzip (bytes : Str) : Option (List (Str × Str)) := toyUnzipAux bytes.length bytes

/-- A world with an empty file system, the root as working directory, no log
file, and an environment that refuses nothing; every command succeeds without
output. -/
def emptyWorld : World where
  stdout := []
  logFile := Option.none
  root := Node.dir []
  cwd := []
  faults := Faults.none
  lookPath := fun name => Except.ok name
  exec := fun _ => { out := [], err := Option.none }

/-- An error of the environment, for the sample worlds. -/
def errDenied : GoError := { text := "permission denied".toList, notExist := false }

/-- The directory of the example of the spec: `a.txt` and `sub/b.txt`. -/
def sampleTree : Node :=
  Node.dir [("a.txt".toList, Node.file "alpha".toList),
    ("sub".toList, Node.dir [("b.txt".toList, Node.file "beta".toList)])]

/-- A world with the working directory `/w`, which holds `sampleTree` at
`base/d`, a file `f.txt`, an old file at `out.zip`, and at `copy.zip` a file
that differs from it in one byte. -/
def sampleWorld : World :=
  { emptyWorld with
    root := (Node.dir [("w".toList, Node.dir [
      ("base".toList, Node.dir [("d".toList, sampleTree)]),
      ("copy.zip".toList, Node.file "olD".toList),
      ("f.txt".toList, Node.file "x".toList),
      ("out.zip".toList, Node.file "old".toList)])])
    cwd := ["w".toList] }

/-- A world in which `d` is a directory with one file and the environment
refuses to remove it. -/
def stuckWorld : World :=
  { emptyWorld with
    root := (Node.dir [("d".toList, Node.dir [("f".toList, Node.file "x".toList)])])
    faults := { Faults.none with removeAll := fun _ => some errDenied } }

/-- A world in which `d` is a directory with one file and nothing is refused. -/
def tidyWorld : World :=
  { emptyWorld with
    root := (Node.dir [("d".toList, Node.dir [("f".toList, Node.file "x".toList)])]) }

/-- A world that holds the file `base/a.txt` and in which no archive entry can
be created. -/
def fullDiskWorld : World :=
  { emptyWorld with
    root := (Node.dir [("base".toList, Node.dir [("a.txt".toList, Node.file "alpha".toList)])])
    faults := { Faults.none with zipCreate := fun _ => some errDenied } }

/-- A world with a log file that nothing was written to yet. -/
def loggingWorld : World :=
  { emptyWorld with logFile := some [] }

/-- A world that holds the file `base/d/a.txt` and in which no archive entry
can be written. -/
def writeFailWorld : World :=
  { emptyWorld with
    root := (Node.dir [("base".toList, Node.dir [("d".toList,
      Node.dir [("a.txt".toList, Node.file "alpha".toList)])])])
    faults := { Faults.none with zipWrite := fun _ => some errDenied } }

/-- A status text of git for a clean checkout of master. -/
def cleanStatus : Str :=
  ("On branch master\nYour branch is up to date with 'origin/master'.\n\n" ++
    "nothing to commit, working tree clean\n").toList

/-- A world in which `git status` prints `cleanStatus`. -/
def cleanRepoWorld : World :=
  { emptyWorld with exec := fun _ => { out := cleanStatus, err := Option.none } }

/-! ## Logging -/

theorem print_stdout (w : World) (s : Str) : (w.print s).stdout = w.stdout ++ [s] := rfl

theorem print_logFile (w : World) (s : Str) : (w.print s).logFile = w.logFile := rfl

theorem print_fs (w : World) (s : Str) : (w.print s).fs = w.fs := rfl

theorem print_root (w : World) (s : Str) : (w.print s).root = w.root := rfl

theorem print_cwd (w : World) (s : Str) : (w.print s).cwd = w.cwd := rfl

theorem print_faults (w : World) (s : Str) : (w.print s).faults = w.faults := rfl

theorem print_exec (w : World) (s : Str) : (w.print s).exec = w.exec := rfl

theorem printLog_stdout (w : World) (s : Str) : (w.printLog s).stdout = w.stdout := by
  unfold World.printLog; cases h : w.logFile <;> rfl

theorem printLog_logFile (w : World) (s : Str) :
    (w.printLog s).logFile = w.logFile.map (fun ws => ws ++ [s]) := by
  unfold World.printLog; cases h : w.logFile <;> simp [h]

theorem printLog_fs (w : World) (s : Str) : (w.printLog s).fs = w.fs := by
  unfold World.printLog; cases h : w.logFile <;> rfl

theorem printLog_root (w : World) (s : Str) : (w.printLog s).root = w.root := by
  unfold World.printLog; cases h : w.logFile <;> rfl

theorem printLog_cwd (w : World) (s : Str) : (w.printLog s).cwd = w.cwd := by
  unfold World.printLog; cases h : w.logFile <;> rfl

theorem printLog_faults (w : World) (s : Str) : (w.printLog s).faults = w.faults := by
  unfold World.printLog; cases h : w.logFile <;> rfl

/-- C10, as the code has it: `logf` hands one text to standard output and the
same text to the log file when there is one, and touches nothing else; the
text is `sprintf format args` for a non-empty argument list and the format
string itself, not formatted, for an empty one. -/
theorem logf_writes (sprintf : Str → List Arg → Str) (w : World) (format : Str)
    (args : List Arg) :
    (logf sprintf w format args).stdout
        = w.stdout ++ [if args = [] then format else sprintf format args]
      ∧ (logf sprintf w format args).logFile
        = w.logFile.map (fun ws => ws ++ [if args = [] then format else sprintf format args])
      ∧ (logf sprintf w format args).fs = w.fs := by
  unfold logf
  cases args with
  | nil => simp [printLog_stdout, printLog_logFile, printLog_fs, print_stdout, print_logFile,
      print_fs]
  | cons a rest => simp [printLog_stdout, printLog_logFile, printLog_fs, print_stdout,
      print_logFile, print_fs]

/-- C10 fails as stated: with no arguments `logf` writes the format `%%` as it
is, to standard output and to the log file, while formatting `%%` with no
arguments gives `%`. -/
theorem logf_noargs_counterexample :
    (logf Sprintf loggingWorld "%%".toList []).stdout = ["%%".toList]
      ∧ (logf Sprintf loggingWorld "%%".toList []).logFile = some ["%%".toList]
      ∧ Sprintf "%%".toList [] = "%".toList
      ∧ (logf Sprintf loggingWorld "%%".toList []).stdout ≠ [Sprintf "%%".toList []] := by
  refine ⟨by decide, by decide, by decide, by decide⟩

/-! ## The file system -/

theorem lookupEntry_insertEntry_self (c : Str) (m : Node) (files : List (Str × Node)) :
    lookupEntry c (insertEntry c m files) = some m := by
  induction files with
  | nil => simp [insertEntry, lookupEntry]
  | cons e rest ih =>
    obtain ⟨k, n⟩ := e
    unfold insertEntry
    by_cases h1 : k = c
    · simp [h1, lookupEntry]
    · by_cases h2 : strLt c k = true
      · simp [h1, h2, lookupEntry]
      · simp [h1, h2, lookupEntry, ih]

theorem lookupEntry_insertEntry_ne (c c2 : Str) (m : Node) (files : List (Str × Node))
    (h : c2 ≠ c) : lookupEntry c2 (insertEntry c m files) = lookupEntry c2 files := by
  have h' : ¬ c = c2 := fun e => h e.symm
  induction files with
  | nil => simp [insertEntry, lookupEntry, h']
  | cons e rest ih =>
    obtain ⟨k, n⟩ := e
    unfold insertEntry
    by_cases h1 : k = c
    · subst h1
      simp [lookupEntry, h']
    · by_cases h2 : strLt c k = true
      · simp [h1, h2, lookupEntry, h']
      · simp [h1, h2, lookupEntry, ih]

theorem lookupEntry_filter_self (c : Str) (files : List (Str × Node)) :
    lookupEntry c (files.filter (fun e => decide (e.1 ≠ c))) = Option.none := by
  induction files with
  | nil => simp [lookupEntry]
  | cons e rest ih =>
    obtain ⟨k, n⟩ := e
    rw [List.filter_cons]
    by_cases h1 : k = c
    · rw [if_neg (by simp [h1])]
      exact ih
    · rw [if_pos (by simp [h1])]
      simp only [lookupEntry, if_neg h1]
      exact ih

theorem lookupEntry_filter_ne (c c2 : Str) (files : List (Str × Node)) (h : c2 ≠ c) :
    lookupEntry c2 (files.filter (fun e => decide (e.1 ≠ c))) = lookupEntry c2 files := by
  induction files with
  | nil => simp [lookupEntry]
  | cons e rest ih =>
    obtain ⟨k, n⟩ := e
    rw [List.filter_cons]
    by_cases h1 : k = c
    · have h2 : ¬ k = c2 := fun e => h (e.symm.trans h1)
      rw [if_neg (by simp [h1])]
      simp only [lookupEntry, if_neg h2]
      exact ih
    · rw [if_pos (by simp [h1])]
      simp only [lookupEntry, ih]

theorem lookupEntry_map_self (c : Str) (f : Node → Node) (files : List (Str × Node)) :
    lookupEntry c (files.map (fun e => if e.1 = c then (e.1, f e.2) else e))
      = (lookupEntry c files).map f := by
  induction files with
  | nil => simp [lookupEntry]
  | cons e rest ih =>
    obtain ⟨k, n⟩ := e
    show lookupEntry c ((if k = c then (k, f n) else (k, n)) :: _) = _
    by_cases h1 : k = c
    · rw [if_pos h1]
      simp only [lookupEntry, if_pos h1, Option.map_some']
    · rw [if_neg h1]
      simp only [lookupEntry, if_neg h1]
      exact ih

theorem lookupEntry_map_ne (c c2 : Str) (f : Node → Node) (files : List (Str × Node))
    (h : c2 ≠ c) :
    lookupEntry c2 (files.map (fun e => if e.1 = c then (e.1, f e.2) else e))
      = lookupEntry c2 files := by
  induction files with
  | nil => simp [lookupEntry]
  | cons e rest ih =>
    obtain ⟨k, n⟩ := e
    show lookupEntry c2 ((if k = c then (k, f n) else (k, n)) :: _) = _
    by_cases h1 : k = c
    · have h2 : ¬ k = c2 := fun e => h (e.symm.trans h1)
      rw [if_pos h1]
      simp only [lookupEntry, if_neg h2]
      exact ih
    · rw [if_neg h1]
      simp only [lookupEntry]
      rw [ih]

theorem Node_get_nil (n : Node) : Node.get [] n = Found.node n := by
  cases n <;> rfl

theorem Node_get_cons_dir (c : Str) (rest : List Str) (files : List (Str × Node)) :
    Node.get (c :: rest) (Node.dir files)
      = match lookupEntry c files with
        | some child => Node.get rest child
        | Option.none => Found.missing := rfl

theorem Node_get_cons_file (c : Str) (rest : List Str) (d : Str) :
    Node.get (c :: rest) (Node.file d) = Found.notDir := rfl

theorem Node_get_cons_other (c : Str) (rest : List Str) :
    Node.get (c :: rest) Node.other = Found.notDir := rfl

theorem Node_put_nil (x : Option Node) (n : Node) : Node.put [] x n = n := by
  cases n <;> rfl

theorem Node_put_single_some (c : Str) (m : Node) (files : List (Str × Node)) :
    Node.put [c] (some m) (Node.dir files) = Node.dir (insertEntry c m files) := rfl

theorem Node_put_single_none (c : Str) (files : List (Str × Node)) :
    Node.put [c] Option.none (Node.dir files)
      = Node.dir (files.filter (fun e => decide (e.1 ≠ c))) := rfl

theorem Node_put_cons_cons (c c2 : Str) (rest : List Str) (x : Option Node)
    (files : List (Str × Node)) :
    Node.put (c :: c2 :: rest) x (Node.dir files)
      = Node.dir (files.map
          (fun e => if e.1 = c then (e.1, Node.put (c2 :: rest) x e.2) else e)) := rfl

theorem Node_put_cons_file (c : Str) (rest : List Str) (x : Option Node) (d : Str) :
    Node.put (c :: rest) x (Node.file d) = Node.file d := rfl

theorem Node_put_cons_other (c : Str) (rest : List Str) (x : Option Node) :
    Node.put (c :: rest) x Node.other = Node.other := rfl

/-- A walk along names followed by more names is the walk along the first,
continued from what it found. -/
theorem Node_get_append (r : List Str) :
    ∀ (l : List Str) (n : Node),
      Node.get (l ++ r) n
        = match Node.get l n with
          | Found.node m => Node.get r m
          | Found.missing => Found.missing
          | Found.notDir => Found.notDir
  | [], n => by simp [Node_get_nil]
  | c :: rest, Node.file d => by simp [Node_get_cons_file]
  | c :: rest, Node.other => by simp [Node_get_cons_other]
  | c :: rest, Node.dir files => by
    simp only [List.cons_append, Node_get_cons_dir]
    cases h : lookupEntry c files with
    | none => rfl
    | some child => exact Node_get_append r rest child

/-- Writing at one place does not change what is found at a place that is
neither above nor below it. -/
theorem Node_get_put_diverge (x : Option Node) :
    ∀ (l m : List Str) (n : Node), ¬ l <+: m → ¬ m <+: l →
      Node.get m (Node.put l x n) = Node.get m n
  | [], m, n => by
    intro h _
    exact absurd List.nil_prefix h
  | c :: rest, [], n => by
    intro _ h
    exact absurd List.nil_prefix h
  | c :: rest, c2 :: rest2, Node.file d => by
    intro _ _
    rfl
  | c :: rest, c2 :: rest2, Node.other => by
    intro _ _
    rfl
  | [c], c2 :: rest2, Node.dir files => by
    intro h _
    have hne : c2 ≠ c := by
      intro e
      apply h
      rw [e]
      exact ⟨rest2, rfl⟩
    cases x with
    | none =>
      simp only [Node_put_single_none, Node_get_cons_dir, lookupEntry_filter_ne c c2 files hne]
    | some v =>
      simp only [Node_put_single_some, Node_get_cons_dir,
        lookupEntry_insertEntry_ne c c2 v files hne]
  | c :: c3 :: rest, c2 :: rest2, Node.dir files => by
    intro h1 h2
    simp only [Node_put_cons_cons, Node_get_cons_dir]
    by_cases hc : c2 = c
    · subst hc
      rw [lookupEntry_map_self c2 (Node.put (c3 :: rest) x) files]
      cases hl : lookupEntry c2 files with
      | none => rfl
      | some child =>
        simp only [Option.map_some']
        apply Node_get_put_diverge x (c3 :: rest) rest2 child
        · intro hp
          apply h1
          obtain ⟨t, ht⟩ := hp
          exact ⟨t, by rw [← ht]; rfl⟩
        · intro hp
          apply h2
          obtain ⟨t, ht⟩ := hp
          exact ⟨t, by rw [← ht]; rfl⟩
    · rw [lookupEntry_map_ne c c2 (Node.put (c3 :: rest) x) files hc]

/-- The directory above a place is still a directory after a write at the
place. -/
theorem Node_put_parent (x : Option Node) :
    ∀ (l : List Str) (n : Node), l ≠ [] →
      (∃ es, Node.get l.dropLast n = Found.node (Node.dir es)) →
      ∃ es, Node.get l.dropLast (Node.put l x n) = Found.node (Node.dir es)
  | [], n => by
    intro h _
    exact absurd rfl h
  | [c], n => by
    intro _ h
    obtain ⟨es, hes⟩ := h
    simp only [List.dropLast_single, Node_get_nil, Found.node.injEq] at hes
    subst hes
    cases x with
    | none =>
      exact ⟨es.filter (fun e => decide (e.1 ≠ c)), by
        rw [Node_put_single_none, List.dropLast_single, Node_get_nil]⟩
    | some v =>
      exact ⟨insertEntry c v es, by
        rw [Node_put_single_some, List.dropLast_single, Node_get_nil]⟩
  | c :: c2 :: rest, Node.file d => by
    intro _ h
    obtain ⟨es, hes⟩ := h
    simp [List.dropLast, Node_get_cons_file] at hes
  | c :: c2 :: rest, Node.other => by
    intro _ h
    obtain ⟨es, hes⟩ := h
    simp [List.dropLast, Node_get_cons_other] at hes
  | c :: c2 :: rest, Node.dir files => by
    intro _ h
    obtain ⟨es, hes⟩ := h
    have hd : (c :: c2 :: rest).dropLast = c :: (c2 :: rest).dropLast := rfl
    rw [hd, Node_get_cons_dir] at hes
    rw [hd, Node_put_cons_cons, Node_get_cons_dir,
      lookupEntry_map_self c (Node.put (c2 :: rest) x) files]
    cases hl : lookupEntry c files with
    | none => simp [hl] at hes
    | some child =>
      rw [hl] at hes
      simp only [Option.map_some']
      exact Node_put_parent x (c2 :: rest) child (by simp) ⟨es, hes⟩

/-- What is written at a place in a directory is found there. -/
theorem Node_get_put_some (v : Node) :
    ∀ (l : List Str) (n : Node), l ≠ [] →
      (∃ es, Node.get l.dropLast n = Found.node (Node.dir es)) →
      Node.get l (Node.put l (some v) n) = Found.node v
  | [], n => by
    intro h _
    exact absurd rfl h
  | [c], n => by
    intro _ h
    obtain ⟨es, hes⟩ := h
    simp only [List.dropLast_single, Node_get_nil, Found.node.injEq] at hes
    subst hes
    simp only [Node_put_single_some, Node_get_cons_dir, lookupEntry_insertEntry_self, Node_get_nil]
  | c :: c2 :: rest, Node.file d => by
    intro _ h
    obtain ⟨es, hes⟩ := h
    simp [List.dropLast, Node_get_cons_file] at hes
  | c :: c2 :: rest, Node.other => by
    intro _ h
    obtain ⟨es, hes⟩ := h
    simp [List.dropLast, Node_get_cons_other] at hes
  | c :: c2 :: rest, Node.dir files => by
    intro _ h
    obtain ⟨es, hes⟩ := h
    have hd : (c :: c2 :: rest).dropLast = c :: (c2 :: rest).dropLast := rfl
    rw [hd, Node_get_cons_dir] at hes
    rw [Node_put_cons_cons, Node_get_cons_dir,
      lookupEntry_map_self c (Node.put (c2 :: rest) (some v)) files]
    cases hl : lookupEntry c files with
    | none => simp [hl] at hes
    | some child =>
      rw [hl] at hes
      simp only [Option.map_some']
      exact Node_get_put_some v (c2 :: rest) child (by simp) ⟨es, hes⟩

/-- Nothing is found at a place after what was there has been removed. -/
theorem Node_get_put_none :
    ∀ (l : List Str) (n : Node), l ≠ [] → (∃ m, Node.get l n = Found.node m) →
      Node.get l (Node.put l Option.none n) = Found.missing
  | [], n => by
    intro h _
    exact absurd rfl h
  | c :: rest, Node.file d => by
    intro _ h
    obtain ⟨m, hm⟩ := h
    simp [Node_get_cons_file] at hm
  | c :: rest, Node.other => by
    intro _ h
    obtain ⟨m, hm⟩ := h
    simp [Node_get_cons_other] at hm
  | [c], Node.dir files => by
    intro _ _
    simp only [Node_put_single_none, Node_get_cons_dir, lookupEntry_filter_self]
  | c :: c2 :: rest, Node.dir files => by
    intro _ h
    obtain ⟨m, hm⟩ := h
    rw [Node_get_cons_dir] at hm
    rw [Node_put_cons_cons, Node_get_cons_dir,
      lookupEntry_map_self c (Node.put (c2 :: rest) Option.none) files]
    cases hl : lookupEntry c files with
    | none => simp [hl] at hm
    | some child =>
      rw [hl] at hm
      simp only [Option.map_some']
      exact Node_get_put_none (c2 :: rest) child (by simp) ⟨m, hm⟩

/-- The directory `mkdirs` makes at a place where nothing was is there and is
empty. -/
theorem mkdirs_get :
    ∀ (l : List Str) (n n1 : Node), Node.get l n = Found.missing → mkdirs l n = some n1 →
      Node.get l n1 = Found.node (Node.dir [])
  | [], n, n1 => by
    intro h _
    simp [Node_get_nil] at h
  | c :: rest, Node.file d, n1 => by
    intro h _
    simp [Node_get_cons_file] at h
  | c :: rest, Node.other, n1 => by
    intro h _
    simp [Node_get_cons_other] at h
  | c :: rest, Node.dir files, n1 => by
    intro h hm
    rw [Node_get_cons_dir] at h
    unfold mkdirs at hm
    cases hl : lookupEntry c files with
    | some child =>
      rw [hl] at h hm
      simp only [Option.map_eq_some'] at hm
      obtain ⟨ch, hch, rfl⟩ := hm
      rw [Node_get_cons_dir, lookupEntry_insertEntry_self]
      exact mkdirs_get rest child ch h hch
    | none =>
      rw [hl] at hm
      simp only [Option.map_eq_some'] at hm
      obtain ⟨ch, hch, rfl⟩ := hm
      rw [Node_get_cons_dir, lookupEntry_insertEntry_self]
      cases rest with
      | nil =>
        simp only [mkdirs, Option.some.injEq] at hch
        subst hch
        exact Node_get_nil _
      | cons c2 rest2 =>
        exact mkdirs_get (c2 :: rest2) (Node.dir []) ch (by simp [Node_get_cons_dir, lookupEntry])
          hch

/-- What is found along names was reached through directories. -/
theorem Node_get_through (r : List Str) (c : Str) :
    ∀ (p : List Str) (n m : Node), Node.get (p ++ c :: r) n = Found.node m →
      ∃ es, Node.get p n = Found.node (Node.dir es)
  | [], Node.file d, m => by
    intro h
    simp [Node_get_cons_file] at h
  | [], Node.other, m => by
    intro h
    simp [Node_get_cons_other] at h
  | [], Node.dir files, m => by
    intro _
    exact ⟨files, rfl⟩
  | c2 :: p, Node.file d, m => by
    intro h
    simp [Node_get_cons_file] at h
  | c2 :: p, Node.other, m => by
    intro h
    simp [Node_get_cons_other] at h
  | c2 :: p, Node.dir files, m => by
    intro h
    simp only [List.cons_append, Node_get_cons_dir] at h ⊢
    cases hl : lookupEntry c2 files with
    | none => rw [hl] at h; simp at h
    | some child =>
      rw [hl] at h
      exact Node_get_through r c p child m h

/-- A directory above a place is still a directory after a write at the
place. -/
theorem Node_put_ancestor (x : Option Node) :
    ∀ (p l : List Str) (n : Node), p <+: l → p ≠ l →
      (∃ es, Node.get p n = Found.node (Node.dir es)) →
      ∃ es, Node.get p (Node.put l x n) = Found.node (Node.dir es)
  | [], [], n => by
    intro _ h _
    exact absurd rfl h
  | [], c :: rest, n => by
    intro _ _ h
    obtain ⟨es, hes⟩ := h
    simp only [Node_get_nil, Found.node.injEq] at hes
    subst hes
    cases rest with
    | nil =>
      cases x with
      | none => exact ⟨_, by rw [Node_put_single_none, Node_get_nil]⟩
      | some v => exact ⟨_, by rw [Node_put_single_some, Node_get_nil]⟩
    | cons c2 r2 => exact ⟨_, by rw [Node_put_cons_cons, Node_get_nil]⟩
  | c :: p, [], n => by
    intro h _ _
    simp at h
  | c :: p, c2 :: l, Node.file d => by
    intro _ _ h
    obtain ⟨es, hes⟩ := h
    simp [Node_get_cons_file] at hes
  | c :: p, c2 :: l, Node.other => by
    intro _ _ h
    obtain ⟨es, hes⟩ := h
    simp [Node_get_cons_other] at hes
  | c :: p, c2 :: l, Node.dir files => by
    intro hpre hne h
    obtain ⟨es, hes⟩ := h
    obtain ⟨t, ht⟩ := hpre
    simp only [List.cons_append, List.cons.injEq] at ht
    obtain ⟨hc, hl⟩ := ht
    subst hc
    have hpl : p <+: l := ⟨t, hl⟩
    have hne2 : p ≠ l := fun e => hne (by rw [e])
    rw [Node_get_cons_dir] at hes
    cases l with
    | nil =>
      have : p = [] := List.prefix_nil.1 hpl
      exact absurd this hne2
    | cons c3 l2 =>
      rw [Node_put_cons_cons, Node_get_cons_dir,
        lookupEntry_map_self c (Node.put (c3 :: l2) x) files]
      cases hlk : lookupEntry c files with
      | none => rw [hlk] at hes; simp at hes
      | some child =>
        rw [hlk] at hes
        simp only [Option.map_some']
        exact Node_put_ancestor x p (c3 :: l2) child hpl hne2 ⟨es, hes⟩

theorem Node_get_append_missing (l r : List Str) (n : Node)
    (h : Node.get l n = Found.missing) : Node.get (l ++ r) n = Found.missing := by
  rw [Node_get_append, h]

/-- A write at a place that does not hold a directory leaves every directory
a directory. -/
theorem Node_put_keeps_dirs (x : Option Node) (l : List Str) (n : Node)
    (hl : ∀ es, Node.get l n ≠ Found.node (Node.dir es)) :
    ∀ p es, Node.get p n = Found.node (Node.dir es) →
      ∃ es1, Node.get p (Node.put l x n) = Found.node (Node.dir es1) := by
  intro p es hp
  by_cases h1 : l <+: p
  · exfalso
    obtain ⟨r, hr⟩ := h1
    rw [← hr, Node_get_append] at hp
    cases hg : Node.get l n with
    | missing => rw [hg] at hp; simp at hp
    | notDir => rw [hg] at hp; simp at hp
    | node m =>
      rw [hg] at hp
      simp only at hp
      cases r with
      | nil =>
        rw [Node_get_nil] at hp
        simp only [Found.node.injEq] at hp
        rw [hp] at hg
        exact hl es hg
      | cons c rest =>
        cases m with
        | file d => simp [Node_get_cons_file] at hp
        | other => simp [Node_get_cons_other] at hp
        | dir fs => exact hl fs hg
  · by_cases h2 : p <+: l
    · exact Node_put_ancestor x p l n h2 (fun e => h1 (e ▸ List.prefix_refl _)) ⟨es, hp⟩
    · exact ⟨es, by rw [Node_get_put_diverge x l p n h1 h2]; exact hp⟩

/-- Making directories leaves every directory a directory. -/
theorem mkdirs_keeps_dirs :
    ∀ (l : List Str) (n n1 : Node), mkdirs l n = some n1 →
      ∀ p es, Node.get p n = Found.node (Node.dir es) →
        ∃ es1, Node.get p n1 = Found.node (Node.dir es1)
  | [], Node.file d, n1 => by
    intro h
    simp [mkdirs] at h
  | [], Node.other, n1 => by
    intro h
    simp [mkdirs] at h
  | [], Node.dir files, n1 => by
    intro h p es hp
    simp only [mkdirs, Option.some.injEq] at h
    subst h
    exact ⟨es, hp⟩
  | c :: rest, Node.file d, n1 => by
    intro h
    simp [mkdirs] at h
  | c :: rest, Node.other, n1 => by
    intro h
    simp [mkdirs] at h
  | c :: rest, Node.dir files, n1 => by
    intro h p es hp
    unfold mkdirs at h
    cases p with
    | nil =>
      cases hl : lookupEntry c files with
      | some child =>
        rw [hl] at h
        simp only [Option.map_eq_some'] at h
        obtain ⟨ch, _, rfl⟩ := h
        exact ⟨_, Node_get_nil _⟩
      | none =>
        rw [hl] at h
        simp only [Option.map_eq_some'] at h
        obtain ⟨ch, _, rfl⟩ := h
        exact ⟨_, Node_get_nil _⟩
    | cons c2 p2 =>
      rw [Node_get_cons_dir] at hp
      by_cases hc : c2 = c
      · subst hc
        cases hl : lookupEntry c2 files with
        | none => rw [hl] at hp; simp at hp
        | some child =>
          rw [hl] at h hp
          simp only [Option.map_eq_some'] at h
          obtain ⟨ch, hch, rfl⟩ := h
          rw [Node_get_cons_dir, lookupEntry_insertEntry_self]
          exact mkdirs_keeps_dirs rest child ch hch p2 es hp
      · cases hl : lookupEntry c files with
        | some child =>
          rw [hl] at h
          simp only [Option.map_eq_some'] at h
          obtain ⟨ch, _, rfl⟩ := h
          rw [Node_get_cons_dir, lookupEntry_insertEntry_ne c c2 ch files hc]
          exact ⟨es, hp⟩
        | none =>
          rw [hl] at h
          simp only [Option.map_eq_some'] at h
          obtain ⟨ch, _, rfl⟩ := h
          rw [Node_get_cons_dir, lookupEntry_insertEntry_ne c c2 ch files hc]
          exact ⟨es, hp⟩

/-- After making the directory at a place, every place on the way to it holds
a directory. -/
theorem mkdirs_way_dirs :
    ∀ (l : List Str) (n n1 : Node), mkdirs l n = some n1 →
      ∀ p, p <+: l → ∃ es, Node.get p n1 = Found.node (Node.dir es)
  | [], Node.file d, n1 => by
    intro h
    simp [mkdirs] at h
  | [], Node.other, n1 => by
    intro h
    simp [mkdirs] at h
  | [], Node.dir files, n1 => by
    intro h p hp
    simp only [mkdirs, Option.some.injEq] at h
    subst h
    have : p = [] := List.prefix_nil.1 hp
    subst this
    exact ⟨files, rfl⟩
  | c :: rest, Node.file d, n1 => by
    intro h
    simp [mkdirs] at h
  | c :: rest, Node.other, n1 => by
    intro h
    simp [mkdirs] at h
  | c :: rest, Node.dir files, n1 => by
    intro h p hp
    unfold mkdirs at h
    have key : ∃ start ch, mkdirs rest start = some ch
        ∧ n1 = Node.dir (insertEntry c ch files) := by
      cases hl : lookupEntry c files with
      | some child =>
        rw [hl] at h
        simp only [Option.map_eq_some'] at h
        obtain ⟨ch, hch, rfl⟩ := h
        exact ⟨child, ch, hch, rfl⟩
      | none =>
        rw [hl] at h
        simp only [Option.map_eq_some'] at h
        obtain ⟨ch, hch, rfl⟩ := h
        exact ⟨Node.dir [], ch, hch, rfl⟩
    obtain ⟨start, ch, hch, rfl⟩ := key
    cases p with
    | nil => exact ⟨_, Node_get_nil _⟩
    | cons c2 p2 =>
      obtain ⟨t, ht⟩ := hp
      simp only [List.cons_append, List.cons.injEq] at ht
      obtain ⟨hc, hl⟩ := ht
      subst hc
      rw [Node_get_cons_dir, lookupEntry_insertEntry_self]
      exact mkdirs_way_dirs rest start ch hch p2 ⟨t, hl⟩

/-! ## Walking a path -/

theorem stepPlace_nil (place : List Str) : stepPlace place [] = place := by
  simp [stepPlace]

theorem stepPlace_dot (place : List Str) : stepPlace place ['.'] = place := by
  simp [stepPlace]

theorem walkPlace_nil (root : Node) (place : List Str) :
    walkPlace root place [] = Located.place place := by
  cases place <;> rfl

theorem walkPlace_cons (root : Node) (place : List Str) (e : Str) (rest : List Str) :
    walkPlace root place (e :: rest)
      = match Node.get place root with
        | Found.node (Node.dir _) => walkPlace root (stepPlace place e) rest
        | Found.node _ => Located.notDir
        | Found.missing => Located.missing
        | Found.notDir => Located.notDir := by
  cases place <;> rfl

theorem walkPlace_cons_dir (root : Node) (place : List Str) (e : Str) (rest : List Str)
    (es : List (Str × Node)) (h : Node.get place root = Found.node (Node.dir es)) :
    walkPlace root place (e :: rest) = walkPlace root (stepPlace place e) rest := by
  rw [walkPlace_cons, h]

theorem walkNew_nil (root : Node) (place : List Str) :
    walkNew root place [] = Located.place place := by
  cases place <;> rfl

theorem walkNew_cons (root : Node) (place : List Str) (e : Str) (rest : List Str) :
    walkNew root place (e :: rest)
      = match Node.get place root with
        | Found.node (Node.dir _) => walkNew root (stepPlace place e) rest
        | Found.node _ => Located.notDir
        | Found.missing =>
          if e = ['.', '.'] then Located.missing else walkNew root (stepPlace place e) rest
        | Found.notDir => Located.notDir := by
  cases place <;> rfl

/-- A walk that ends at a place started in a directory. -/
theorem walkPlace_start (root : Node) (place : List Str) (e : Str) (rest : List Str)
    (l : List Str) (h : walkPlace root place (e :: rest) = Located.place l) :
    ∃ es, Node.get place root = Found.node (Node.dir es) := by
  rw [walkPlace_cons] at h
  cases hg : Node.get place root with
  | missing => rw [hg] at h; simp at h
  | notDir => rw [hg] at h; simp at h
  | node n =>
    rw [hg] at h
    cases n with
    | file d => simp at h
    | other => simp at h
    | dir es => exact ⟨es, rfl⟩

/-- A walk along elements followed by more elements is the walk along the
first, continued from where it ended. -/
theorem walkPlace_append (root : Node) (ys : List Str) :
    ∀ (xs : List Str) (place : List Str),
      walkPlace root place (xs ++ ys)
        = match walkPlace root place xs with
          | Located.place p => walkPlace root p ys
          | Located.missing => Located.missing
          | Located.notDir => Located.notDir
  | [], place => by simp [walkPlace_nil]
  | e :: rest, place => by
    simp only [List.cons_append, walkPlace_cons]
    cases hg : Node.get place root with
    | missing => rfl
    | notDir => rfl
    | node n =>
      cases n with
      | file d => rfl
      | other => rfl
      | dir es => exact walkPlace_append root ys rest (stepPlace place e)

/-- The walk along the names that lead to something in a directory ends
there. -/
theorem walkPlace_into (root : Node) :
    ∀ (cs : List Str) (place : List Str) (n m : Node),
      (∀ c ∈ cs, c ≠ [] ∧ c ≠ ['.'] ∧ c ≠ ['.', '.']) →
      Node.get place root = Found.node n → Node.get cs n = Found.node m →
      walkPlace root place cs = Located.place (place ++ cs)
  | [], place, n, m => by
    intro _ _ _
    simp [walkPlace_nil]
  | c :: rest, place, Node.file d, m => by
    intro _ _ h
    simp [Node_get_cons_file] at h
  | c :: rest, place, Node.other, m => by
    intro _ _ h
    simp [Node_get_cons_other] at h
  | c :: rest, place, Node.dir files, m => by
    intro hcs hp h
    rw [Node_get_cons_dir] at h
    cases hl : lookupEntry c files with
    | none => rw [hl] at h; simp at h
    | some child =>
      rw [hl] at h
      have hc := hcs c (List.mem_cons_self _ _)
      have hstep : stepPlace place c = place ++ [c] := by
        simp [stepPlace, hc.1, hc.2.1, hc.2.2]
      have hchild : Node.get (place ++ [c]) root = Found.node child := by
        rw [Node_get_append, hp]
        simp only [Node_get_cons_dir, hl, Node_get_nil]
      rw [walkPlace_cons_dir root place c rest files hp, hstep,
        walkPlace_into root rest (place ++ [c]) child m
          (fun x hx => hcs x (List.mem_cons_of_mem _ hx)) hchild h]
      simp

/-- A walk that ends at a place ends at the same place in a tree in which
every directory of the first tree is a directory. -/
theorem walkPlace_transfer (root root1 : Node)
    (hk : ∀ p es, Node.get p root = Found.node (Node.dir es) →
      ∃ es1, Node.get p root1 = Found.node (Node.dir es1)) :
    ∀ (elems : List Str) (place l : List Str),
      walkPlace root place elems = Located.place l →
      walkPlace root1 place elems = Located.place l
  | [], place, l => by
    intro h
    rw [walkPlace_nil] at h ⊢
    exact h
  | e :: rest, place, l => by
    intro h
    obtain ⟨es, hes⟩ := walkPlace_start root place e rest l h
    obtain ⟨es1, hes1⟩ := hk place es hes
    rw [walkPlace_cons_dir root place e rest es hes] at h
    rw [walkPlace_cons_dir root1 place e rest es1 hes1]
    exact walkPlace_transfer root root1 hk rest (stepPlace place e) l h

/-- After what was at a place has been removed, a walk ends where it ended
before, or at a directory that is not there any more. -/
theorem walkPlace_removed (root : Node) (l : List Str) (n : Node) (hne : l ≠ [])
    (hl : Node.get l root = Found.node n) :
    ∀ (elems : List Str) (place : List Str),
      walkPlace (Node.put l Option.none root) place elems = walkPlace root place elems
        ∨ walkPlace (Node.put l Option.none root) place elems = Located.missing
  | [], place => by
    left
    rw [walkPlace_nil, walkPlace_nil]
  | e :: rest, place => by
    by_cases h1 : l <+: place
    · right
      obtain ⟨r, hr⟩ := h1
      have hgone := Node_get_put_none l root hne ⟨n, hl⟩
      rw [walkPlace_cons, ← hr, Node_get_append_missing l r _ hgone]
    · by_cases h2 : place <+: l
      · obtain ⟨t, ht⟩ := h2
        cases t with
        | nil =>
          rw [List.append_nil] at ht
          exact absurd (ht ▸ List.prefix_refl _) h1
        | cons c t2 =>
          have hdir : ∃ es, Node.get place root = Found.node (Node.dir es) :=
            Node_get_through t2 c place root n (by rw [ht]; exact hl)
          obtain ⟨es, hes⟩ := hdir
          obtain ⟨es1, hes1⟩ := Node_put_ancestor Option.none place l root ⟨c :: t2, ht⟩
            (fun e => h1 (e ▸ List.prefix_refl _)) ⟨es, hes⟩
          rw [walkPlace_cons_dir _ place e rest es1 hes1,
            walkPlace_cons_dir root place e rest es hes]
          exact walkPlace_removed root l n hne hl rest (stepPlace place e)
      · rw [walkPlace_cons, walkPlace_cons, Node_get_put_diverge Option.none l place root h1 h2]
        cases hg : Node.get place root with
        | missing => left; rfl
        | notDir => left; rfl
        | node m =>
          cases m with
          | file d => left; rfl
          | other => left; rfl
          | dir es => exact walkPlace_removed root l n hne hl rest (stepPlace place e)

/-- The walk of `os.MkdirAll` from a directory that is not there ends below
it. -/
theorem walkNew_missing_way (root : Node) :
    ∀ (elems : List Str) (place l : List Str), Node.get place root = Found.missing →
      walkNew root place elems = Located.place l → place <+: l
  | [], place, l => by
    intro _ h
    rw [walkNew_nil] at h
    simp only [Located.place.injEq] at h
    rw [h]
  | e :: rest, place, l => by
    intro hm h
    rw [walkNew_cons, hm] at h
    simp only at h
    by_cases he : e = ['.', '.']
    · rw [if_pos he] at h
      simp at h
    · rw [if_neg he] at h
      unfold stepPlace at h
      by_cases h0 : e = [] ∨ e = ['.']
      · rw [if_pos h0] at h
        exact walkNew_missing_way root rest place l hm h
      · rw [if_neg h0, if_neg he] at h
        have := walkNew_missing_way root rest (place ++ [e]) l
          (Node_get_append_missing place [e] root hm) h
        exact (List.prefix_append place [e]).trans this

/-- When the walk of `os.MkdirAll` ends at a place that holds something, it
is the walk of the path. -/
theorem walkNew_found (root : Node) :
    ∀ (elems : List Str) (place l : List Str) (n : Node),
      walkNew root place elems = Located.place l → Node.get l root = Found.node n →
      walkPlace root place elems = Located.place l
  | [], place, l, n => by
    intro h _
    rw [walkNew_nil] at h
    rw [walkPlace_nil]
    exact h
  | e :: rest, place, l, n => by
    intro h hn
    rw [walkPlace_cons]
    cases hg : Node.get place root with
    | missing =>
      exfalso
      obtain ⟨t, ht⟩ := walkNew_missing_way root (e :: rest) place l hg h
      rw [← ht, Node_get_append_missing place t root hg] at hn
      simp at hn
    | notDir =>
      rw [walkNew_cons, hg] at h
      simp at h
    | node m =>
      rw [walkNew_cons, hg] at h
      cases m with
      | file d => simp at h
      | other => simp at h
      | dir es => exact walkNew_found root rest (stepPlace place e) l n h hn

/-- After `os.MkdirAll` has made the directory its walk ended at, the walk of
the path ends there. -/
theorem walkNew_made (root root1 : Node) :
    ∀ (elems : List Str) (place l : List Str),
      walkNew root place elems = Located.place l → mkdirs l root = some root1 →
      walkPlace root1 place elems = Located.place l
  | [], place, l => by
    intro h _
    rw [walkNew_nil] at h
    rw [walkPlace_nil]
    exact h
  | e :: rest, place, l => by
    intro h hm
    have hstep : walkNew root (stepPlace place e) rest = Located.place l
        ∧ ∃ es1, Node.get place root1 = Found.node (Node.dir es1) := by
      cases hg : Node.get place root with
      | missing =>
        have hway := walkNew_missing_way root (e :: rest) place l hg h
        rw [walkNew_cons, hg] at h
        simp only at h
        by_cases he : e = ['.', '.']
        · rw [if_pos he] at h
          simp at h
        · rw [if_neg he] at h
          exact ⟨h, mkdirs_way_dirs l root root1 hm place hway⟩
      | notDir =>
        rw [walkNew_cons, hg] at h
        simp at h
      | node m =>
        rw [walkNew_cons, hg] at h
        cases m with
        | file d => simp at h
        | other => simp at h
        | dir es => exact ⟨h, mkdirs_keeps_dirs l root root1 hm place es hg⟩
    obtain ⟨h2, es1, hes1⟩ := hstep
    rw [walkPlace_cons_dir root1 place e rest es1 hes1]
    exact walkNew_made root root1 rest (stepPlace place e) l h2 hm

theorem print_locate (w : World) (s path : Str) : (w.print s).locate path = w.locate path := rfl

theorem print_find (w : World) (s path : Str) : (w.print s).find path = w.find path := rfl

theorem locate_of_root (w1 w2 : World) (hr : w1.root = w2.root) (hc : w1.cwd = w2.cwd)
    (p : Str) : w1.locate p = w2.locate p := by
  unfold World.locate; rw [hr, hc]

theorem fs_eq_of_root (w1 w2 : World) (hr : w1.root = w2.root) (hc : w1.cwd = w2.cwd) :
    w1.fs = w2.fs := by
  funext p
  simp only [World.fs, World.find, locate_of_root w1 w2 hr hc, hr]

theorem setNode_faults (w : World) (path : Str) (x : Option Node) :
    (w.setNode path x).faults = w.faults := by
  unfold World.setNode; cases h : w.locate path <;> rfl

theorem setNode_cwd (w : World) (path : Str) (x : Option Node) :
    (w.setNode path x).cwd = w.cwd := by
  unfold World.setNode; cases h : w.locate path <;> rfl

theorem setNode_stdout (w : World) (path : Str) (x : Option Node) :
    (w.setNode path x).stdout = w.stdout := by
  unfold World.setNode; cases h : w.locate path <;> rfl

theorem setNode_root (w : World) (path : Str) (x : Option Node) (place : List Str)
    (h : w.locate path = Located.place place) :
    (w.setNode path x).root = Node.put place x w.root := by
  unfold World.setNode; rw [h]

theorem setNode_eq (w : World) (path : Str) (x : Option Node) (place : List Str)
    (h : w.locate path = Located.place place) :
    w.setNode path x = { w with root := Node.put place x w.root } := by
  unfold World.setNode; rw [h]

theorem find_of_locate (w : World) (path : Str) (place : List Str)
    (h : w.locate path = Located.place place) : w.find path = Node.get place w.root := by
  unfold World.find; rw [h]

theorem fs_of_find (w : World) (path : Str) (n : Node) (h : w.find path = Found.node n) :
    w.fs path = some n := by
  unfold World.fs; rw [h]; rfl

theorem find_of_fs (w : World) (path : Str) (n : Node) (h : w.fs path = some n) :
    w.find path = Found.node n := by
  unfold World.fs at h
  cases hf : w.find path with
  | node m => rw [hf] at h; simp only [Found.toOption, Option.some.injEq] at h; rw [h]
  | missing => rw [hf] at h; simp [Found.toOption] at h
  | notDir => rw [hf] at h; simp [Found.toOption] at h

theorem fs_of_locate (w : World) (path : Str) (place : List Str)
    (h : w.locate path = Located.place place) :
    w.fs path = (Node.get place w.root).toOption := by
  unfold World.fs; rw [find_of_locate w path place h]

/-- What is found at a path is found at the place the path names. -/
theorem find_node_locate (w : World) (path : Str) (n : Node)
    (h : w.find path = Found.node n) :
    ∃ place, w.locate path = Located.place place ∧ Node.get place w.root = Found.node n := by
  unfold World.find at h
  cases hl : w.locate path with
  | place l => rw [hl] at h; exact ⟨l, rfl, h⟩
  | missing => rw [hl] at h; simp at h
  | notDir => rw [hl] at h; simp at h

/-- A path that names a place in one world names it in a world with the same
working directory in which every directory of the first is a directory. -/
theorem locate_transfer (w w1 : World) (hc : w1.cwd = w.cwd)
    (hk : ∀ p es, Node.get p w.root = Found.node (Node.dir es) →
      ∃ es1, Node.get p w1.root = Found.node (Node.dir es1))
    (path : Str) (l : List Str) (h : w.locate path = Located.place l) :
    w1.locate path = Located.place l := by
  unfold World.locate at h ⊢
  by_cases hp : path = []
  · rw [if_pos hp] at h
    simp at h
  · rw [if_neg hp] at h
    rw [if_neg hp, hc]
    exact walkPlace_transfer w.root w1.root hk _ _ l h

/-! ## File-system helpers -/

theorem must_nil (w : World) : must w Option.none = (w, Outcome.returned ()) := rfl

theorem must_err (w : World) (e : GoError) :
    must w (some e)
      = (w.print ("err: ".toList ++ e.text ++ "\n".toList), Outcome.panicked (PanicValue.error e)) :=
  rfl

theorem os_Remove_missing (w : World) (path : Str) (hf : w.faults.remove path = Option.none)
    (h : w.find path = Found.missing) :
    os.Remove w path = (w, some (errNotExist "remove".toList path)) := by
  simp [os.Remove, hf, h]

theorem os_Remove_error_world (w : World) (path : Str) (e : GoError)
    (h : (os.Remove w path).2 = some e) : (os.Remove w path).1 = w := by
  unfold os.Remove at h ⊢
  split
  · rfl
  · split
    · rfl
    · split
      · rfl
      · simp_all
    · rfl
    · rfl

/-- A call of `os.Remove` that succeeds has found, at a place that is not the
root, something that is not a directory with entries, and has taken it away;
nothing else changes. -/
theorem os_Remove_ok (w : World) (path : Str) (h : (os.Remove w path).2 = Option.none) :
    ∃ place n, w.locate path = Located.place place ∧ place ≠ []
      ∧ Node.get place w.root = Found.node n
      ∧ (∀ e es, n ≠ Node.dir (e :: es))
      ∧ (os.Remove w path).1 = { w with root := Node.put place Option.none w.root } := by
  unfold os.Remove at h ⊢
  cases hf : w.faults.remove path with
  | some e => simp [hf] at h
  | none =>
    simp only [hf] at h ⊢
    cases hfind : w.find path with
    | missing => rw [hfind] at h; simp at h
    | notDir => rw [hfind] at h; simp at h
    | node n =>
      obtain ⟨place, hl, hg⟩ := find_node_locate w path n hfind
      rw [hfind] at h
      have hset := setNode_eq w path Option.none place hl
      have hroot : place ≠ [] := by
        intro hnil
        subst hnil
        cases n with
        | dir files =>
          cases files with
          | cons e es => simp at h
          | nil => simp [hl] at h
        | file d => simp [hl] at h
        | other => simp [hl] at h
      have hne : ¬ (w.locate path = Located.place []) := by
        rw [hl]
        simpa using hroot
      cases n with
      | dir files =>
        cases files with
        | cons e es => simp at h
        | nil =>
          refine ⟨place, Node.dir [], hl, hroot, hg, by simp, ?_⟩
          simp only [if_neg hne, hset]
      | file d =>
        refine ⟨place, Node.file d, hl, hroot, hg, by simp, ?_⟩
        simp only [if_neg hne, hset]
      | other =>
        refine ⟨place, Node.other, hl, hroot, hg, by simp, ?_⟩
        simp only [if_neg hne, hset]

theorem removeFile_missing (sprintf : Str → List Arg → Str) (w : World) (path : Str)
    (hf : w.faults.remove path = Option.none) (h : w.find path = Found.missing) :
    (removeFile sprintf w path).1 = w := by
  simp [removeFile, os_Remove_missing w path hf h, os.IsNotExist, errNotExist]

/-- C7 fails as stated: nothing is at `f.txt/x`, because `f.txt` is a regular
file; `os.Remove` answers with an error that is not `os.IsNotExist`
(`ENOTDIR`), and `removeFile` prints the warning although the file is
absent. -/
theorem removeFile_counterexample :
    sampleWorld.fs "f.txt/x".toList = Option.none
      ∧ sampleWorld.faults.remove "f.txt/x".toList = Option.none
      ∧ sampleWorld.stdout = []
      ∧ (removeFile Sprintf sampleWorld "f.txt/x".toList).2 = Outcome.returned ()
      ∧ (removeFile Sprintf sampleWorld "f.txt/x".toList).1.stdout
          = ["os.Remove('f.txt/x') failed with 'remove f.txt/x: not a directory'\n".toList] := by
  refine ⟨rfl, rfl, rfl, rfl, by decide⟩

/-- C7, amended: `removeFile` returns to its caller whatever `os.Remove`
answers; when nothing is at `path` in a directory that is there and the
environment does not refuse the call, and whenever `os.Remove` fails with an
error that is `os.IsNotExist`, the world is left as it was (no output, the
same file system); when `os.Remove` fails with any other error the only effect
is the warning written to standard output. -/
theorem removeFile_never_aborts (sprintf : Str → List Arg → Str) (w : World) (path : Str) :
    (removeFile sprintf w path).2 = Outcome.returned ()
      ∧ (w.find path = Found.missing → w.faults.remove path = Option.none →
          (removeFile sprintf w path).1 = w)
      ∧ (∀ e, (os.Remove w path).2 = some e → os.IsNotExist e = true →
          (removeFile sprintf w path).1 = w)
      ∧ (∀ e, (os.Remove w path).2 = some e → os.IsNotExist e = false →
          (removeFile sprintf w path).1
            = w.print ("os.Remove('".toList ++ path ++ "') failed with '".toList ++ e.text
                ++ "'\n".toList)) := by
  refine ⟨?_, ?_, ?_, ?_⟩
  · unfold removeFile
    split
    · rfl
    · split <;> rfl
  · intro h hf
    exact removeFile_missing sprintf w path hf h
  · intro e he hne
    have hw := os_Remove_error_world w path e he
    unfold removeFile
    split
    · rename_i w1 heq
      rw [heq] at he
      simp at he
    · rename_i w1 err heq
      rw [heq] at he hw
      simp at he hw
      subst he hw
      simp [hne]
  · intro e he hne
    have hw := os_Remove_error_world w path e he
    unfold removeFile
    split
    · rename_i w1 heq
      rw [heq] at he
      simp at he
    · rename_i w1 err heq
      rw [heq] at he hw
      simp at he hw
      subst he hw
      simp [hne]

/-- C7, amended, at a path where nothing is, in a directory that is there:
the world is left as it was. -/
theorem removeFile_never_aborts_witness :
    (removeFile Sprintf sampleWorld "nothing-here".toList).2 = Outcome.returned ()
      ∧ (removeFile Sprintf sampleWorld "nothing-here".toList).1 = sampleWorld :=
  ⟨(removeFile_never_aborts Sprintf sampleWorld "nothing-here".toList).1,
    (removeFile_never_aborts Sprintf sampleWorld "nothing-here".toList).2.1 rfl rfl⟩

/-- A call of `os.MkdirAll` that reports no error has found a directory at
the place of the path, or has made one there, empty, where nothing was. -/
theorem os_MkdirAll_ok (w : World) (dir : Str) (h : (os.MkdirAll w dir).2 = Option.none) :
    (∃ es, w.find dir = Found.node (Node.dir es) ∧ (os.MkdirAll w dir).1 = w)
      ∨ (os.MkdirAll w dir).1.fs dir = some (Node.dir []) := by
  unfold os.MkdirAll at h ⊢
  by_cases hd : dir = []
  · simp [hd] at h
  · simp only [if_neg hd] at h ⊢
    cases hw : walkNew w.root (if rooted dir then [] else w.cwd) (splitSep Separator dir) with
    | missing => rw [hw] at h; simp at h
    | notDir => rw [hw] at h; simp at h
    | place l =>
      rw [hw] at h
      simp only at h ⊢
      cases hg : Node.get l w.root with
      | notDir => rw [hg] at h; simp at h
      | node n =>
        rw [hg] at h
        cases n with
        | file d => simp at h
        | other => simp at h
        | dir es =>
          left
          refine ⟨es, ?_, rfl⟩
          have hl : w.locate dir = Located.place l := by
            unfold World.locate
            rw [if_neg hd]
            exact walkNew_found w.root _ _ l _ hw hg
          rw [find_of_locate w dir l hl]
          exact hg
      | missing =>
        rw [hg] at h
        simp only at h ⊢
        cases hf : w.faults.mkdirAll dir with
        | some e => rw [hf] at h; simp at h
        | none =>
          rw [hf] at h
          simp only at h ⊢
          cases hm : mkdirs l w.root with
          | none => rw [hm] at h; simp at h
          | some root1 =>
            right
            simp only
            have hl : ({ w with root := root1 } : World).locate dir = Located.place l := by
              unfold World.locate
              rw [if_neg hd]
              exact walkNew_made w.root root1 _ _ l hw hm
            rw [fs_of_locate _ dir l hl]
            show (Node.get l root1).toOption = some (Node.dir [])
            rw [mkdirs_get l w.root root1 hg hm]
            rfl

/-- After what a path named has been removed, nothing is found at the path. -/
theorem find_removed (w w1 : World) (path : Str) (place : List Str) (n : Node)
    (hc : w1.cwd = w.cwd) (hr : w1.root = Node.put place Option.none w.root)
    (hl : w.locate path = Located.place place) (hne : place ≠ [])
    (hg : Node.get place w.root = Found.node n) :
    ∀ n0, w1.find path ≠ Found.node n0 := by
  intro n0 hcon
  obtain ⟨l1, hl1, hg1⟩ := find_node_locate w1 path n0 hcon
  have hgone := Node_get_put_none place w.root hne ⟨n, hg⟩
  unfold World.locate at hl hl1
  by_cases hd : path = []
  · rw [if_pos hd] at hl
    simp at hl
  · rw [if_neg hd] at hl hl1
    rw [hc, hr] at hl1
    rw [hr] at hg1
    rcases walkPlace_removed w.root place n hne hg (splitSep Separator path)
      (if rooted path then [] else w.cwd) with hsame | hmiss
    · have : Located.place l1 = Located.place place := by
        rw [← hl1, ← hl]
        exact hsame
      simp only [Located.place.injEq] at this
      subst this
      rw [hgone] at hg1
      simp at hg1
    · have : Located.place l1 = Located.missing := by
        rw [← hl1]
        exact hmiss
      simp at this

/-- After a call of `os.RemoveAll` that reports no error nothing is at the
path. -/
theorem os_RemoveAll_ok (w : World) (dir : Str) (h : (os.RemoveAll w dir).2 = Option.none) :
    ∀ n, (os.RemoveAll w dir).1.find dir ≠ Found.node n := by
  intro n0
  unfold os.RemoveAll at h ⊢
  by_cases hd : dir = []
  · subst hd
    simp [World.find, World.locate]
  · simp only [if_neg hd] at h ⊢
    by_cases hdot : endsWithDot dir = true
    · simp [hdot] at h
    · simp only [hdot, Bool.false_eq_true, if_false] at h ⊢
      cases hfind : w.find dir with
      | missing => simp [hfind]
      | notDir => rw [hfind] at h; simp at h
      | node n =>
        obtain ⟨place, hl, hg⟩ := find_node_locate w dir n hfind
        rw [hfind] at h
        simp only at h ⊢
        cases hf : w.faults.removeAll dir with
        | some e => rw [hf] at h; simp at h
        | none =>
          rw [hf] at h
          simp only at h ⊢
          by_cases hroot : place = []
          · simp [hl, hroot] at h
          · have hne : ¬ (w.locate dir = Located.place []) := by
              rw [hl]
              simpa using hroot
            simp only [if_neg hne]
            exact find_removed w _ dir place n (setNode_cwd w dir _)
              (setNode_root w dir _ place hl) hl hroot hg n0

/-- C8 fails as stated: when the environment refuses the removal, `recreateDir`
drops the error of `os.RemoveAll`, `os.MkdirAll` finds the directory in place,
and `recreateDir` returns normally with the old file still in `d`. -/
theorem recreateDir_counterexample :
    stuckWorld.fs "d".toList = some (Node.dir [("f".toList, Node.file "x".toList)])
      ∧ (recreateDir stuckWorld "d".toList).2 = Outcome.returned ()
      ∧ (recreateDir stuckWorld "d".toList).1.fs "d".toList
          = some (Node.dir [("f".toList, Node.file "x".toList)]) := by
  refine ⟨rfl, rfl, rfl⟩

/-- C8, amended: when `os.RemoveAll` reports no error and `recreateDir`
returns normally, `d` is a directory without entries afterwards. -/
theorem recreateDir_empty (w : World) (d : Str)
    (hrm : (os.RemoveAll w d).2 = Option.none)
    (hret : (recreateDir w d).2 = Outcome.returned ()) :
    (recreateDir w d).1.fs d = some (Node.dir []) := by
  have hgone := os_RemoveAll_ok w d hrm
  unfold recreateDir at hret ⊢
  simp only at hret ⊢
  cases hmk : (os.MkdirAll (os.RemoveAll w d).1 d).2 with
  | some e => rw [hmk] at hret; simp [must] at hret
  | none =>
    rw [must_nil]
    rcases os_MkdirAll_ok (os.RemoveAll w d).1 d hmk with ⟨es, hes, _⟩ | h
    · exact absurd hes (hgone _)
    · exact h

/-- C8, amended, on a directory that holds a file. -/
theorem recreateDir_empty_witness :
    tidyWorld.fs "d".toList = some (Node.dir [("f".toList, Node.file "x".toList)])
      ∧ (recreateDir tidyWorld "d".toList).1.fs "d".toList = some (Node.dir []) :=
  ⟨rfl, recreateDir_empty tidyWorld "d".toList rfl rfl⟩

/-- C4: for two regular files the environment lets read, `areFilesEuqal`
returns, and returns true exactly when the two files have the same bytes
(the same length and the same byte at every position); when either read
fails it panics. -/
theorem areFilesEuqal_spec (w : World) (path1 path2 : Str) :
    (∀ d1 d2, ioutil.ReadFile w path1 = (d1, Option.none) →
        ioutil.ReadFile w path2 = (d2, Option.none) →
        ∃ b, (areFilesEuqal w path1 path2).2 = Outcome.returned b
          ∧ (b = true ↔ d1 = d2)
          ∧ (b = true ↔ d1.length = d2.length ∧ ∀ i : Nat, d1[i]? = d2[i]?))
      ∧ ((ioutil.ReadFile w path1).2 ≠ Option.none ∨ (ioutil.ReadFile w path2).2 ≠ Option.none →
        ∃ v, (areFilesEuqal w path1 path2).2 = Outcome.panicked v) := by
  constructor
  · intro d1 d2 h1 h2
    refine ⟨decide (d1 = d2), ?_, by simp, ?_⟩
    · simp [areFilesEuqal, u.ReadFileMust, h1, h2, bytes.Equal]
    · simp only [decide_eq_true_eq]
      constructor
      · intro h; subst h; simp
      · intro h; exact List.ext_getElem? h.2
  · intro h
    rcases h1 : ioutil.ReadFile w path1 with ⟨d1, e1⟩
    rcases h2 : ioutil.ReadFile w path2 with ⟨d2, e2⟩
    rw [h1, h2] at h
    cases e1 with
    | some e => simp [areFilesEuqal, u.ReadFileMust, h1]
    | none =>
      cases e2 with
      | some e => simp [areFilesEuqal, u.ReadFileMust, h1, h2]
      | none => simp at h

/-- C4 on a file compared with itself, with a file that differs from it in one
byte, and with a path where nothing is. -/
theorem areFilesEuqal_spec_witness :
    (areFilesEuqal sampleWorld "out.zip".toList "out.zip".toList).2 = Outcome.returned true
      ∧ (areFilesEuqal sampleWorld "out.zip".toList "copy.zip".toList).2 = Outcome.returned false
      ∧ (∃ v, (areFilesEuqal sampleWorld "out.zip".toList "gone".toList).2
          = Outcome.panicked v) := by
  obtain ⟨b, hb, hiff, _⟩ := (areFilesEuqal_spec sampleWorld "out.zip".toList
    "copy.zip".toList).1 "old".toList "olD".toList rfl rfl
  refine ⟨by decide, ?_,
    (areFilesEuqal_spec sampleWorld "out.zip".toList "gone".toList).2 (Or.inr (by decide))⟩
  cases b with
  | false => exact hb
  | true => exact absurd (hiff.1 rfl) (by decide)

/-! ## Running commands -/

/-- C6: `runCmd` returns exactly when the subprocess ends without error and
panics with the error otherwise; what it returns is the captured output when
neither `cmd.Stdout` nor `cmd.Stderr` is set and the empty string when the
caller set one of them. -/
theorem runCmd_spec (w : World) (cmd : Cmd) :
    ((∃ s, (runCmd w cmd).2 = Outcome.returned s) ↔ (w.exec cmd).err = Option.none)
      ∧ (∀ e, (w.exec cmd).err = some e →
          (runCmd w cmd).2 = Outcome.panicked (PanicValue.error e))
      ∧ ((w.exec cmd).err = Option.none → cmd.Stdout = Option.none → cmd.Stderr = Option.none →
          (runCmd w cmd).2 = Outcome.returned (w.exec cmd).out)
      ∧ ((w.exec cmd).err = Option.none → (cmd.Stdout ≠ Option.none ∨ cmd.Stderr ≠ Option.none) →
          (runCmd w cmd).2 = Outcome.returned []) := by
  have key : ∀ e, (w.exec cmd).err = some e →
      (runCmd w cmd).2 = Outcome.panicked (PanicValue.error e) := by
    intro e he
    unfold runCmd
    simp only [print_exec, he, must_err]
    split <;> rfl
  have ok1 : (w.exec cmd).err = Option.none → cmd.Stdout = Option.none →
      cmd.Stderr = Option.none → (runCmd w cmd).2 = Outcome.returned (w.exec cmd).out := by
    intro he h1 h2
    unfold runCmd
    simp only [print_exec, he, h1, h2]
    simp only [Option.isNone_none, Bool.and_self, if_true]
    split <;> rfl
  have ok2 : (w.exec cmd).err = Option.none →
      (cmd.Stdout ≠ Option.none ∨ cmd.Stderr ≠ Option.none) →
      (runCmd w cmd).2 = Outcome.returned [] := by
    intro he h
    unfold runCmd
    have hc : (cmd.Stdout.isNone && cmd.Stderr.isNone) = false := by
      rcases h with h | h
      · cases hs : cmd.Stdout with
        | none => exact absurd hs h
        | some x => simp
      · cases hs : cmd.Stderr with
        | none => exact absurd hs h
        | some x => simp
    simp only [print_exec, he, hc]
    rfl
  refine ⟨⟨?_, ?_⟩, key, ok1, ok2⟩
  · rintro ⟨s, hs⟩
    cases he : (w.exec cmd).err with
    | none => rfl
    | some e => rw [key e he] at hs; cases hs
  · intro he
    by_cases h : cmd.Stdout = Option.none ∧ cmd.Stderr = Option.none
    · exact ⟨_, ok1 he h.1 h.2⟩
    · refine ⟨_, ok2 he ?_⟩
      by_cases h1 : cmd.Stdout = Option.none
      · exact Or.inr (fun h2 => h ⟨h1, h2⟩)
      · exact Or.inl h1

/-- C6 on `git status` in a clean checkout: the captured text is returned. -/
theorem runCmd_spec_witness :
    (runCmd cleanRepoWorld (exec.Command cleanRepoWorld "git".toList ["status".toList])).2
      = Outcome.returned cleanStatus :=
  (runCmd_spec cleanRepoWorld (exec.Command cleanRepoWorld "git".toList ["status".toList])).2.2.1
    rfl rfl rfl

theorem strings_Contains_iff (s substr : Str) :
    strings.Contains s substr = true ↔ substr <:+: s := by
  induction s with
  | nil => simp [strings.Contains, List.isEmpty_iff]
  | cons c cs ih =>
    simp only [strings.Contains, Bool.or_eq_true, ih, List.infix_cons_iff,
      List.isPrefixOf_iff_prefix]

theorem checkGitCleanLoop_returns (w : World) (dir s : Str) (exps : List Str) :
    (checkGitCleanLoop w dir s exps).2 = Outcome.returned () ↔ ∀ e ∈ exps, e <:+: s := by
  induction exps with
  | nil => simp [checkGitCleanLoop]
  | cons e rest ih =>
    unfold checkGitCleanLoop
    by_cases h : strings.Contains s e = true
    · have h2 := (strings_Contains_iff s e).1 h
      simp [h, ih, h2]
    · have h2 : ¬ e <:+: s := fun hc => h ((strings_Contains_iff s e).2 hc)
      simp [h, h2]

/-- The loop stops at the first literal that is missing: the literals before
it are found, and the diagnostic names it. -/
theorem checkGitCleanLoop_first (w : World) (dir s : Str) (found : List Str) (e : Str)
    (rest : List Str) (hfound : ∀ x ∈ found, x <:+: s) (he : ¬ e <:+: s) :
    checkGitCleanLoop w dir s (found ++ e :: rest)
      = (w.print ("Git repo in '".toList ++ dir ++ "' not clean.\nDidn't find '".toList ++ e
            ++ "' in output of git status:\n".toList ++ s ++ "\n".toList), Outcome.exited 1) := by
  induction found with
  | nil =>
    have h : strings.Contains s e = false := by
      cases hc : strings.Contains s e with
      | false => rfl
      | true => exact absurd ((strings_Contains_iff s e).1 hc) he
    simp [checkGitCleanLoop, h]
  | cons x xs ih =>
    have hx : strings.Contains s x = true :=
      (strings_Contains_iff s x).2 (hfound x (List.mem_cons_self _ _))
    simp only [List.cons_append, checkGitCleanLoop, hx, Bool.not_true, Bool.false_eq_true,
      if_false]
    exact ih (fun y hy => hfound y (List.mem_cons_of_mem _ hy))

/-- C3, as the code has it: when `git status` gives the text `s`,
`checkGitClean` returns exactly when `s` contains the three literals of the
source, the second of which is the whole line
`Your branch is up to date with 'origin/master'.`; otherwise it prints the
diagnostic for the first literal missing, in the order of the source, and
nothing else, and ends the process with status 1. -/
theorem checkGitClean_spec (w w1 : World) (dir s : Str)
    (hstatus : gitStatus w dir = (w1, Outcome.returned s)) :
    ((checkGitClean w dir).2 = Outcome.returned ()
        ↔ ("On branch master".toList <:+: s
          ∧ "Your branch is up to date with 'origin/master'.".toList <:+: s
          ∧ "nothing to commit, working tree clean".toList <:+: s))
      ∧ (¬ "On branch master".toList <:+: s →
          checkGitClean w dir
            = (w1.print ("Git repo in '".toList ++ dir ++ "' not clean.\nDidn't find '".toList
                ++ "On branch master".toList
                ++ "' in output of git status:\n".toList ++ s ++ "\n".toList), Outcome.exited 1))
      ∧ ("On branch master".toList <:+: s →
          ¬ "Your branch is up to date with 'origin/master'.".toList <:+: s →
          checkGitClean w dir
            = (w1.print ("Git repo in '".toList ++ dir ++ "' not clean.\nDidn't find '".toList
                ++ "Your branch is up to date with 'origin/master'.".toList
                ++ "' in output of git status:\n".toList ++ s ++ "\n".toList), Outcome.exited 1))
      ∧ ("On branch master".toList <:+: s →
          "Your branch is up to date with 'origin/master'.".toList <:+: s →
          ¬ "nothing to commit, working tree clean".toList <:+: s →
          checkGitClean w dir
            = (w1.print ("Git repo in '".toList ++ dir ++ "' not clean.\nDidn't find '".toList
                ++ "nothing to commit, working tree clean".toList
                ++ "' in output of git status:\n".toList ++ s ++ "\n".toList),
                Outcome.exited 1)) := by
  have h : checkGitClean w dir = checkGitCleanLoop w1 dir s expected := by
    simp [checkGitClean, hstatus]
  rw [h]
  refine ⟨?_, ?_, ?_, ?_⟩
  · rw [checkGitCleanLoop_returns]
    simp [expected]
  · intro h1
    exact checkGitCleanLoop_first w1 dir s [] _ _ (by simp) h1
  · intro h1 h2
    exact checkGitCleanLoop_first w1 dir s ["On branch master".toList] _ _
      (by simpa using h1) h2
  · intro h1 h2 h3
    exact checkGitCleanLoop_first w1 dir s ["On branch master".toList,
      "Your branch is up to date with 'origin/master'.".toList] _ _
      (by
        intro x hx
        simp only [List.mem_cons, List.mem_singleton, List.not_mem_nil, or_false] at hx
        rcases hx with hx | hx
        · rw [hx]; exact h1
        · rw [hx]; exact h2) h3

/-- C3, as the code has it, on the status text of a clean checkout. -/
theorem checkGitClean_spec_witness :
    (checkGitClean cleanRepoWorld []).2 = Outcome.returned ()
      ↔ ("On branch master".toList <:+: cleanStatus
        ∧ "Your branch is up to date with 'origin/master'.".toList <:+: cleanStatus
        ∧ "nothing to commit, working tree clean".toList <:+: cleanStatus) :=
  (checkGitClean_spec cleanRepoWorld (gitStatus cleanRepoWorld []).1 [] cleanStatus rfl).1

/-- C3 fails as stated: on the status text of a clean checkout `checkGitClean`
returns normally, and the text does not contain the literal
`up to date with origin/master` (git quotes the branch). -/
theorem checkGitClean_counterexample :
    (gitStatus cleanRepoWorld []).2 = Outcome.returned cleanStatus
      ∧ (checkGitClean cleanRepoWorld []).2 = Outcome.returned ()
      ∧ ¬ ("up to date with origin/master".toList <:+: cleanStatus) := by
  refine ⟨by decide, by decide, ?_⟩
  rw [← strings_Contains_iff]
  decide

/-! ## Paths -/

theorem splitSep_ne_nil (sep : Char) (p : Str) : splitSep sep p ≠ [] := by
  cases p with
  | nil => simp [splitSep]
  | cons c cs =>
    unfold splitSep
    split
    · simp
    · split <;> simp

theorem splitSep_no_sep (sep : Char) (p : Str) : ∀ x ∈ splitSep sep p, sep ∉ x := by
  induction p with
  | nil => simp [splitSep]
  | cons c cs ih =>
    unfold splitSep
    split
    · intro x hx
      rcases List.mem_cons.1 hx with h | h
      · simp [h]
      · exact ih x h
    · rename_i hc
      split
      · rename_i heq
        exact absurd heq (splitSep_ne_nil sep cs)
      · rename_i y ys heq
        rw [heq] at ih
        intro x hx
        rcases List.mem_cons.1 hx with h | h
        · subst h
          have := ih y (List.mem_cons_self _ _)
          simp only [List.mem_cons, not_or]
          exact ⟨fun h => hc h.symm, this⟩
        · exact ih x (List.mem_cons_of_mem _ h)

theorem splitSep_of_not_mem (sep : Char) (c : Str) (h : sep ∉ c) : splitSep sep c = [c] := by
  induction c with
  | nil => rfl
  | cons a as ih =>
    simp only [List.mem_cons, not_or] at h
    have ha : ¬ a = sep := fun e => h.1 e.symm
    unfold splitSep
    simp [ha, ih h.2]

theorem splitSep_append (sep : Char) (a b : Str) :
    splitSep sep (a ++ sep :: b) = splitSep sep a ++ splitSep sep b := by
  induction a with
  | nil => simp [splitSep]
  | cons c cs ih =>
    by_cases hc : c = sep
    · simp [splitSep, hc, ih]
    · have hne := splitSep_ne_nil sep cs
      cases hs : splitSep sep cs with
      | nil => exact absurd hs hne
      | cons x xs =>
        rw [hs] at ih
        simp [splitSep, hc, ih, hs]

theorem strings_Join_cons_cons (e f : Str) (rest : List Str) (sep : Str) :
    strings.Join (e :: f :: rest) sep = e ++ sep ++ strings.Join (f :: rest) sep := by
  simp [strings.Join]

theorem strings_Join_snoc (elems : List Str) (c sep : Str) (h : elems ≠ []) :
    strings.Join (elems ++ [c]) sep = strings.Join elems sep ++ sep ++ c := by
  induction elems with
  | nil => exact absurd rfl h
  | cons e rest ih =>
    cases rest with
    | nil => simp [strings.Join]
    | cons f rest2 =>
      have := ih (by simp)
      simp only [List.cons_append] at this ⊢
      rw [strings_Join_cons_cons, this, strings_Join_cons_cons]
      simp

theorem splitSep_Join (sep : Char) (elems : List Str) (hne : elems ≠ [])
    (h : ∀ e ∈ elems, sep ∉ e) : splitSep sep (strings.Join elems [sep]) = elems := by
  induction elems with
  | nil => exact absurd rfl hne
  | cons e rest ih =>
    cases rest with
    | nil =>
      simp only [strings.Join]
      exact splitSep_of_not_mem sep e (h e (List.mem_cons_self _ _))
    | cons f rest2 =>
      rw [strings_Join_cons_cons]
      have h1 := ih (by simp) (fun x hx => h x (List.mem_cons_of_mem _ hx))
      have : e ++ [sep] ++ strings.Join (f :: rest2) [sep]
          = e ++ sep :: strings.Join (f :: rest2) [sep] := by simp
      rw [this, splitSep_append, h1, splitSep_of_not_mem sep e (h e (List.mem_cons_self _ _))]
      rfl

theorem plainName_iff (c : Str) :
    plainName c = true ↔ c ≠ [] ∧ c ≠ ['.'] ∧ c ≠ ['.', '.'] ∧ Separator ∉ c := by
  simp [plainName, and_assoc]

theorem cleanStep_plain (r : Bool) (st : List Str) (c : Str) (h : plainName c = true) :
    cleanStep r st c = c :: st := by
  rw [plainName_iff] at h
  simp [cleanStep, h.1, h.2.1, h.2.2.1]

theorem foldl_cleanStep_plain (r : Bool) (cs : List Str) (h : ∀ c ∈ cs, plainName c = true)
    (st : List Str) : cs.foldl (cleanStep r) st = cs.reverse ++ st := by
  induction cs generalizing st with
  | nil => rfl
  | cons c rest ih =>
    simp only [List.foldl_cons, List.reverse_cons, List.append_assoc, List.singleton_append]
    rw [cleanStep_plain r st c (h c (List.mem_cons_self _ _))]
    exact ih (fun x hx => h x (List.mem_cons_of_mem _ hx)) (c :: st)

theorem dotdot_no_sep : Separator ∉ (['.', '.'] : Str) := by decide

theorem normalStack_dots (below : List Str)
    (h : below.all (fun e => decide (e = ['.', '.'])) = true) : normalStack false below = true := by
  induction below with
  | nil => rfl
  | cons t b ih =>
    simp only [List.all_cons, Bool.and_eq_true, decide_eq_true_eq] at h
    simp [normalStack, h.1, h.2]

theorem normalStack_tail (r : Bool) (top : Str) (below : List Str)
    (h : normalStack r (top :: below) = true) : normalStack r below = true := by
  unfold normalStack at h
  split at h
  · simp only [Bool.and_eq_true, Bool.not_eq_true'] at h
    rw [h.1]
    exact normalStack_dots below h.2
  · simp only [Bool.and_eq_true] at h
    exact h.2

theorem normalStack_elem (r : Bool) (st : List Str) (h : normalStack r st = true) :
    ∀ e ∈ st, e ≠ [] ∧ Separator ∉ e := by
  induction st with
  | nil => simp
  | cons t b ih =>
    intro e he
    rcases List.mem_cons.1 he with h1 | h1
    · subst h1
      unfold normalStack at h
      split at h
      · rename_i ht
        rw [ht]
        exact ⟨by simp, dotdot_no_sep⟩
      · simp only [Bool.and_eq_true] at h
        have := (plainName_iff e).1 h.1
        exact ⟨this.1, this.2.2.2⟩
    · exact ih (normalStack_tail r t b h) e h1

theorem normalStack_push (r : Bool) (st : List Str) (c : Str) (hc : plainName c = true)
    (h : normalStack r st = true) : normalStack r (c :: st) = true := by
  have := (plainName_iff c).1 hc
  simp [normalStack, this.2.2.1, hc, h]

theorem normalStack_append (r : Bool) (cs st : List Str) (hc : ∀ c ∈ cs, plainName c = true)
    (h : normalStack r st = true) : normalStack r (cs.reverse ++ st) = true := by
  induction cs generalizing st with
  | nil => simpa using h
  | cons c rest ih =>
    simp only [List.reverse_cons, List.append_assoc, List.singleton_append]
    exact ih (c :: st) (fun x hx => hc x (List.mem_cons_of_mem _ hx))
      (normalStack_push r st c (hc c (List.mem_cons_self _ _)) h)

theorem cleanStep_normal (r : Bool) (st : List Str) (e : Str) (hs : Separator ∉ e)
    (h : normalStack r st = true) : normalStack r (cleanStep r st e) = true := by
  unfold cleanStep
  split
  · exact h
  · rename_i h1
    simp only [not_or] at h1
    split
    · rename_i h2
      cases st with
      | nil =>
        cases r <;> simp [normalStack, h2]
      | cons top below =>
        simp only
        split
        · rename_i h3
          unfold normalStack at h
          simp only [h3, if_true, Bool.and_eq_true, Bool.not_eq_true'] at h
          simp [normalStack, h2, h3, h.1, h.2]
        · exact normalStack_tail r top below h
    · rename_i h2
      exact normalStack_push r st e ((plainName_iff e).2 ⟨h1.1, h1.2, h2, hs⟩) h

theorem foldl_cleanStep_normal (r : Bool) (l : List Str) (hl : ∀ x ∈ l, Separator ∉ x)
    (st : List Str) (h : normalStack r st = true) :
    normalStack r (l.foldl (cleanStep r) st) = true := by
  induction l generalizing st with
  | nil => exact h
  | cons x rest ih =>
    exact ih (fun y hy => hl y (List.mem_cons_of_mem _ hy)) _
      (cleanStep_normal r st x (hl x (List.mem_cons_self _ _)) h)

theorem cleanStack_normal (p : Str) : normalStack (rooted p) (cleanStack p) = true :=
  foldl_cleanStep_normal (rooted p) _ (splitSep_no_sep Separator p) [] rfl

theorem foldl_cleanStep_reverse (r : Bool) (st : List Str) (h : normalStack r st = true) :
    st.reverse.foldl (cleanStep r) [] = st := by
  induction st with
  | nil => rfl
  | cons top below ih =>
    rw [List.reverse_cons, List.foldl_append, ih (normalStack_tail r top below h)]
    simp only [List.foldl_cons, List.foldl_nil]
    unfold normalStack at h
    split at h
    · rename_i ht
      simp only [Bool.and_eq_true, Bool.not_eq_true'] at h
      subst ht
      cases below with
      | nil => simp [cleanStep, h.1]
      | cons t b =>
        simp only [List.all_cons, Bool.and_eq_true, decide_eq_true_eq] at h
        simp [cleanStep, h.2.1]
    · simp only [Bool.and_eq_true] at h
      exact cleanStep_plain r below top h.1

theorem strings_Join_head (e : Str) (rest : List Str) (sep : Str) (he : e ≠ []) :
    (strings.Join (e :: rest) sep).head? = e.head? := by
  cases e with
  | nil => exact absurd rfl he
  | cons a as =>
    cases rest with
    | nil => rfl
    | cons f rest2 => simp [strings.Join]

theorem rooted_of_no_sep (e : Str) (he : e ≠ []) (hs : Separator ∉ e) (p : Str)
    (hp : p.head? = e.head?) : rooted p = false := by
  cases e with
  | nil => exact absurd rfl he
  | cons a as =>
    simp only [List.mem_cons, not_or] at hs
    simp only [rooted, hp, List.head?_cons, Option.some.injEq, decide_eq_false_iff_not]
    exact fun h => hs.1 h.symm

theorem rooted_append (p q : Str) (hp : p ≠ []) : rooted (p ++ q) = rooted p := by
  cases p with
  | nil => exact absurd rfl hp
  | cons a as => rfl

theorem cleanStack_nil : cleanStack [] = [] := by decide

theorem rooted_nil : rooted [] = false := by decide

/-- Reading back the elements of a path written by `renderPath`. -/
theorem cleanStack_renderPath (r : Bool) (st : List Str) (h : normalStack r st = true) :
    rooted (renderPath r st) = r ∧ cleanStack (renderPath r st) = st := by
  have helem := normalStack_elem r st h
  cases st with
  | nil =>
    cases r
    · exact ⟨by decide, by decide⟩
    · exact ⟨by decide, by decide⟩
  | cons top below =>
    have hne : (top :: below).reverse ≠ [] := by simp
    have hsplit : splitSep Separator (strings.Join (top :: below).reverse [Separator])
        = (top :: below).reverse :=
      splitSep_Join Separator _ hne (fun e he => (helem e (List.mem_reverse.1 he)).2)
    cases r with
    | false =>
      have hr : rooted (renderPath false (top :: below)) = false := by
        cases hrev : (top :: below).reverse with
        | nil => exact absurd hrev hne
        | cons e0 rest =>
          have he0 : e0 ∈ top :: below := List.mem_reverse.1 (by rw [hrev]; simp)
          apply rooted_of_no_sep e0 (helem e0 he0).1 (helem e0 he0).2
          simp only [renderPath, Bool.false_eq_true, if_false, hrev]
          simp only [reduceCtorEq, if_false]
          exact strings_Join_head e0 rest _ (helem e0 he0).1
      refine ⟨hr, ?_⟩
      unfold cleanStack
      rw [hr]
      simp only [renderPath, Bool.false_eq_true, if_false, reduceCtorEq]
      rw [hsplit]
      exact foldl_cleanStep_reverse false _ h
    | true =>
      refine ⟨rfl, ?_⟩
      have hr : rooted (renderPath true (top :: below)) = true := rfl
      unfold cleanStack
      rw [hr]
      simp only [renderPath, if_true]
      have : splitSep Separator (Separator :: strings.Join (top :: below).reverse [Separator])
          = [] :: splitSep Separator (strings.Join (top :: below).reverse [Separator]) := by
        simp [splitSep]
      rw [this, hsplit]
      simp only [List.foldl_cons]
      have h0 : cleanStep true [] [] = [] := by simp [cleanStep]
      rw [h0]
      exact foldl_cleanStep_reverse true _ h

theorem filepath_Clean_eq (p : Str) : filepath.Clean p = renderPath (rooted p) (cleanStack p) := by
  by_cases hp : p = []
  · subst hp; decide
  · simp [filepath.Clean, hp]

theorem filepath_Join_pair (p c : Str) (hc : plainName c = true) :
    filepath.Join [p, c] = renderPath (rooted p) (c :: cleanStack p) := by
  have hpl := (plainName_iff c).1 hc
  by_cases hp : p = []
  · subst hp
    have h1 : filepath.Join [[], c] = filepath.Clean c := by
      simp [filepath.Join, List.dropWhile, hpl.1, strings.Join]
    rw [h1, filepath_Clean_eq]
    have hr : rooted c = false := rooted_of_no_sep c hpl.1 hpl.2.2.2 c rfl
    rw [hr, rooted_nil, cleanStack_nil]
    unfold cleanStack
    rw [hr, splitSep_of_not_mem Separator c hpl.2.2.2]
    simp [cleanStep_plain false [] c hc]
  · have h1 : filepath.Join [p, c] = filepath.Clean (p ++ Separator :: c) := by
      simp [filepath.Join, List.dropWhile, hp, strings.Join]
    rw [h1, filepath_Clean_eq, rooted_append p _ hp]
    congr 1
    unfold cleanStack
    rw [rooted_append p _ hp, splitSep_append, splitSep_of_not_mem Separator c hpl.2.2.2,
      List.foldl_append]
    simp only [List.foldl_cons, List.foldl_nil]
    exact cleanStep_plain _ _ c hc

theorem filepath_Join_eq_pathBelow (dir name : Str) (h : plainName name = true) :
    filepath.Join [dir, name] = pathBelow dir [name] := by
  rw [filepath_Join_pair dir name h]
  rfl

theorem pathBelow_Join (dir name : Str) (cs : List Str) (h : plainName name = true) :
    pathBelow (filepath.Join [dir, name]) cs = pathBelow dir (name :: cs) := by
  rw [filepath_Join_pair dir name h]
  have hn : normalStack (rooted dir) (name :: cleanStack dir) = true :=
    normalStack_push _ _ name h (cleanStack_normal dir)
  have hr := cleanStack_renderPath (rooted dir) (name :: cleanStack dir) hn
  unfold pathBelow
  rw [hr.1, hr.2]
  simp

theorem pathBelow_injective (dir : Str) (cs1 cs2 : List Str)
    (h1 : ∀ c ∈ cs1, plainName c = true) (h2 : ∀ c ∈ cs2, plainName c = true)
    (h : pathBelow dir cs1 = pathBelow dir cs2) : cs1 = cs2 := by
  have n1 := normalStack_append (rooted dir) cs1 (cleanStack dir) h1 (cleanStack_normal dir)
  have n2 := normalStack_append (rooted dir) cs2 (cleanStack dir) h2 (cleanStack_normal dir)
  have r1 := (cleanStack_renderPath _ _ n1).2
  have r2 := (cleanStack_renderPath _ _ n2).2
  unfold pathBelow at h
  rw [h, r2] at r1
  have := List.append_cancel_right r1
  exact (List.reverse_injective this).symm

/-- The path of a file below `dir` is what `filepath.Join` makes of `dir` and
the names that lead to the file. -/
theorem filepath_Join_list (dir : Str) (cs : List Str) (hcs : ∀ c ∈ cs, plainName c = true)
    (hne : cs ≠ []) : filepath.Join (dir :: cs) = pathBelow dir cs := by
  cases cs with
  | nil => exact absurd rfl hne
  | cons c0 rest =>
    have hp0 := (plainName_iff c0).1 (hcs c0 (List.mem_cons_self _ _))
    have hsep : ∀ e ∈ c0 :: rest, Separator ∉ e :=
      fun e he => ((plainName_iff e).1 (hcs e he)).2.2.2
    have hsplit := splitSep_Join Separator (c0 :: rest) (by simp) hsep
    by_cases hp : dir = []
    · subst hp
      have h1 : filepath.Join ([] :: c0 :: rest)
          = filepath.Clean (strings.Join (c0 :: rest) [Separator]) := by
        simp [filepath.Join, List.dropWhile, hp0.1]
      rw [h1, filepath_Clean_eq]
      have hr : rooted (strings.Join (c0 :: rest) [Separator]) = false :=
        rooted_of_no_sep c0 hp0.1 hp0.2.2.2 _ (strings_Join_head c0 rest _ hp0.1)
      unfold pathBelow cleanStack
      rw [hr, hsplit, rooted_nil, foldl_cleanStep_plain false _ hcs]
      simp [splitSep, cleanStep]
    · have h1 : filepath.Join (dir :: c0 :: rest)
          = filepath.Clean (dir ++ Separator :: strings.Join (c0 :: rest) [Separator]) := by
        simp [filepath.Join, List.dropWhile, hp, strings_Join_cons_cons]
      rw [h1, filepath_Clean_eq, rooted_append dir _ hp]
      unfold pathBelow
      congr 1
      unfold cleanStack
      rw [rooted_append dir _ hp, splitSep_append, hsplit, List.foldl_append,
        foldl_cleanStep_plain _ _ hcs]


/-! ## Paths and places -/

theorem cleanStep_kept (r : Bool) (st : List Str) (e : Str)
    (h : ∀ t ∈ st, t ≠ [] ∧ t ≠ ['.']) : ∀ t ∈ cleanStep r st e, t ≠ [] ∧ t ≠ ['.'] := by
  intro t ht
  unfold cleanStep at ht
  by_cases h1 : e = [] ∨ e = ['.']
  · rw [if_pos h1] at ht
    exact h t ht
  · rw [if_neg h1] at ht
    have he : e ≠ [] ∧ e ≠ ['.'] := ⟨fun x => h1 (Or.inl x), fun x => h1 (Or.inr x)⟩
    by_cases h2 : e = ['.', '.']
    · rw [if_pos h2] at ht
      cases st with
      | nil =>
        simp only at ht
        cases r with
        | true => simp at ht
        | false =>
          simp only [Bool.false_eq_true, if_false, List.mem_singleton] at ht
          rw [ht]; exact he
      | cons top below =>
        simp only at ht
        by_cases h3 : top = ['.', '.']
        · rw [if_pos h3] at ht
          rcases List.mem_cons.1 ht with ht | ht
          · rw [ht]; exact he
          · exact h t ht
        · rw [if_neg h3] at ht
          exact h t (List.mem_cons_of_mem _ ht)
    · rw [if_neg h2] at ht
      rcases List.mem_cons.1 ht with ht | ht
      · rw [ht]; exact he
      · exact h t ht

theorem foldl_cleanStep_kept (r : Bool) (xs : List Str) :
    ∀ (st : List Str), (∀ t ∈ st, t ≠ [] ∧ t ≠ ['.']) →
      ∀ t ∈ xs.foldl (cleanStep r) st, t ≠ [] ∧ t ≠ ['.'] := by
  induction xs with
  | nil => intro st h; exact h
  | cons x rest ih =>
    intro st h
    exact ih (cleanStep r st x) (cleanStep_kept r st x h)

/-- One more element of a path that is not rooted, on the elements kept so
far, is the same step as on the stack that the elements kept so far make of
another stack. -/
theorem cleanStep_replay (r : Bool) (s t : List Str) (e : Str)
    (ht : ∀ x ∈ t, x ≠ [] ∧ x ≠ ['.']) :
    (cleanStep false t e).reverse.foldl (cleanStep r) s
      = cleanStep r (t.reverse.foldl (cleanStep r) s) e := by
  by_cases h1 : e = [] ∨ e = ['.']
  · simp only [cleanStep, if_pos h1]
  · have hpush : ∀ st : List Str, (e :: st).reverse.foldl (cleanStep r) s
        = cleanStep r (st.reverse.foldl (cleanStep r) s) e := by
      intro st
      rw [List.reverse_cons, List.foldl_append]
      rfl
    by_cases h2 : e = ['.', '.']
    · cases t with
      | nil =>
        subst h2
        rfl
      | cons top below =>
        by_cases h3 : top = ['.', '.']
        · have : cleanStep false (top :: below) e = e :: top :: below := by
            simp only [cleanStep, if_neg h1, if_pos h2, if_pos h3]
          rw [this, hpush]
        · have hc : cleanStep false (top :: below) e = below := by
            simp only [cleanStep, if_neg h1, if_pos h2, if_neg h3]
          rw [hc, List.reverse_cons, List.foldl_append]
          simp only [List.foldl_cons, List.foldl_nil]
          have htop := ht top (List.mem_cons_self _ _)
          have hpt : cleanStep r (below.reverse.foldl (cleanStep r) s) top
              = top :: below.reverse.foldl (cleanStep r) s := by
            have h4 : ¬ (top = [] ∨ top = ['.']) := fun x => x.elim htop.1 htop.2
            simp only [cleanStep, if_neg h4, if_neg h3]
          rw [hpt]
          simp only [cleanStep, if_neg h1, if_pos h2, if_neg h3]
    · have : cleanStep false t e = e :: t := by
        simp only [cleanStep, if_neg h1, if_neg h2]
      rw [this, hpush]

/-- The elements `filepath.Clean` keeps of a path that is not rooted have, on
any stack, the effect of the elements of the path. -/
theorem foldl_cleanStep_replay (r : Bool) (s : List Str) (xs : List Str) :
    (xs.foldl (cleanStep false) []).reverse.foldl (cleanStep r) s = xs.foldl (cleanStep r) s := by
  induction xs using List.reverseRecOn with
  | nil => rfl
  | append_singleton ys e ih =>
    rw [List.foldl_append, List.foldl_append]
    simp only [List.foldl_cons, List.foldl_nil]
    rw [cleanStep_replay r s _ e (foldl_cleanStep_kept false ys [] (by simp)), ih]

theorem filepath_Join_two (b x : Str) (hb : b ≠ []) :
    filepath.Join [b, x] = filepath.Clean (b ++ Separator :: x) := by
  simp [filepath.Join, List.dropWhile, hb, strings.Join]

theorem filepath_Join_nil_left (x : Str) (hx : x ≠ []) :
    filepath.Join [[], x] = filepath.Clean x := by
  simp [filepath.Join, List.dropWhile, hx, strings.Join]

theorem cleanStack_append (b x : Str) (hb : b ≠ []) :
    cleanStack (b ++ Separator :: x)
      = (splitSep Separator x).foldl (cleanStep (rooted b)) (cleanStack b) := by
  unfold cleanStack
  rw [rooted_append b _ hb, splitSep_append, List.foldl_append]

theorem cleanStack_Clean (p : Str) :
    rooted (filepath.Clean p) = rooted p ∧ cleanStack (filepath.Clean p) = cleanStack p := by
  rw [filepath_Clean_eq]
  exact cleanStack_renderPath _ _ (cleanStack_normal p)

/-- The path of a file below the directory `dirToZip` of `baseDir`, as the
walk builds it, has the elements of the path of the directory followed by the
names that lead to the file. -/
theorem cleanStack_Join_below (baseDir dirToZip : Str) (cs : List Str)
    (hrel : rooted dirToZip = false) (hcs : ∀ c ∈ cs, plainName c = true) (hne : cs ≠ [])
    (hp : filepath.Join [baseDir, dirToZip] ≠ []) :
    rooted (filepath.Join [baseDir, pathBelow dirToZip cs])
        = rooted (filepath.Join [baseDir, dirToZip])
      ∧ cleanStack (filepath.Join [baseDir, pathBelow dirToZip cs])
        = cs.reverse ++ cleanStack (filepath.Join [baseDir, dirToZip]) := by
  have hn : normalStack (rooted dirToZip) (cs.reverse ++ cleanStack dirToZip) = true :=
    normalStack_append _ cs _ hcs (cleanStack_normal dirToZip)
  have hr := cleanStack_renderPath _ _ hn
  have hst : cs.reverse ++ cleanStack dirToZip ≠ [] := by simp [hne]
  have hbelow : pathBelow dirToZip cs ≠ [] := by
    intro h
    have h2 := hr.2
    unfold pathBelow at h
    rw [h, cleanStack_nil] at h2
    exact hst h2.symm
  by_cases hb : baseDir = []
  · subst hb
    have hd : dirToZip ≠ [] := by
      intro h
      subst h
      exact hp (by decide)
    rw [filepath_Join_nil_left _ hbelow, filepath_Join_nil_left _ hd]
    rw [(cleanStack_Clean _).1, (cleanStack_Clean _).2, (cleanStack_Clean _).1,
      (cleanStack_Clean _).2]
    exact ⟨hr.1, hr.2⟩
  · rw [filepath_Join_two _ _ hb, filepath_Join_two _ _ hb]
    rw [(cleanStack_Clean _).1, (cleanStack_Clean _).2, (cleanStack_Clean _).1,
      (cleanStack_Clean _).2]
    refine ⟨by rw [rooted_append _ _ hb, rooted_append _ _ hb], ?_⟩
    rw [cleanStack_append _ _ hb, cleanStack_append _ _ hb]
    have hsplit : splitSep Separator (pathBelow dirToZip cs)
        = (cleanStack dirToZip).reverse ++ cs := by
      unfold pathBelow
      rw [hrel] at hn ⊢
      simp only [renderPath, Bool.false_eq_true, if_false, hst]
      rw [splitSep_Join Separator _ (by simp [hne])
        (fun e he => (normalStack_elem false _ hn e (List.mem_reverse.1 he)).2)]
      simp
    rw [hsplit, List.foldl_append, foldl_cleanStep_plain _ _ hcs]
    congr 1
    have hcd : cleanStack dirToZip = (splitSep Separator dirToZip).foldl (cleanStep false) [] := by
      unfold cleanStack
      rw [hrel]
    rw [hcd]
    exact foldl_cleanStep_replay _ _ _

/-- The elements of a path written by `renderPath`. -/
theorem splitSep_renderPath (r : Bool) (st : List Str) (h : normalStack r st = true) :
    splitSep Separator (renderPath r st)
      = if r then [] :: (if st = [] then [[]] else st.reverse)
        else (if st = [] then [['.']] else st.reverse) := by
  have helem := normalStack_elem r st h
  cases st with
  | nil =>
    cases r
    · decide
    · decide
  | cons top below =>
    have hne : (top :: below).reverse ≠ [] := by simp
    have hsplit : splitSep Separator (strings.Join (top :: below).reverse [Separator])
        = (top :: below).reverse :=
      splitSep_Join Separator _ hne (fun e he => (helem e (List.mem_reverse.1 he)).2)
    cases r with
    | false =>
      simp only [renderPath, Bool.false_eq_true, if_false, reduceCtorEq]
      exact hsplit
    | true =>
      simp only [renderPath, if_true, reduceCtorEq, if_false]
      have : splitSep Separator (Separator :: strings.Join (top :: below).reverse [Separator])
          = [] :: splitSep Separator (strings.Join (top :: below).reverse [Separator]) := by
        simp [splitSep]
      rw [this, hsplit]

theorem renderPath_ne_nil (r : Bool) (st : List Str) (h : normalStack r st = true) :
    renderPath r st ≠ [] := by
  intro hnil
  obtain ⟨h1, h2⟩ := cleanStack_renderPath r st h
  rw [hnil, rooted_nil] at h1
  rw [hnil, cleanStack_nil] at h2
  subst h1 h2
  exact absurd hnil (by decide)

/-- The place a path written by `renderPath` names: the walk along its
elements from the start, which is a directory. -/
theorem locate_renderPath (w : World) (r : Bool) (st : List Str)
    (h : normalStack r st = true) (es : List (Str × Node))
    (hstart : Node.get (if r then [] else w.cwd) w.root = Found.node (Node.dir es)) :
    w.locate (renderPath r st) = walkPlace w.root (if r then [] else w.cwd) st.reverse := by
  unfold World.locate
  rw [if_neg (renderPath_ne_nil r st h), (cleanStack_renderPath r st h).1,
    splitSep_renderPath r st h]
  cases r with
  | true =>
    simp only [if_true] at hstart ⊢
    rw [walkPlace_cons_dir _ _ _ _ es hstart, stepPlace_nil]
    cases st with
    | nil =>
      simp only [if_true, List.reverse_nil]
      rw [walkPlace_cons_dir _ _ _ _ es hstart, stepPlace_nil]
    | cons top below => simp only [reduceCtorEq, if_false]
  | false =>
    simp only [Bool.false_eq_true, if_false] at hstart ⊢
    cases st with
    | nil =>
      simp only [if_true, List.reverse_nil]
      rw [walkPlace_cons_dir _ _ _ _ es hstart, stepPlace_dot]
    | cons top below => simp only [reduceCtorEq, if_false]

/-- A path made by `filepath.Join` of two elements is written from its own
elements. -/
theorem filepath_Join_render (a b : Str) (h : filepath.Join [a, b] ≠ []) :
    filepath.Join [a, b]
      = renderPath (rooted (filepath.Join [a, b])) (cleanStack (filepath.Join [a, b])) := by
  have hclean : ∀ x : Str, filepath.Clean x
      = renderPath (rooted (filepath.Clean x)) (cleanStack (filepath.Clean x)) := by
    intro x
    rw [(cleanStack_Clean x).1, (cleanStack_Clean x).2]
    exact filepath_Clean_eq x
  by_cases ha : a = []
  · subst ha
    have hb : b ≠ [] := by
      intro hb
      subst hb
      exact h (by decide)
    rw [filepath_Join_nil_left b hb]
    exact hclean b
  · rw [filepath_Join_two a b ha]
    exact hclean _

/-- A path that names a place is walked from a directory. -/
theorem locate_start (w : World) (path : Str) (l : List Str)
    (h : w.locate path = Located.place l) :
    ∃ es, Node.get (if rooted path then [] else w.cwd) w.root = Found.node (Node.dir es) := by
  unfold World.locate at h
  by_cases hp : path = []
  · rw [if_pos hp] at h
    simp at h
  · rw [if_neg hp] at h
    cases hs : splitSep Separator path with
    | nil => exact absurd hs (splitSep_ne_nil _ _)
    | cons e rest =>
      rw [hs] at h
      exact walkPlace_start w.root _ e rest l h

/-- The place of something below the directory `dirToZip` of `baseDir`, at the
path the walk builds for it, is reached from the place of the directory along
the names that lead to it. -/
theorem locate_below (w : World) (baseDir dirToZip : Str) (cs : List Str) (place : List Str)
    (n m : Node) (hrel : rooted dirToZip = false) (hcs : ∀ c ∈ cs, plainName c = true)
    (hne : cs ≠ [])
    (hl : w.locate (filepath.Join [baseDir, dirToZip]) = Located.place place)
    (hg : Node.get place w.root = Found.node n) (hm : Node.get cs n = Found.node m) :
    w.locate (filepath.Join [baseDir, pathBelow dirToZip cs]) = Located.place (place ++ cs) := by
  have hp : filepath.Join [baseDir, dirToZip] ≠ [] := by
    intro h
    rw [h] at hl
    simp [World.locate] at hl
  obtain ⟨h1, h2⟩ := cleanStack_Join_below baseDir dirToZip cs hrel hcs hne hp
  have hq : filepath.Join [baseDir, pathBelow dirToZip cs] ≠ [] := by
    intro h
    rw [h, cleanStack_nil] at h2
    have : cs.reverse ++ cleanStack (filepath.Join [baseDir, dirToZip]) ≠ [] := by simp [hne]
    exact this h2.symm
  obtain ⟨es, hes⟩ := locate_start w _ place hl
  have hnp := cleanStack_normal (filepath.Join [baseDir, dirToZip])
  have hnq : normalStack (rooted (filepath.Join [baseDir, dirToZip]))
      (cs.reverse ++ cleanStack (filepath.Join [baseDir, dirToZip])) = true :=
    normalStack_append _ cs _ hcs hnp
  rw [filepath_Join_render baseDir dirToZip hp, locate_renderPath w _ _ hnp es hes] at hl
  rw [filepath_Join_render baseDir (pathBelow dirToZip cs) hq, h1, h2,
    locate_renderPath w _ _ hnq es hes, List.reverse_append, List.reverse_reverse,
    walkPlace_append, hl]
  exact walkPlace_into w.root cs place n m
    (fun c hc => ⟨((plainName_iff c).1 (hcs c hc)).1, ((plainName_iff c).1 (hcs c hc)).2.1,
      ((plainName_iff c).1 (hcs c hc)).2.2.1⟩) hg hm


/-! ## Zip helpers -/

theorem filepath_ToSlash_eq (p : Str) : filepath.ToSlash p = p := by
  simp [filepath.ToSlash, Separator]

/-- When everything succeeds `zipAddFile` adds one entry, named `zipName` in
slash form and holding the bytes of the file, and reports it on standard
output. -/
theorem zipAddFile_ok (w : World) (zw : ZipWriter) (zipName path d : Str)
    (hr : ioutil.ReadFile w path = (d, Option.none))
    (hc : w.faults.zipCreate (filepath.ToSlash zipName) = Option.none)
    (hw : w.faults.zipWrite (filepath.ToSlash zipName) = Option.none) :
    zipAddFile w zw zipName path
      = (w.print ("  added ".toList ++ filepath.ToSlash zipName ++ " from ".toList ++ path
            ++ "\n".toList),
          Outcome.returned { entries := zw.entries ++ [(filepath.ToSlash zipName, d)] }) := by
  simp [zipAddFile, hr, hc, hw, must]

/-- A normal return of `zipAddFile` means that the file was read and that
exactly one entry was added, named `zipName` in slash form and holding the
bytes read. -/
theorem zipAddFile_returned (w : World) (zw zw1 : ZipWriter) (zipName path : Str)
    (h : (zipAddFile w zw zipName path).2 = Outcome.returned zw1) :
    zw1.entries
      = zw.entries ++ [(filepath.ToSlash zipName, (ioutil.ReadFile w path).1)]
      ∧ (ioutil.ReadFile w path).2 = Option.none := by
  unfold zipAddFile at h
  cases hrd : (ioutil.ReadFile w path).2 with
  | some e => simp [hrd, must] at h
  | none =>
    simp only [hrd, must] at h
    cases hc : w.faults.zipCreate (filepath.ToSlash zipName) with
    | some e => simp [hc] at h
    | none =>
      simp only [hc] at h
      cases hw : w.faults.zipWrite (filepath.ToSlash zipName) with
      | some e => simp [hw] at h
      | none =>
        simp only [hw, Outcome.returned.injEq] at h
        subst h
        exact ⟨rfl, rfl⟩

/-- A failed read and a failed write of the entry go through `must`. -/
theorem zipAddFile_must (w : World) (zw : ZipWriter) (zipName path : Str) (e : GoError) :
    ((ioutil.ReadFile w path).2 = some e →
        (zipAddFile w zw zipName path).2 = Outcome.panicked (PanicValue.error e))
      ∧ ((ioutil.ReadFile w path).2 = Option.none →
          w.faults.zipCreate (filepath.ToSlash zipName) = Option.none →
          w.faults.zipWrite (filepath.ToSlash zipName) = some e →
          (zipAddFile w zw zipName path).2 = Outcome.panicked (PanicValue.error e)) := by
  constructor
  · intro h
    simp [zipAddFile, h, must]
  · intro h hc hw
    simp [zipAddFile, h, hc, hw, must]

/-- C9, the defect: when the file is read and `zw.Create` fails, `zipAddFile`
does not reach `must`. The error is dropped, nothing is printed, and the call
of `Write` on the nil writer panics at run time. -/
theorem zipAddFile_create_failure (w : World) (zw : ZipWriter) (zipName path d : Str)
    (e : GoError) (hr : ioutil.ReadFile w path = (d, Option.none))
    (hc : w.faults.zipCreate (filepath.ToSlash zipName) = some e) :
    zipAddFile w zw zipName path = (w, Outcome.panicked PanicValue.nilDereference) := by
  simp [zipAddFile, hr, hc, must]

/-- C9, the defect, on a readable file and a writer that cannot create the
entry: no `err:` line is printed and the panic is not the one of `must`. -/
theorem zipAddFile_create_failure_witness :
    ioutil.ReadFile fullDiskWorld "base/a.txt".toList = ("alpha".toList, Option.none)
      ∧ zipAddFile fullDiskWorld { entries := [] } "a.txt".toList "base/a.txt".toList
        = (fullDiskWorld, Outcome.panicked PanicValue.nilDereference) :=
  ⟨rfl, zipAddFile_create_failure fullDiskWorld { entries := [] } "a.txt".toList
    "base/a.txt".toList "alpha".toList errDenied rfl rfl⟩

theorem logf_fs (sprintf : Str → List Arg → Str) (w : World) (format : Str) (args : List Arg) :
    (logf sprintf w format args).fs = w.fs := by
  unfold logf
  split <;> simp [printLog_fs, print_fs]

theorem logf_root (sprintf : Str → List Arg → Str) (w : World) (format : Str)
    (args : List Arg) : (logf sprintf w format args).root = w.root := by
  unfold logf
  split <;> simp [printLog_root, print_root]

theorem logf_cwd (sprintf : Str → List Arg → Str) (w : World) (format : Str)
    (args : List Arg) : (logf sprintf w format args).cwd = w.cwd := by
  unfold logf
  split <;> simp [printLog_cwd, print_cwd]

theorem logf_faults (sprintf : Str → List Arg → Str) (w : World) (format : Str)
    (args : List Arg) : (logf sprintf w format args).faults = w.faults := by
  unfold logf
  split <;> simp [printLog_faults, print_faults]

theorem removeFile_returns (sprintf : Str → List Arg → Str) (w : World) (path : Str) :
    (removeFile sprintf w path).2 = Outcome.returned () := by
  unfold removeFile
  split
  · rfl
  · split <;> rfl

/-- What `removeFile` does to the world, by the answer of `os.Remove`. -/
theorem removeFile_world (sprintf : Str → List Arg → Str) (w : World) (path : Str) :
    ((os.Remove w path).2 = Option.none ∧ (removeFile sprintf w path).1
          = logf sprintf (os.Remove w path).1 "removeFile('%s')".toList [Arg.str path])
      ∨ ((∃ e, (os.Remove w path).2 = some e)
        ∧ ((removeFile sprintf w path).1 = w
          ∨ ∃ s, (removeFile sprintf w path).1 = w.print s)) := by
  cases h : (os.Remove w path).2 with
  | none =>
    left
    refine ⟨rfl, ?_⟩
    unfold removeFile
    rcases hr : os.Remove w path with ⟨w1, o⟩
    rw [hr] at h
    simp only at h
    subst h
    rfl
  | some e =>
    right
    refine ⟨⟨e, rfl⟩, ?_⟩
    have hw := os_Remove_error_world w path e h
    unfold removeFile
    rcases hr : os.Remove w path with ⟨w1, o⟩
    rw [hr] at h hw
    simp only at h hw
    subst h hw
    simp only
    split
    · left; rfl
    · right; exact ⟨_, rfl⟩

theorem removeFile_faults (sprintf : Str → List Arg → Str) (w : World) (path : Str) :
    (removeFile sprintf w path).1.faults = w.faults := by
  rcases removeFile_world sprintf w path with ⟨h1, h2⟩ | ⟨_, h | ⟨s, h⟩⟩
  · obtain ⟨place, n, _, _, _, _, hw⟩ := os_Remove_ok w path h1
    rw [h2, logf_faults, hw]
  · rw [h]
  · rw [h]; rfl

theorem removeFile_cwd (sprintf : Str → List Arg → Str) (w : World) (path : Str) :
    (removeFile sprintf w path).1.cwd = w.cwd := by
  rcases removeFile_world sprintf w path with ⟨h1, h2⟩ | ⟨_, h | ⟨s, h⟩⟩
  · obtain ⟨place, n, _, _, _, _, hw⟩ := os_Remove_ok w path h1
    rw [h2, logf_cwd, hw]
  · rw [h]
  · rw [h]; rfl

/-- The file system after `removeFile`: as before, or without what was at the
place of `path`, which was not the root and not a directory with entries. -/
theorem removeFile_root (sprintf : Str → List Arg → Str) (w : World) (path : Str) :
    ((∃ e, (os.Remove w path).2 = some e) ∧ (removeFile sprintf w path).1.root = w.root)
      ∨ ∃ place n, w.locate path = Located.place place ∧ place ≠ []
          ∧ Node.get place w.root = Found.node n ∧ (∀ e es, n ≠ Node.dir (e :: es))
          ∧ (removeFile sprintf w path).1.root = Node.put place Option.none w.root := by
  rcases removeFile_world sprintf w path with ⟨h1, h2⟩ | ⟨he, h | ⟨s, h⟩⟩
  · right
    obtain ⟨place, n, hl, hne, hg, hn, hw⟩ := os_Remove_ok w path h1
    exact ⟨place, n, hl, hne, hg, hn, by rw [h2, logf_root, hw]⟩
  · left; exact ⟨he, by rw [h]⟩
  · left; exact ⟨he, by rw [h]; rfl⟩

/-- Below a place that holds a file, something that is neither a file nor a
directory, or a directory without entries, nothing is found. -/
theorem Node_get_below_leaf (n : Node) (hn : ∀ e es, n ≠ Node.dir (e :: es)) (c : Str)
    (rest : List Str) : (Node.get (c :: rest) n).toOption = Option.none := by
  cases n with
  | file d => rfl
  | other => rfl
  | dir files =>
    cases files with
    | nil => rfl
    | cons e es => exact absurd rfl (hn e es)

/-- C2, as the code has it: with no name to zip `createZipFile` panics, after
`removeFile(dst)` has run. Nothing is created or written: the tree holds what
it held before at every place that is not the place of `dst` or a directory
above it, and `dst` is as before or gone; a `dst` at which nothing was leaves
the file system as it was. -/
theorem createZipFile_no_names (sprintf : Str → List Arg → Str)
    (zipBytes : List (Str × Str) → Str) (w : World) (dst baseDir : Str) :
    (createZipFile sprintf zipBytes w dst baseDir []).2
        = Outcome.panicked (PanicValue.text "must provide toZip args".toList)
      ∧ (createZipFile sprintf zipBytes w dst baseDir []).1 = (removeFile sprintf w dst).1
      ∧ (∀ ld, w.locate dst = Located.place ld → ∀ l, ¬ l <+: ld →
          (Node.get l (createZipFile sprintf zipBytes w dst baseDir []).1.root).toOption
            = (Node.get l w.root).toOption)
      ∧ ((createZipFile sprintf zipBytes w dst baseDir []).1.fs dst = w.fs dst
          ∨ (createZipFile sprintf zipBytes w dst baseDir []).1.fs dst = Option.none)
      ∧ (w.fs dst = Option.none →
          (createZipFile sprintf zipBytes w dst baseDir []).1.fs = w.fs) := by
  have hret := removeFile_returns sprintf w dst
  have hw : (createZipFile sprintf zipBytes w dst baseDir []).1 = (removeFile sprintf w dst).1
      ∧ (createZipFile sprintf zipBytes w dst baseDir []).2
        = Outcome.panicked (PanicValue.text "must provide toZip args".toList) := by
    unfold createZipFile
    rcases hrf : removeFile sprintf w dst with ⟨w1, o⟩
    rw [hrf] at hret
    simp only at hret
    subst hret
    simp
  have hcwd := removeFile_cwd sprintf w dst
  refine ⟨hw.2, hw.1, ?_, ?_, ?_⟩
  · intro ld hld l hnp
    rw [hw.1]
    rcases removeFile_root sprintf w dst with ⟨_, h⟩ | ⟨place, n, hl, hne, hg, hn, h⟩
    · rw [h]
    · rw [hld] at hl
      simp only [Located.place.injEq] at hl
      subst hl
      rw [h]
      by_cases hpre : ld <+: l
      · obtain ⟨r, hr⟩ := hpre
        cases r with
        | nil =>
          rw [List.append_nil] at hr
          exact absurd (hr ▸ List.prefix_refl _) hnp
        | cons c rest =>
          have hgone := Node_get_put_none ld w.root hne ⟨n, hg⟩
          rw [← hr, Node_get_append, Node_get_append, hgone, hg]
          simp only
          rw [Node_get_below_leaf n hn c rest]
          rfl
      · rw [Node_get_put_diverge Option.none ld l w.root hpre hnp]
  · rw [hw.1]
    rcases removeFile_root sprintf w dst with ⟨_, h⟩ | ⟨place, n, hl, hne, hg, hn, h⟩
    · left; rw [fs_eq_of_root _ w h hcwd]
    · right
      cases hf : (removeFile sprintf w dst).1.find dst with
      | node n0 => exact absurd hf (find_removed w _ dst place n hcwd h hl hne hg n0)
      | missing => unfold World.fs; rw [hf]; rfl
      | notDir => unfold World.fs; rw [hf]; rfl
  · intro hnone
    rw [hw.1]
    rcases removeFile_root sprintf w dst with ⟨_, h⟩ | ⟨place, n, hl, hne, hg, hn, h⟩
    · exact fs_eq_of_root _ w h hcwd
    · rw [fs_of_locate w dst place hl, hg] at hnone
      simp [Found.toOption] at hnone

/-- C2 fails as stated: with no name to zip `createZipFile` panics, and the
file that was at `out.zip` before the call is gone after it. -/
theorem createZipFile_no_names_counterexample :
    sampleWorld.fs "out.zip".toList = some (Node.file "old".toList)
      ∧ (createZipFile Sprintf toyZipBytes sampleWorld "out.zip".toList "base".toList []).2
          = Outcome.panicked (PanicValue.text "must provide toZip args".toList)
      ∧ (createZipFile Sprintf toyZipBytes sampleWorld "out.zip".toList
            "base".toList []).1.fs "out.zip".toList = Option.none := by
  refine ⟨rfl, rfl, rfl⟩


/-! ## Walking a directory -/

theorem zipAddFile_no_exit (w : World) (zw : ZipWriter) (zipName path : Str) (c : Nat) :
    (zipAddFile w zw zipName path).2 ≠ Outcome.exited c := by
  unfold zipAddFile
  cases h1 : (ioutil.ReadFile w path).2 with
  | some e => simp [h1, must]
  | none =>
    cases h2 : w.faults.zipCreate (filepath.ToSlash zipName) with
    | some e => simp [h1, h2, must]
    | none =>
      cases h3 : w.faults.zipWrite (filepath.ToSlash zipName) with
      | some e => simp [h1, h2, h3, must]
      | none => simp [h1, h2, h3, must]

mutual
/-- The walk never ends the process with `os.Exit`. -/
theorem zipDirRecur_no_exit (baseDir : Str) :
    ∀ (n : Node) (w : World) (zw : ZipWriter) (dirToZip : Str) (c : Nat),
      (zipDirRecur w zw baseDir dirToZip n).2 ≠ Outcome.exited c
  | Node.file _ => by
    intro w zw dirToZip c
    simp [zipDirRecur, must]
  | Node.other => by
    intro w zw dirToZip c
    simp [zipDirRecur, must]
  | Node.dir files => by
    intro w zw dirToZip c
    cases hf : w.faults.readDir (filepath.Join [baseDir, dirToZip]) with
    | some e => simp [zipDirRecur, hf, must]
    | none =>
      simp only [zipDirRecur, hf, must]
      exact zipDirFiles_no_exit baseDir files w zw dirToZip c
/-- The loop of the walk never ends the process with `os.Exit`. -/
theorem zipDirFiles_no_exit (baseDir : Str) :
    ∀ (files : List (Str × Node)) (w : World) (zw : ZipWriter) (dirToZip : Str) (c : Nat),
      (zipDirFiles w zw baseDir dirToZip files).2 ≠ Outcome.exited c
  | [] => by
    intro w zw dirToZip c
    simp [zipDirFiles]
  | (name, Node.other) :: rest => by
    intro w zw dirToZip c
    simp [zipDirFiles]
  | (name, Node.file d) :: rest => by
    intro w zw dirToZip c
    simp only [zipDirFiles]
    have hno := zipAddFile_no_exit w zw (filepath.Join [dirToZip, name])
        (filepath.Join [baseDir, filepath.Join [dirToZip, name]])
    rcases hres : zipAddFile w zw (filepath.Join [dirToZip, name])
        (filepath.Join [baseDir, filepath.Join [dirToZip, name]])
      with ⟨w1, o⟩
    rw [hres] at hno
    cases o with
    | returned zw2 => exact zipDirFiles_no_exit baseDir rest w1 zw2 dirToZip c
    | panicked v => simp
    | exited c2 => exact absurd rfl (hno c2)
  | (name, Node.dir sub) :: rest => by
    intro w zw dirToZip c
    simp only [zipDirFiles]
    have hno := zipDirRecur_no_exit baseDir (Node.dir sub) w zw (filepath.Join [dirToZip, name])
    rcases hres : zipDirRecur w zw baseDir (filepath.Join [dirToZip, name]) (Node.dir sub)
      with ⟨w1, o⟩
    rw [hres] at hno
    cases o with
    | returned zw2 => exact zipDirFiles_no_exit baseDir rest w1 zw2 dirToZip c
    | panicked v => simp
    | exited c2 => exact absurd rfl (hno c2)
end

mutual
/-- A walk over a node that holds something that is neither a directory nor
a regular file never returns. -/
theorem zipDirRecur_aborts (baseDir : Str) :
    ∀ (n : Node), Node.regularOnly n = false →
      ∀ (w : World) (zw : ZipWriter) (dirToZip : Str) (zw1 : ZipWriter),
        (zipDirRecur w zw baseDir dirToZip n).2 ≠ Outcome.returned zw1
  | Node.file _ => by
    intro h
    simp [Node.regularOnly] at h
  | Node.other => by
    intro _ w zw dirToZip zw1
    simp [zipDirRecur, must]
  | Node.dir files => by
    intro h w zw dirToZip zw1
    have ih := zipDirFiles_aborts baseDir files (by simpa [Node.regularOnly] using h)
    cases hf : w.faults.readDir (filepath.Join [baseDir, dirToZip]) with
    | some e => simp [zipDirRecur, hf, must]
    | none =>
      simp only [zipDirRecur, hf, must]
      exact ih w zw dirToZip zw1
/-- The loop of the walk never returns when an entry holds something that is
neither a directory nor a regular file. -/
theorem zipDirFiles_aborts (baseDir : Str) :
    ∀ (files : List (Str × Node)), regularOnlyFiles files = false →
      ∀ (w : World) (zw : ZipWriter) (dirToZip : Str) (zw1 : ZipWriter),
        (zipDirFiles w zw baseDir dirToZip files).2 ≠ Outcome.returned zw1
  | [] => by
    intro h
    simp [regularOnlyFiles] at h
  | (name, Node.other) :: rest => by
    intro _ w zw dirToZip zw1
    simp [zipDirFiles]
  | (name, Node.file d) :: rest => by
    intro h w zw dirToZip zw1
    have hrest : regularOnlyFiles rest = false := by
      simpa [regularOnlyFiles, Node.regularOnly] using h
    have ih := zipDirFiles_aborts baseDir rest hrest
    simp only [zipDirFiles]
    rcases hres : zipAddFile w zw (filepath.Join [dirToZip, name])
        (filepath.Join [baseDir, filepath.Join [dirToZip, name]])
      with ⟨w1, o⟩
    cases o with
    | returned zw2 => exact ih w1 zw2 dirToZip zw1
    | panicked v => simp
    | exited c => simp
  | (name, Node.dir sub) :: rest => by
    intro h w zw dirToZip zw1
    simp only [zipDirFiles]
    rcases hres : zipDirRecur w zw baseDir (filepath.Join [dirToZip, name]) (Node.dir sub)
      with ⟨w1, o⟩
    cases o with
    | returned zw2 =>
      simp only
      cases hsub : Node.regularOnly (Node.dir sub) with
      | false =>
        have := zipDirRecur_aborts baseDir (Node.dir sub) hsub w zw
          (filepath.Join [dirToZip, name]) zw2
        rw [hres] at this
        exact absurd rfl this
      | true =>
        have hrest : regularOnlyFiles rest = false := by
          simpa [regularOnlyFiles, hsub] using h
        exact zipDirFiles_aborts baseDir rest hrest w1 zw2 dirToZip zw1
    | panicked v => simp
    | exited c => simp
end

/-- A walk that does not return and does not exit has panicked. -/
theorem zipDirRecur_panics (baseDir : Str) (n : Node) (h : Node.regularOnly n = false)
    (w : World) (zw : ZipWriter) (dirToZip : Str) :
    ∃ v, (zipDirRecur w zw baseDir dirToZip n).2 = Outcome.panicked v := by
  have h1 := zipDirRecur_aborts baseDir n h w zw dirToZip
  have h2 := zipDirRecur_no_exit baseDir n w zw dirToZip
  cases ho : (zipDirRecur w zw baseDir dirToZip n).2 with
  | returned zw1 => exact absurd ho (h1 zw1)
  | panicked v => exact ⟨v, rfl⟩
  | exited c => exact absurd ho (h2 c)

mutual
/-- When every read and every write of an entry succeeds, the walk over a
directory of directories and regular files returns, and has added one entry
for each regular file, in the order of the walk. -/
theorem zipDirRecur_ok (baseDir : Str) :
    ∀ (n : Node), Node.wellFormed n = true → Node.regularOnly n = true →
      (∀ d, n ≠ Node.file d) →
      ∀ (w : World) (zw : ZipWriter) (dirToZip : Str),
        (∀ p, w.faults.readDir p = Option.none) →
        (∀ f ∈ Node.regularFiles n,
          ioutil.ReadFile w (filepath.Join [baseDir, pathBelow dirToZip f.1])
            = (f.2, Option.none)) →
        (∀ p, w.faults.zipCreate p = Option.none) → (∀ p, w.faults.zipWrite p = Option.none) →
        ∃ lines, zipDirRecur w zw baseDir dirToZip n
          = ({ w with stdout := w.stdout ++ lines },
              Outcome.returned { entries := zw.entries
                ++ (Node.regularFiles n).map (fun f => (pathBelow dirToZip f.1, f.2)) })
  | Node.file d => by
    intro _ _ h
    exact absurd rfl (h d)
  | Node.other => by
    intro _ h
    simp [Node.regularOnly] at h
  | Node.dir files => by
    intro hwf hreg _ w zw dirToZip hrd hrf hzc hzw
    have hwf1 : wellFormedFiles files = true := by
      simp only [Node.wellFormed, Bool.and_eq_true] at hwf
      exact hwf.2
    have hreg1 : regularOnlyFiles files = true := by
      simpa [Node.regularOnly] using hreg
    obtain ⟨lines, h⟩ := zipDirFiles_ok baseDir files hwf1 hreg1 w zw dirToZip hrd
      (by simpa [Node.regularFiles] using hrf) hzc hzw
    refine ⟨lines, ?_⟩
    simp only [zipDirRecur, hrd, must, Node.regularFiles]
    exact h
/-- The loop of the walk, when every read and every write succeeds. -/
theorem zipDirFiles_ok (baseDir : Str) :
    ∀ (files : List (Str × Node)), wellFormedFiles files = true →
      regularOnlyFiles files = true →
      ∀ (w : World) (zw : ZipWriter) (dirToZip : Str),
        (∀ p, w.faults.readDir p = Option.none) →
        (∀ f ∈ regularFilesIn files,
          ioutil.ReadFile w (filepath.Join [baseDir, pathBelow dirToZip f.1])
            = (f.2, Option.none)) →
        (∀ p, w.faults.zipCreate p = Option.none) → (∀ p, w.faults.zipWrite p = Option.none) →
        ∃ lines, zipDirFiles w zw baseDir dirToZip files
          = ({ w with stdout := w.stdout ++ lines },
              Outcome.returned { entries := zw.entries
                ++ (regularFilesIn files).map (fun f => (pathBelow dirToZip f.1, f.2)) })
  | [] => by
    intro _ _ w zw dirToZip _ _ _ _
    exact ⟨[], by simp [zipDirFiles, regularFilesIn]⟩
  | (name, Node.other) :: rest => by
    intro _ h
    simp [regularOnlyFiles, Node.regularOnly] at h
  | (name, Node.file d) :: rest => by
    intro hwf hreg w zw dirToZip hrd hrf hzc hzw
    simp only [wellFormedFiles, Bool.and_eq_true] at hwf
    have hreg1 : regularOnlyFiles rest = true := by
      simpa [regularOnlyFiles, Node.regularOnly] using hreg
    have hread : ioutil.ReadFile w (filepath.Join [baseDir, filepath.Join [dirToZip, name]])
        = (d, Option.none) := by
      rw [filepath_Join_eq_pathBelow dirToZip name hwf.1.1]
      exact hrf ([name], d) (by simp [regularFilesIn, Node.regularFiles])
    have hadd := zipAddFile_ok w zw (filepath.Join [dirToZip, name])
      (filepath.Join [baseDir, filepath.Join [dirToZip, name]]) d hread (hzc _) (hzw _)
    obtain ⟨lines, h⟩ := zipDirFiles_ok baseDir rest hwf.2 hreg1
      (w.print ("  added ".toList ++ filepath.ToSlash (filepath.Join [dirToZip, name])
        ++ " from ".toList ++ filepath.Join [baseDir, filepath.Join [dirToZip, name]]
        ++ "\n".toList))
      { entries := zw.entries ++ [(filepath.ToSlash (filepath.Join [dirToZip, name]), d)] }
      dirToZip hrd
      (fun f hf => hrf f (by
        simp only [regularFilesIn, List.mem_append]
        exact Or.inr hf)) hzc hzw
    refine ⟨("  added ".toList ++ filepath.ToSlash (filepath.Join [dirToZip, name])
        ++ " from ".toList ++ filepath.Join [baseDir, filepath.Join [dirToZip, name]]
        ++ "\n".toList) :: lines, ?_⟩
    simp only [zipDirFiles, hadd, h]
    simp [World.print, regularFilesIn, Node.regularFiles, filepath_ToSlash_eq,
      filepath_Join_eq_pathBelow dirToZip name hwf.1.1]
  | (name, Node.dir sub) :: rest => by
    intro hwf hreg w zw dirToZip hrd hrf hzc hzw
    simp only [wellFormedFiles, Bool.and_eq_true] at hwf
    simp only [regularOnlyFiles, Bool.and_eq_true] at hreg
    obtain ⟨lines1, h1⟩ := zipDirRecur_ok baseDir (Node.dir sub) hwf.1.2 hreg.1 (by simp)
      w zw (filepath.Join [dirToZip, name]) hrd
      (fun g hg => by
        rw [pathBelow_Join dirToZip name _ hwf.1.1]
        exact hrf (name :: g.1, g.2) (by
          simp only [regularFilesIn, List.mem_append, List.mem_map]
          exact Or.inl ⟨g, hg, rfl⟩)) hzc hzw
    obtain ⟨lines2, h2⟩ := zipDirFiles_ok baseDir rest hwf.2 hreg.2
      { w with stdout := w.stdout ++ lines1 }
      { entries := zw.entries ++ (Node.regularFiles (Node.dir sub)).map
          (fun f => (pathBelow (filepath.Join [dirToZip, name]) f.1, f.2)) }
      dirToZip hrd
      (fun f hf => hrf f (by
        simp only [regularFilesIn, List.mem_append]
        exact Or.inr hf)) hzc hzw
    refine ⟨lines1 ++ lines2, ?_⟩
    simp only [zipDirFiles, h1, h2]
    simp [regularFilesIn, pathBelow_Join dirToZip name _ hwf.1.1, Function.comp_def]
end

mutual
/-- The names that lead to a regular file are file names. -/
theorem regularFiles_plain :
    ∀ (n : Node), Node.wellFormed n = true →
      ∀ f ∈ Node.regularFiles n, ∀ c ∈ f.1, plainName c = true
  | Node.file d => by
    intro _ f hf
    simp [Node.regularFiles] at hf
    simp [hf]
  | Node.other => by
    intro _ f hf
    simp [Node.regularFiles] at hf
  | Node.dir files => by
    intro hwf f hf
    simp only [Node.wellFormed, Bool.and_eq_true] at hwf
    exact (regularFilesIn_plain files hwf.2 f (by simpa [Node.regularFiles] using hf)).2
/-- Below a directory every regular file is reached through one of the names
the directory lists, and all the names on the way are file names. -/
theorem regularFilesIn_plain :
    ∀ (files : List (Str × Node)), wellFormedFiles files = true →
      ∀ f ∈ regularFilesIn files,
        (∃ c cs, f.1 = c :: cs ∧ c ∈ files.map Prod.fst) ∧ ∀ c ∈ f.1, plainName c = true
  | [] => by
    intro _ f hf
    simp [regularFilesIn] at hf
  | (name, fi) :: rest => by
    intro hwf f hf
    simp only [wellFormedFiles, Bool.and_eq_true] at hwf
    simp only [regularFilesIn, List.mem_append, List.mem_map] at hf
    rcases hf with ⟨g, hg, rfl⟩ | hf
    · refine ⟨⟨name, g.1, rfl, List.mem_cons_self _ _⟩, ?_⟩
      intro c hc
      rcases List.mem_cons.1 hc with h | h
      · rw [h]; exact hwf.1.1
      · exact regularFiles_plain fi hwf.1.2 g hg c h
    · obtain ⟨⟨c, cs, h1, h2⟩, h3⟩ := regularFilesIn_plain rest hwf.2 f hf
      exact ⟨⟨c, cs, h1, by
        simp only [List.map_cons, List.mem_cons]
        exact Or.inr h2⟩, h3⟩
end

/-- C5, amended: the walk panics whenever something below the directory is
neither a directory nor a regular file, at any depth; and when the directory
holds directories and regular files only, every directory read succeeds,
every read of a regular file of the tree succeeds and gives the bytes of the
file, and every entry can be created and written in the archive, the walk
returns, having added one entry for each regular file, named by the path of
the file from `baseDir`. -/
theorem zipDirRecur_spec (w : World) (zw : ZipWriter) (baseDir dirToZip : Str)
    (files : List (Str × Node)) :
    (Node.regularOnly (Node.dir files) = false →
        ∃ v, (zipDirRecur w zw baseDir dirToZip (Node.dir files)).2 = Outcome.panicked v)
      ∧ (Node.regularOnly (Node.dir files) = true → Node.wellFormed (Node.dir files) = true →
          (∀ p, w.faults.readDir p = Option.none) →
          (∀ f ∈ Node.regularFiles (Node.dir files),
            ioutil.ReadFile w (filepath.Join [baseDir, filepath.Join (dirToZip :: f.1)])
              = (f.2, Option.none)) →
          (∀ p, w.faults.zipCreate p = Option.none) → (∀ p, w.faults.zipWrite p = Option.none) →
          (zipDirRecur w zw baseDir dirToZip (Node.dir files)).2
            = Outcome.returned { entries := (zw.entries
                ++ (Node.regularFiles (Node.dir files)).map
                    (fun f => (filepath.Join (dirToZip :: f.1), f.2))) }) := by
  refine ⟨fun h => zipDirRecur_panics baseDir _ h w zw dirToZip, ?_⟩
  intro hreg hwf hrd hrf hzc hzw
  have hwf1 : wellFormedFiles files = true := by
    simp only [Node.wellFormed, Bool.and_eq_true] at hwf
    exact hwf.2
  have hjoin : ∀ f ∈ Node.regularFiles (Node.dir files),
      filepath.Join (dirToZip :: f.1) = pathBelow dirToZip f.1 := by
    intro f hf
    obtain ⟨⟨c, cs, hc, _⟩, hplain⟩ :=
      regularFilesIn_plain files hwf1 f (by simpa [Node.regularFiles] using hf)
    exact filepath_Join_list dirToZip f.1 hplain (by rw [hc]; simp)
  obtain ⟨lines, h⟩ := zipDirRecur_ok baseDir (Node.dir files) hwf hreg (by simp) w zw dirToZip
    hrd (fun f hf => by rw [← hjoin f hf]; exact hrf f hf) hzc hzw
  rw [h]
  simp only [Outcome.returned.injEq, ZipWriter.mk.injEq, List.append_cancel_left_eq]
  apply List.map_congr_left
  intro f hf
  rw [hjoin f hf]

/-- C5, amended, on the directory of the example, which the file system holds
at `base/d`: two entries, `d/a.txt` and `d/sub/b.txt`. -/
theorem zipDirRecur_spec_witness :
    sampleWorld.fs "base/d".toList = some sampleTree
      ∧ (zipDirRecur sampleWorld { entries := [] } "base".toList "d".toList sampleTree).2
        = Outcome.returned { entries :=
            [("d/a.txt".toList, "alpha".toList), ("d/sub/b.txt".toList, "beta".toList)] } :=
  ⟨rfl, (zipDirRecur_spec sampleWorld { entries := [] } "base".toList "d".toList _).2 rfl rfl
    (fun _ => rfl) (by decide) (fun _ => rfl) (fun _ => rfl)⟩

/-- C5 fails as stated: the directory at `base/d` holds one regular file, every
directory read and file read succeeds, and the walk panics all the same,
because the entry cannot be written to the archive. -/
theorem zipDirRecur_counterexample :
    writeFailWorld.fs "base/d".toList
        = some (Node.dir [("a.txt".toList, Node.file "alpha".toList)])
      ∧ Node.regularOnly (Node.dir [("a.txt".toList, Node.file "alpha".toList)]) = true
      ∧ (∀ p, writeFailWorld.faults.readDir p = Option.none)
      ∧ (∀ p, writeFailWorld.faults.readFile p = Option.none)
      ∧ ioutil.ReadFile writeFailWorld "base/d/a.txt".toList = ("alpha".toList, Option.none)
      ∧ (zipDirRecur writeFailWorld { entries := [] } "base".toList "d".toList
            (Node.dir [("a.txt".toList, Node.file "alpha".toList)])).2
          = Outcome.panicked (PanicValue.error errDenied) := by
  refine ⟨rfl, rfl, fun _ => rfl, fun _ => rfl, rfl, rfl⟩


/-! ## Writing an archive and reading it back -/

theorem strings_Join_append (a b : List Str) (sep : Str) (ha : a ≠ []) (hb : b ≠ []) :
    strings.Join (a ++ b) sep = strings.Join a sep ++ sep ++ strings.Join b sep := by
  induction a with
  | nil => exact absurd rfl ha
  | cons e rest ih =>
    cases rest with
    | nil =>
      cases b with
      | nil => exact absurd rfl hb
      | cons f b2 => simp [strings.Join]
    | cons f rest2 =>
      have := ih (by simp)
      simp only [List.cons_append] at this ⊢
      rw [strings_Join_cons_cons, this, strings_Join_cons_cons]
      simp

/-- Below a name that is clean already and has an element, the path of a file
is the name, a slash, and the names that lead to the file, joined by slashes. -/
theorem filepath_Join_clean_name (name : Str) (cs : List Str)
    (hclean : filepath.Clean name = name) (hst : cleanStack name ≠ [])
    (hcs : ∀ c ∈ cs, plainName c = true) (hne : cs ≠ []) :
    filepath.Join (name :: cs) = name ++ Separator :: strings.Join cs [Separator] := by
  rw [filepath_Join_list name cs hcs hne]
  rw [filepath_Clean_eq] at hclean
  have hrev : (cleanStack name).reverse ≠ [] := by simpa using hst
  unfold pathBelow
  cases hr : rooted name with
  | true =>
    rw [hr] at hclean
    simp only [renderPath, if_true] at hclean ⊢
    rw [List.reverse_append, List.reverse_reverse, strings_Join_append _ _ _ hrev hne]
    simp only [List.append_assoc, List.singleton_append]
    rw [← List.cons_append, hclean]
  | false =>
    rw [hr] at hclean
    simp only [renderPath, Bool.false_eq_true, if_false, hst] at hclean ⊢
    have : cs.reverse ++ cleanStack name ≠ [] := by simp [hst]
    simp only [this, if_false]
    rw [List.reverse_append, List.reverse_reverse, strings_Join_append _ _ _ hrev hne]
    simp only [List.append_assoc, List.singleton_append]
    rw [hclean]

theorem readZipLoop_ok (w : World) (hopen : ∀ n, w.faults.entryOpen n = Option.none)
    (hread : ∀ n, w.faults.entryRead n = Option.none) :
    ∀ (files : List (Str × Str)) (res : Str → Option Str),
      readZipLoop w res files
        = (w, Outcome.returned
            (files.foldl (fun m e => fun k => if k = e.1 then some e.2 else m k) res))
  | [], res => rfl
  | (name, d) :: rest, res => by
    simp only [readZipLoop, hopen, hread, must, List.foldl_cons]
    exact readZipLoop_ok w hopen hread rest _

theorem foldl_insert_miss (files : List (Str × Str)) (res : Str → Option Str) (k : Str)
    (hk : k ∉ files.map Prod.fst) :
    (files.foldl (fun m e => fun k => if k = e.1 then some e.2 else m k) res) k = res k := by
  induction files generalizing res with
  | nil => rfl
  | cons e rest ih =>
    simp only [List.map_cons, List.mem_cons, not_or] at hk
    simp only [List.foldl_cons]
    rw [ih _ hk.2]
    simp [hk.1]

theorem foldl_insert_hit (files : List (Str × Str)) (res : Str → Option Str) (k b : Str)
    (hnd : (files.map Prod.fst).Nodup) (hmem : (k, b) ∈ files) :
    (files.foldl (fun m e => fun k => if k = e.1 then some e.2 else m k) res) k = some b := by
  induction files generalizing res with
  | nil => simp at hmem
  | cons e rest ih =>
    simp only [List.map_cons, List.nodup_cons] at hnd
    simp only [List.foldl_cons]
    rcases List.mem_cons.1 hmem with h | h
    · subst h
      rw [foldl_insert_miss rest _ _ hnd.1]
      simp
    · exact ih _ hnd.2 h

/-- The map `readZipFile` builds from entries with distinct names holds each
entry under its name and nothing else. -/
theorem foldl_insert_iff (files : List (Str × Str)) (k b : Str)
    (hnd : (files.map Prod.fst).Nodup) :
    (files.foldl (fun m e => fun k => if k = e.1 then some e.2 else m k)
        (fun _ => Option.none)) k = some b ↔ (k, b) ∈ files := by
  constructor
  · intro h
    by_cases hk : k ∈ files.map Prod.fst
    · obtain ⟨e, he, hek⟩ := List.mem_map.1 hk
      have := foldl_insert_hit files (fun _ => Option.none) e.1 e.2 hnd he
      rw [hek, h] at this
      simp only [Option.some.injEq] at this
      rw [this, ← hek]
      exact he
    · rw [foldl_insert_miss files _ k hk] at h
      simp at h
  · exact foldl_insert_hit files _ k b hnd

mutual
/-- In a well-formed tree no two regular files are reached through the same
names. -/
theorem regularFiles_nodup :
    ∀ (n : Node), Node.wellFormed n = true → ((Node.regularFiles n).map Prod.fst).Nodup
  | Node.file d => by
    intro _
    simp [Node.regularFiles]
  | Node.other => by
    intro _
    simp [Node.regularFiles]
  | Node.dir files => by
    intro hwf
    simp only [Node.wellFormed, Bool.and_eq_true, decide_eq_true_eq] at hwf
    simpa [Node.regularFiles] using regularFilesIn_nodup files hwf.2 hwf.1
/-- Below a directory that lists no name twice, no two regular files are
reached through the same names. -/
theorem regularFilesIn_nodup :
    ∀ (files : List (Str × Node)), wellFormedFiles files = true →
      (files.map Prod.fst).Nodup → ((regularFilesIn files).map Prod.fst).Nodup
  | [] => by
    intro _ _
    simp [regularFilesIn]
  | (name, fi) :: rest => by
    intro hwf hnd
    simp only [wellFormedFiles, Bool.and_eq_true] at hwf
    simp only [List.map_cons, List.nodup_cons] at hnd
    have h1 := regularFiles_nodup fi hwf.1.2
    have h2 := regularFilesIn_nodup rest hwf.2 hnd.2
    simp only [regularFilesIn, List.map_append, List.map_map]
    rw [List.nodup_append]
    refine ⟨?_, h2, ?_⟩
    · have : (Prod.fst ∘ fun (f : List Str × Str) => (name :: f.1, f.2))
          = (List.cons name) ∘ Prod.fst := rfl
      rw [this, ← List.map_map]
      exact h1.map (List.cons_injective)
    · intro p hp1 hp2
      obtain ⟨g, _, hg⟩ := List.mem_map.1 hp1
      obtain ⟨f, hf, hfp⟩ := List.mem_map.1 hp2
      obtain ⟨⟨c, cs, hc1, hc2⟩, _⟩ := regularFilesIn_plain rest hwf.2 f hf
      simp only [Function.comp_apply] at hg
      rw [← hg, hc1] at hfp
      simp only [List.cons.injEq] at hfp
      rw [hfp.1] at hc2
      exact hnd.1 hc2
end

theorem decodeStr_encode (s rest : Str) :
    ∀ (k n : Nat), n + k = s.length →
      decodeStr n (List.replicate k '1' ++ '0' :: (s ++ rest)) = some (s, rest)
  | 0, n => by
    intro h
    simp only [List.replicate, List.nil_append, decodeStr]
    simp only [Nat.add_zero] at h
    subst h
    simp
  | k + 1, n => by
    intro h
    simp only [List.replicate, List.cons_append, decodeStr, if_true]
    exact decodeStr_encode s rest k (n + 1) (by omega)

theorem decodeStr_encodeStr (s rest : Str) : decodeStr 0 (encodeStr s ++ rest) = some (s, rest) := by
  unfold encodeStr
  rw [List.append_assoc]
  exact decodeStr_encode s rest s.length 0 (by omega)

theorem toyUnzipAux_toyZipBytes :
    ∀ (es : List (Str × Str)) (fuel : Nat), es.length ≤ fuel →
      toyUnzipAux fuel (toyZipBytes es) = some es
  | [], fuel => by
    intro _
    cases fuel <;> rfl
  | (name, d) :: rest, 0 => by
    intro h
    simp at h
  | (name, d) :: rest, fuel + 1 => by
    intro h
    have ih := toyUnzipAux_toyZipBytes rest fuel (by simpa using h)
    have h1 := decodeStr_encodeStr name (encodeStr d ++ toyZipBytes rest)
    have h2 := decodeStr_encodeStr d (toyZipBytes rest)
    cases hb : toyZipBytes ((name, d) :: rest) with
    | nil =>
      simp [toyZipBytes, encodeStr] at hb
    | cons c cs =>
      have h1b : decodeStr 0 (c :: cs) = some (name, encodeStr d ++ toyZipBytes rest) := by
        rw [← hb]; exact h1
      simp only [toyUnzipAux, h1b, h2, ih]

theorem toyZipBytes_length (es : List (Str × Str)) : es.length ≤ (toyZipBytes es).length := by
  induction es with
  | nil => simp
  | cons e rest ih =>
    obtain ⟨name, d⟩ := e
    simp only [toyZipBytes, encodeStr, List.length_append, List.length_cons, List.length_replicate]
    omega

/-- The toy archive format reads back what it wrote. -/
theorem toyUnzip_toyZipBytes (es : List (Str × Str)) : toyUnzip (toyZipBytes es) = some es :=
  toyUnzipAux_toyZipBytes es _ (toyZipBytes_length es)

mutual
/-- In a well-formed tree the walk along the names of a regular file finds
the file. -/
theorem regularFiles_get :
    ∀ (n : Node), Node.wellFormed n = true →
      ∀ f ∈ Node.regularFiles n, Node.get f.1 n = Found.node (Node.file f.2)
  | Node.file d => by
    intro _ f hf
    simp only [Node.regularFiles, List.mem_singleton] at hf
    rw [hf]
    rfl
  | Node.other => by
    intro _ f hf
    simp [Node.regularFiles] at hf
  | Node.dir files => by
    intro hwf f hf
    simp only [Node.wellFormed, Bool.and_eq_true, decide_eq_true_eq] at hwf
    exact regularFilesIn_get files hwf.2 hwf.1 f (by simpa [Node.regularFiles] using hf)
/-- In a directory that lists no name twice the walk along the names of a
regular file finds the file. -/
theorem regularFilesIn_get :
    ∀ (files : List (Str × Node)), wellFormedFiles files = true → (files.map Prod.fst).Nodup →
      ∀ f ∈ regularFilesIn files, Node.get f.1 (Node.dir files) = Found.node (Node.file f.2)
  | [] => by
    intro _ _ f hf
    simp [regularFilesIn] at hf
  | (name, fi) :: rest => by
    intro hwf hnd f hf
    have hwf0 := hwf
    simp only [wellFormedFiles, Bool.and_eq_true] at hwf
    simp only [List.map_cons, List.nodup_cons] at hnd
    simp only [regularFilesIn, List.mem_append, List.mem_map] at hf
    rcases hf with ⟨g, hg, rfl⟩ | hf
    · simp only [Node_get_cons_dir, lookupEntry, if_true]
      exact regularFiles_get fi hwf.1.2 g hg
    · obtain ⟨⟨c, cs, h1, h2⟩, _⟩ := regularFilesIn_plain rest hwf.2 f hf
      have ih := regularFilesIn_get rest hwf.2 hnd.2 f hf
      rw [h1] at ih ⊢
      have hne : ¬ name = c := by
        intro e
        rw [e] at hnd
        exact hnd.1 h2
      rw [Node_get_cons_dir] at ih ⊢
      simp only [lookupEntry, if_neg hne]
      exact ih
end

theorem fs_some_locate (w : World) (path : Str) (n : Node) (h : w.fs path = some n) :
    ∃ place, w.locate path = Located.place place ∧ Node.get place w.root = Found.node n :=
  find_node_locate w path n (find_of_fs w path n h)

/-- In a world that holds a well-formed directory at `baseDir/dirToZip`, every
regular file of the directory is read, with its bytes, from the path the walk
builds for it. -/
theorem readFile_below (w : World) (baseDir dirToZip : Str) (files : List (Str × Node))
    (place : List Str) (hrel : rooted dirToZip = false)
    (hl : w.locate (filepath.Join [baseDir, dirToZip]) = Located.place place)
    (hg : Node.get place w.root = Found.node (Node.dir files))
    (hwf : Node.wellFormed (Node.dir files) = true)
    (hrf : ∀ p, w.faults.readFile p = Option.none) :
    ∀ f ∈ Node.regularFiles (Node.dir files),
      ioutil.ReadFile w (filepath.Join [baseDir, pathBelow dirToZip f.1])
        = (f.2, Option.none) := by
  intro f hf
  have hwf1 : wellFormedFiles files = true := by
    simp only [Node.wellFormed, Bool.and_eq_true] at hwf
    exact hwf.2
  obtain ⟨⟨c, cs, hc, _⟩, hplain⟩ :=
    regularFilesIn_plain files hwf1 f (by simpa [Node.regularFiles] using hf)
  have hget := regularFiles_get (Node.dir files) hwf f hf
  have hloc := locate_below w baseDir dirToZip f.1 place _ _ hrel hplain (by rw [hc]; simp) hl
    hg hget
  have hfind : w.find (filepath.Join [baseDir, pathBelow dirToZip f.1])
      = Found.node (Node.file f.2) := by
    rw [find_of_locate w _ _ hloc, Node_get_append, hg]
    exact hget
  simp only [ioutil.ReadFile, hrf, hfind]

/-- What `canCreate` says: the place of the path is not the root, the
directory above it is there, and the place holds nothing or a regular file. -/
theorem canCreate_spec (w : World) (path : Str) (h : w.canCreate path = true) :
    ∃ place, w.locate path = Located.place place ∧ place ≠ []
      ∧ (∃ es, Node.get place.dropLast w.root = Found.node (Node.dir es))
      ∧ (Node.get place w.root = Found.missing
        ∨ ∃ d, Node.get place w.root = Found.node (Node.file d)) := by
  unfold World.canCreate at h
  cases hl : w.locate path with
  | missing => simp [hl] at h
  | notDir => simp [hl] at h
  | place place =>
    rw [hl] at h
    simp only at h
    have key : (∃ es, Node.get place.dropLast w.root = Found.node (Node.dir es))
        ∧ (Node.get place w.root = Found.missing
          ∨ ∃ d, Node.get place w.root = Found.node (Node.file d)) := by
      cases hp : Node.get place.dropLast w.root with
      | missing => rw [hp] at h; simp at h
      | notDir => rw [hp] at h; simp at h
      | node n =>
        rw [hp] at h
        cases n with
        | file d => simp at h
        | other => simp at h
        | dir es =>
          refine ⟨⟨es, rfl⟩, ?_⟩
          cases hg : Node.get place w.root with
          | missing => exact Or.inl rfl
          | notDir => rw [hg] at h; simp at h
          | node m =>
            rw [hg] at h
            cases m with
            | file d => exact Or.inr ⟨d, rfl⟩
            | other => simp at h
            | dir es2 => simp at h
    refine ⟨place, rfl, ?_, key.1, key.2⟩
    intro hnil
    subst hnil
    obtain ⟨⟨es, hes⟩, hm⟩ := key
    simp only [List.dropLast_nil] at hes
    rw [hes] at hm
    rcases hm with hm | ⟨d, hm⟩
    · simp at hm
    · simp at hm

theorem os_Create_ok (w : World) (dst : Str) (place : List Str)
    (hf : w.faults.create dst = Option.none) (hl : w.locate dst = Located.place place)
    (hg : Node.get place w.root = Found.missing)
    (hp : ∃ es, Node.get place.dropLast w.root = Found.node (Node.dir es)) :
    os.Create w dst = (w.setNode dst (some (Node.file [])), Option.none) := by
  obtain ⟨es, hes⟩ := hp
  simp only [os.Create, hf, hl, hg, hes]

/-- The loop of `createZipFile` over one name that is a directory of
directories and regular files, when nothing fails. -/
theorem createZipLoop_dir (w : World) (zw : ZipWriter) (baseDir name : Str)
    (files : List (Str × Node)) (place : List Str) (hfaults : w.faults = Faults.none)
    (hrel : rooted name = false)
    (hl : w.locate (filepath.Join [baseDir, name]) = Located.place place)
    (hg : Node.get place w.root = Found.node (Node.dir files))
    (hreg : Node.regularOnly (Node.dir files) = true)
    (hwf : Node.wellFormed (Node.dir files) = true) :
    ∃ lines, createZipLoop w zw baseDir [name]
      = ({ w with stdout := w.stdout ++ lines },
          Outcome.returned { entries := zw.entries
            ++ (regularFilesIn files).map (fun f => (pathBelow name f.1, f.2)) }) := by
  obtain ⟨lines, h⟩ := zipDirRecur_ok baseDir (Node.dir files) hwf hreg (by simp) w zw name
    (fun _ => by rw [hfaults]; rfl)
    (readFile_below w baseDir name files place hrel hl hg hwf (fun _ => by rw [hfaults]; rfl))
    (fun _ => by rw [hfaults]; rfl) (fun _ => by rw [hfaults]; rfl)
  refine ⟨lines, ?_⟩
  have hstat : os.Stat w (filepath.Join [baseDir, name]) = Except.ok (Node.dir files) := by
    simp [os.Stat, hfaults, Faults.none, find_of_locate w _ _ hl, hg]
  simp only [createZipLoop, hstat, h]
  rfl

/-- When nothing fails, `createZipFile` on one directory of directories and
regular files, with `dst` outside the directory, returns and leaves at `dst`
the archive of the regular files, each under its path below `name`. -/
theorem createZipFile_dir (sprintf : Str → List Arg → Str)
    (zipBytes : List (Str × Str) → Str) (w : World) (dst baseDir name : Str)
    (files : List (Str × Node)) (hfaults : w.faults = Faults.none)
    (hcan : w.canCreate dst = true)
    (hout : w.below (filepath.Join [baseDir, name]) dst = false)
    (hrel : rooted name = false)
    (htree : w.fs (filepath.Join [baseDir, name]) = some (Node.dir files))
    (hreg : Node.regularOnly (Node.dir files) = true)
    (hwf : Node.wellFormed (Node.dir files) = true) :
    (createZipFile sprintf zipBytes w dst baseDir [name]).2 = Outcome.returned ()
      ∧ (createZipFile sprintf zipBytes w dst baseDir [name]).1.faults = Faults.none
      ∧ ioutil.ReadFile (createZipFile sprintf zipBytes w dst baseDir [name]).1 dst
          = (zipBytes ((regularFilesIn files).map (fun f => (pathBelow name f.1, f.2))),
              Option.none) := by
  obtain ⟨ld, hld, hldne, hpar, hdst⟩ := canCreate_spec w dst hcan
  obtain ⟨lt, hlt, hgt⟩ := fs_some_locate w _ _ htree
  have hd1 : ¬ lt <+: ld := by
    intro hp
    simp only [World.below, hlt, hld] at hout
    rw [List.isPrefixOf_iff_prefix.2 hp] at hout
    exact absurd hout (by simp)
  have hd2 : ¬ ld <+: lt := by
    rintro ⟨r, hr⟩
    rw [← hr, Node_get_append] at hgt
    rcases hdst with hm | ⟨d, hm⟩
    · rw [hm] at hgt
      simp at hgt
    · rw [hm] at hgt
      cases r with
      | nil => simp [Node_get_nil] at hgt
      | cons c rest => simp [Node_get_cons_file] at hgt
  have hnodir : ∀ es, Node.get ld w.root ≠ Found.node (Node.dir es) := by
    intro es hes
    rcases hdst with hm | ⟨d, hm⟩
    · rw [hm] at hes; simp at hes
    · rw [hm] at hes; simp at hes
  have hret := removeFile_returns sprintf w dst
  have hfa := removeFile_faults sprintf w dst
  have hcwd := removeFile_cwd sprintf w dst
  have hroot : Node.get ld (removeFile sprintf w dst).1.root = Found.missing
      ∧ (∃ es, Node.get ld.dropLast (removeFile sprintf w dst).1.root = Found.node (Node.dir es))
      ∧ Node.get lt (removeFile sprintf w dst).1.root = Found.node (Node.dir files)
      ∧ (∀ p es, Node.get p w.root = Found.node (Node.dir es) →
          ∃ es1, Node.get p (removeFile sprintf w dst).1.root = Found.node (Node.dir es1)) := by
    rcases removeFile_root sprintf w dst with ⟨⟨e, he⟩, h⟩ | ⟨place, n, hl, hne, hg, hn, h⟩
    · rw [h]
      refine ⟨?_, hpar, hgt, fun p es hp => ⟨es, hp⟩⟩
      rcases hdst with hm | ⟨d, hm⟩
      · exact hm
      · exfalso
        have hne : ¬ (Located.place ld = Located.place ([] : List Str)) := by simpa using hldne
        have hset := setNode_eq w dst Option.none ld hld
        simp [os.Remove, hfaults, Faults.none, find_of_locate w dst ld hld, hm, hld, hne] at he
    · rw [hld] at hl
      simp only [Located.place.injEq] at hl
      subst hl
      rw [h]
      exact ⟨Node_get_put_none ld w.root hne ⟨n, hg⟩, Node_put_parent _ ld w.root hne hpar,
        by rw [Node_get_put_diverge _ ld lt w.root hd2 hd1]; exact hgt,
        Node_put_keeps_dirs _ ld w.root hnodir⟩
  rcases hrf : removeFile sprintf w dst with ⟨w1, o⟩
  rw [hrf] at hret hfa hcwd hroot
  simp only at hret hfa hcwd hroot
  subst hret
  rw [hfaults] at hfa
  obtain ⟨hr1, hr2, hr3, hk1⟩ := hroot
  have hld1 : w1.locate dst = Located.place ld := locate_transfer w w1 hcwd hk1 dst ld hld
  have hlt1 : w1.locate (filepath.Join [baseDir, name]) = Located.place lt :=
    locate_transfer w w1 hcwd hk1 _ lt hlt
  have hnodir1 : ∀ es, Node.get ld w1.root ≠ Found.node (Node.dir es) := by
    intro es hes
    rw [hr1] at hes
    simp at hes
  have hcreate := os_Create_ok (w1.print ("Creating zip file ".toList ++ dst ++ "\n".toList)) dst
    ld (by rw [print_faults, hfa]; rfl) (by rw [print_locate]; exact hld1) hr1 hr2
  have hroot3 : ((w1.print ("Creating zip file ".toList ++ dst ++ "\n".toList)).setNode dst
      (some (Node.file []))).root = Node.put ld (some (Node.file [])) w1.root :=
    setNode_root _ dst _ ld (by rw [print_locate]; exact hld1)
  have hcwd3 : ((w1.print ("Creating zip file ".toList ++ dst ++ "\n".toList)).setNode dst
      (some (Node.file []))).cwd = w1.cwd := by
    rw [setNode_cwd]; rfl
  have hfa3 : ((w1.print ("Creating zip file ".toList ++ dst ++ "\n".toList)).setNode dst
      (some (Node.file []))).faults = Faults.none := by
    rw [setNode_faults, print_faults, hfa]
  have hk3 : ∀ p es, Node.get p w1.root = Found.node (Node.dir es) →
      ∃ es1, Node.get p ((w1.print ("Creating zip file ".toList ++ dst
        ++ "\n".toList)).setNode dst (some (Node.file []))).root
          = Found.node (Node.dir es1) := by
    rw [hroot3]
    exact Node_put_keeps_dirs _ ld w1.root hnodir1
  have hloc3 := locate_transfer w1 _ hcwd3 hk3 dst ld hld1
  have hlt3 := locate_transfer w1 _ hcwd3 hk3 _ lt hlt1
  have hpar3 := Node_put_parent (some (Node.file [])) ld w1.root hldne hr2
  have hget3 := Node_get_put_some (Node.file []) ld w1.root hldne hr2
  rw [← hroot3] at hpar3 hget3
  obtain ⟨lines, hloop⟩ := createZipLoop_dir
    ((w1.print ("Creating zip file ".toList ++ dst ++ "\n".toList)).setNode dst
      (some (Node.file []))) { entries := [] } baseDir name files lt hfa3 hrel hlt3
    (by rw [hroot3, Node_get_put_diverge _ ld lt w1.root hd2 hd1]; exact hr3) hreg hwf
  generalize ((w1.print ("Creating zip file ".toList ++ dst ++ "\n".toList)).setNode dst
      (some (Node.file []))) = w3 at hloop hfa3 hloc3 hpar3 hget3 hcreate
  have hcz : createZipFile sprintf zipBytes w dst baseDir [name]
      = (({ w3 with stdout := w3.stdout ++ lines } : World).setNode dst
          (some (Node.file (zipBytes
            ((regularFilesIn files).map (fun f => (pathBelow name f.1, f.2)))))),
          Outcome.returned ()) := by
    have hclose : w3.faults.zipClose = Option.none := by
      rw [hfa3]; rfl
    unfold createZipFile
    rw [hrf]
    simp only [List.length_singleton, one_ne_zero, if_false, hcreate, hloop, hclose, must,
      List.nil_append]
  rw [hcz]
  have hl4 : ({ w3 with stdout := w3.stdout ++ lines } : World).locate dst = Located.place ld :=
    hloc3
  have hset5 := setNode_eq ({ w3 with stdout := w3.stdout ++ lines } : World) dst
    (some (Node.file (zipBytes
      ((regularFilesIn files).map (fun f => (pathBelow name f.1, f.2)))))) ld hl4
  rw [hset5]
  refine ⟨rfl, hfa3, ?_⟩
  have hk5 : ∀ p es, Node.get p w3.root = Found.node (Node.dir es) →
      ∃ es1, Node.get p (Node.put ld (some (Node.file (zipBytes
        ((regularFilesIn files).map (fun f => (pathBelow name f.1, f.2)))))) w3.root)
          = Found.node (Node.dir es1) := by
    apply Node_put_keeps_dirs
    intro es hes
    rw [hget3] at hes
    simp at hes
  have hl5 := locate_transfer ({ w3 with stdout := w3.stdout ++ lines } : World)
    ({ w3 with stdout := w3.stdout ++ lines, root := Node.put ld (some (Node.file (zipBytes
      ((regularFilesIn files).map (fun f => (pathBelow name f.1, f.2)))))) w3.root } : World)
    rfl hk5 dst ld hl4
  have hfind := find_of_locate _ dst ld hl5
  have hget5 := Node_get_put_some (Node.file (zipBytes
      ((regularFilesIn files).map (fun f => (pathBelow name f.1, f.2))))) ld w3.root hldne hpar3
  have hrf5 : w3.faults.readFile dst = Option.none := by
    rw [hfa3]; rfl
  simp only [ioutil.ReadFile, hrf5]
  rw [hfind]
  simp only [hget5]

/-- C1, amended: in an environment that refuses nothing, for a directory at
`baseDir/name`, with `name` a relative path, that holds directories and
regular files only, and for a `dst` outside that directory at which a file can
be created: `createZipFile(dst, baseDir, name)` returns, `readZipFile(dst)`
then returns a map, and the map holds exactly one key for each regular file
of the tree, the path that `filepath.Join` makes of `name` and the names that
lead to the file, with the bytes of the file as its value. For a `name` that
is clean already that key is `name`, a slash, and the names joined by slashes.
The parameters `zipBytes` and `unzip` stand for the zip format, which is
taken to read back the archive of these entries. -/
theorem createZipFile_readZipFile_roundtrip (sprintf : Str → List Arg → Str)
    (zipBytes : List (Str × Str) → Str) (unzip : Str → Option (List (Str × Str)))
    (w : World) (dst baseDir name : Str) (files : List (Str × Node))
    (hzip : unzip (zipBytes ((Node.regularFiles (Node.dir files)).map
        (fun f => (filepath.Join (name :: f.1), f.2))))
      = some ((Node.regularFiles (Node.dir files)).map
          (fun f => (filepath.Join (name :: f.1), f.2))))
    (hfaults : w.faults = Faults.none)
    (hcan : w.canCreate dst = true)
    (hout : w.below (filepath.Join [baseDir, name]) dst = false)
    (hrel : rooted name = false)
    (htree : w.fs (filepath.Join [baseDir, name]) = some (Node.dir files))
    (hreg : Node.regularOnly (Node.dir files) = true)
    (hwf : Node.wellFormed (Node.dir files) = true) :
    (createZipFile sprintf zipBytes w dst baseDir [name]).2 = Outcome.returned ()
      ∧ ∃ m, (readZipFile unzip (createZipFile sprintf zipBytes w dst baseDir [name]).1 dst).2
            = Outcome.returned m
        ∧ (∀ k b, m k = some b
            ↔ ∃ cs, (cs, b) ∈ Node.regularFiles (Node.dir files)
                ∧ k = filepath.Join (name :: cs))
        ∧ (filepath.Clean name = name → cleanStack name ≠ [] →
            ∀ cs b, (cs, b) ∈ Node.regularFiles (Node.dir files) →
              filepath.Join (name :: cs) = name ++ Separator :: strings.Join cs [Separator]) := by
  obtain ⟨hret, hfa, hfs⟩ := createZipFile_dir sprintf zipBytes w dst baseDir name files hfaults
    hcan hout hrel htree hreg hwf
  have hwf1 : wellFormedFiles files = true ∧ (files.map Prod.fst).Nodup := by
    simp only [Node.wellFormed, Bool.and_eq_true, decide_eq_true_eq] at hwf
    exact ⟨hwf.2, hwf.1⟩
  have hplain := regularFilesIn_plain files hwf1.1
  have hjoin : ∀ f ∈ regularFilesIn files, pathBelow name f.1 = filepath.Join (name :: f.1) := by
    intro f hf
    obtain ⟨⟨c, cs, hc, _⟩, hp⟩ := hplain f hf
    rw [filepath_Join_list name f.1 hp (by rw [hc]; simp)]
  have hentries : (regularFilesIn files).map (fun f => (pathBelow name f.1, f.2))
      = (Node.regularFiles (Node.dir files)).map
          (fun f => (filepath.Join (name :: f.1), f.2)) := by
    simp only [Node.regularFiles]
    apply List.map_congr_left
    intro f hf
    rw [hjoin f hf]
  have hkeys : (((regularFilesIn files).map (fun f => (pathBelow name f.1, f.2))).map
      Prod.fst).Nodup := by
    have hnd := regularFilesIn_nodup files hwf1.1 hwf1.2
    have hcomp : ((regularFilesIn files).map (fun f => (pathBelow name f.1, f.2))).map Prod.fst
        = ((regularFilesIn files).map Prod.fst).map (pathBelow name) := by
      simp [List.map_map, Function.comp_def]
    rw [hcomp]
    apply List.Nodup.map_on _ hnd
    intro x hx y hy hxy
    obtain ⟨f, hf, rfl⟩ := List.mem_map.1 hx
    obtain ⟨g, hg, rfl⟩ := List.mem_map.1 hy
    exact pathBelow_injective name f.1 g.1 (hplain f hf).2 (hplain g hg).2 hxy
  refine ⟨hret, ?_⟩
  have hopen : zip.OpenReader unzip (createZipFile sprintf zipBytes w dst baseDir [name]).1 dst
      = Except.ok ((regularFilesIn files).map (fun f => (pathBelow name f.1, f.2))) := by
    rw [← hentries] at hzip
    simp [zip.OpenReader, hfa, Faults.none, hfs, hzip]
  have hloop := readZipLoop_ok (createZipFile sprintf zipBytes w dst baseDir [name]).1
    (fun _ => by rw [hfa]; rfl) (fun _ => by rw [hfa]; rfl)
    ((regularFilesIn files).map (fun f => (pathBelow name f.1, f.2))) (fun _ => Option.none)
  have hrz : (readZipFile unzip (createZipFile sprintf zipBytes w dst baseDir [name]).1 dst).2
      = Outcome.returned
          (((regularFilesIn files).map (fun f => (pathBelow name f.1, f.2))).foldl
            (fun m e => fun k => if k = e.1 then some e.2 else m k) (fun _ => Option.none)) := by
    simp only [readZipFile, hopen, hloop]
  refine ⟨_, hrz, ?_, ?_⟩
  · intro k b
    rw [foldl_insert_iff _ k b hkeys]
    simp only [List.mem_map, Prod.mk.injEq, Node.regularFiles]
    constructor
    · rintro ⟨f, hf, h1, h2⟩
      refine ⟨f.1, ?_, ?_⟩
      · rw [← h2]; exact hf
      · rw [← h1]; exact hjoin f hf
    · rintro ⟨cs, hcs, hk⟩
      exact ⟨(cs, b), hcs, by rw [hk]; exact hjoin (cs, b) hcs, rfl⟩
  · intro hclean hst cs b hcs
    have hmem : (cs, b) ∈ regularFilesIn files := by simpa [Node.regularFiles] using hcs
    obtain ⟨⟨c, cs2, hc, _⟩, hp⟩ := hplain (cs, b) hmem
    exact filepath_Join_clean_name name cs hclean hst hp (by simp only at hc; rw [hc]; simp)

/-- C1, amended, on the directory of the example, zipped from `base/d` into
`out.zip`: the map read back holds `alpha` under `d/a.txt`, `beta` under
`d/sub/b.txt`, and nothing under `a.txt`. -/
theorem createZipFile_readZipFile_roundtrip_witness :
    ∃ m, (readZipFile toyUnzip
          (createZipFile Sprintf toyZipBytes sampleWorld "out.zip".toList "base".toList
            ["d".toList]).1 "out.zip".toList).2 = Outcome.returned m
      ∧ m "d/a.txt".toList = some "alpha".toList
      ∧ m "d/sub/b.txt".toList = some "beta".toList
      ∧ m "a.txt".toList = Option.none := by
  obtain ⟨_, m, hm, hkeys, _⟩ := createZipFile_readZipFile_roundtrip Sprintf toyZipBytes toyUnzip
    sampleWorld "out.zip".toList "base".toList "d".toList
    [("a.txt".toList, Node.file "alpha".toList),
      ("sub".toList, Node.dir [("b.txt".toList, Node.file "beta".toList)])]
    (toyUnzip_toyZipBytes _) rfl rfl rfl rfl rfl rfl (by decide)
  refine ⟨m, hm, ?_, ?_, ?_⟩
  · exact (hkeys _ _).2 ⟨["a.txt".toList], by decide, by decide⟩
  · exact (hkeys _ _).2 ⟨["sub".toList, "b.txt".toList], by decide, by decide⟩
  · cases h : m "a.txt".toList with
    | none => rfl
    | some b =>
      obtain ⟨cs, hcs, hk⟩ := (hkeys _ _).1 h
      simp only [Node.regularFiles, regularFilesIn, List.map_cons, List.map_nil, List.append_nil,
        List.cons_append, List.nil_append, List.mem_cons, Prod.mk.injEq, List.mem_singleton,
        List.not_mem_nil, or_false] at hcs
      rcases hcs with ⟨h1, _⟩ | ⟨h1, _⟩
      · subst h1; exact absurd hk (by decide)
      · subst h1; exact absurd hk (by decide)

/-- C1 fails as stated: the directory at `base/d` holds two regular files,
`a.txt` and `sub/b.txt`, and nothing is at `base/d/out.zip`. Zipped into
`base/d/out.zip`, the archive is created inside the directory before the
directory is walked: both calls return, and the map read back has a third key,
`d/out.zip`, which is the path of no regular file of the tree, with no bytes
as its value, while the file at `base/d/out.zip` holds the archive. -/
theorem createZipFile_readZipFile_counterexample :
    sampleWorld.fs "base/d".toList = some sampleTree
      ∧ Node.regularOnly sampleTree = true
      ∧ Node.regularFiles sampleTree
          = [(["a.txt".toList], "alpha".toList), (["sub".toList, "b.txt".toList], "beta".toList)]
      ∧ sampleWorld.fs "base/d/out.zip".toList = Option.none
      ∧ (∀ f ∈ Node.regularFiles sampleTree,
          filepath.Join ("d".toList :: f.1) ≠ "d/out.zip".toList)
      ∧ (createZipFile Sprintf toyZipBytes sampleWorld "base/d/out.zip".toList "base".toList
            ["d".toList]).2 = Outcome.returned ()
      ∧ (∃ m, (readZipFile toyUnzip
            (createZipFile Sprintf toyZipBytes sampleWorld "base/d/out.zip".toList "base".toList
              ["d".toList]).1 "base/d/out.zip".toList).2 = Outcome.returned m
          ∧ m "d/out.zip".toList = some []
          ∧ m "d/a.txt".toList = some "alpha".toList
          ∧ m "d/sub/b.txt".toList = some "beta".toList)
      ∧ ioutil.ReadFile (createZipFile Sprintf toyZipBytes sampleWorld "base/d/out.zip".toList
            "base".toList ["d".toList]).1 "base/d/out.zip".toList
          = (toyZipBytes [("d/a.txt".toList, "alpha".toList), ("d/out.zip".toList, []),
              ("d/sub/b.txt".toList, "beta".toList)], Option.none) := by
  refine ⟨rfl, rfl, rfl, rfl, by decide, rfl, ⟨_, rfl, rfl, rfl, rfl⟩, rfl⟩

end DoUtil
